import Mathlib

/-!
# Leaderboard viewer (`src/app.js`): a shallow embedding

The pure core of `app.js` is embedded here: the time codec
(`parseRecordToSeconds`, `formatSecondsToMinSecCs`), the header resolver
(`buildHeaderMap`), the row normaliser (`normalizeRows`), the deduplicator
(`bestOnly`), the comparator (`stableCompare`) and the data part of `render`.

Modelling conventions.

* A JavaScript string is a `List Char` (`Str`).  Every character the embedded
  functions test for is in the Basic Multilingual Plane, so code points and
  UTF-16 code units agree on them.
* A JavaScript Number is a `JSNum`: a finite value carried as an exact
  rational, the two infinities, or NaN.  Every arithmetic operator rounds its
  exact result to IEEE-754 binary64 (`toDouble`: round to nearest, ties to
  even, gradual underflow, overflow to infinity).  The sign of zero is not
  tracked: the embedded code never divides by a zero and prints both zeros as
  the text `0`, so the two zeros are indistinguishable to it.
* `null` / `undefined` are `Option.none`.
* DOM effects (`showDebug`, `innerHTML`, ...) are left out; only the values the
  functions compute are modelled.
-/

namespace Leaderboard

/-! ## Definitions -/

/-! ### JavaScript numbers -/

/-- A JavaScript Number. `fin q` is the finite value `q`. -/
inductive JSNum where
  | fin (q : ℚ)
  | posInf
  | negInf
  | nan
deriving DecidableEq, Inhabited

/-- The power of two `2 ^ e` for an integer exponent, as a rational. -/
def pow2 (e : ℤ) : ℚ :=
  if 0 ≤ e then ((2 ^ e.toNat : ℕ) : ℚ) else 1 / ((2 ^ (-e).toNat : ℕ) : ℚ)

/-- The power of ten `10 ^ e` for an integer exponent, as a rational. -/
def pow10 (e : ℤ) : ℚ :=
  if 0 ≤ e then ((10 ^ e.toNat : ℕ) : ℚ) else 1 / ((10 ^ (-e).toNat : ℕ) : ℚ)

/-- Round a rational to the nearest integer, ties to the even integer. -/
def roundHalfEven (q : ℚ) : ℤ :=
  let f := ⌊q⌋
  let r := q - f
  if r < 1 / 2 then f
  else if 1 / 2 < r then f + 1
  else if f % 2 = 0 then f else f + 1

/-- Auxiliary for `log2`: halve `n` until it is below 2, at most `fuel` times. -/
def log2Fuel : ℕ → ℕ → ℕ
  | 0, _ => 0
  | fuel + 1, n => if 2 ≤ n then log2Fuel fuel (n / 2) + 1 else 0

/-- The floor of the binary logarithm of a positive natural number. -/
def log2 (n : ℕ) : ℕ := log2Fuel n n

/-- The binary exponent of a non-zero rational: the `e` with
`2 ^ e ≤ |q| < 2 ^ (e + 1)`. -/
def binade (q : ℚ) : ℤ :=
  let e0 : ℤ := (log2 q.num.natAbs : ℤ) - (log2 q.den : ℤ)
  if pow2 e0 ≤ |q| then e0 else e0 - 1

/-- The exponent of the unit in the last place a binary64 value near `q` has:
53 significant bits, and never below `2 ^ (-1074)` (subnormal range). -/
def ulpExp (q : ℚ) : ℤ := max (binade q - 52) (-1074)

/-- The multiple of the unit in the last place nearest to `q`, ties to the
even multiple (no bound on the exponent from above). -/
def nearest (q : ℚ) : ℚ := (roundHalfEven (q / pow2 (ulpExp q)) : ℚ) * pow2 (ulpExp q)

/-- IEEE-754 binary64 rounding of an exact result: round to nearest, ties to
even; a rounded magnitude of `2 ^ 1024` or more becomes an infinity. -/
def toDouble (q : ℚ) : JSNum :=
  if q = 0 then .fin 0
  else if pow2 1024 ≤ |nearest q| then (if q < 0 then .negInf else .posInf)
  else .fin (nearest q)

/-- The rational `q` is a binary64 value. -/
def IsDouble (q : ℚ) : Prop := toDouble q = .fin q

/-- Values a Number can hold: a binary64 value, an infinity or NaN. -/
def JSNum.Valid : JSNum → Prop
  | .fin q => IsDouble q
  | _ => True

/-- JavaScript `a + b` on Numbers. -/
def JSNum.add : JSNum → JSNum → JSNum
  | .fin a, .fin b => toDouble (a + b)
  | .fin _, .posInf => .posInf
  | .fin _, .negInf => .negInf
  | .posInf, .fin _ => .posInf
  | .posInf, .posInf => .posInf
  | .negInf, .fin _ => .negInf
  | .negInf, .negInf => .negInf
  | _, _ => .nan

/-- JavaScript `a - b` on Numbers. -/
def JSNum.sub : JSNum → JSNum → JSNum
  | .fin a, .fin b => toDouble (a - b)
  | .fin _, .posInf => .negInf
  | .fin _, .negInf => .posInf
  | .posInf, .fin _ => .posInf
  | .posInf, .negInf => .posInf
  | .negInf, .fin _ => .negInf
  | .negInf, .posInf => .negInf
  | _, _ => .nan

/-- The infinity with the sign of `q`, or NaN for `q = 0` (as in `0 * Infinity`). -/
def signedInf (q : ℚ) : JSNum :=
  if q = 0 then .nan else if 0 < q then .posInf else .negInf

/-- JavaScript `a * b` on Numbers. -/
def JSNum.mul : JSNum → JSNum → JSNum
  | .fin a, .fin b => toDouble (a * b)
  | .fin a, .posInf => signedInf a
  | .fin a, .negInf => signedInf (-a)
  | .posInf, .fin b => signedInf b
  | .negInf, .fin b => signedInf (-b)
  | .posInf, .posInf => .posInf
  | .negInf, .negInf => .posInf
  | .posInf, .negInf => .negInf
  | .negInf, .posInf => .negInf
  | _, _ => .nan

/-- JavaScript `a / b` on Numbers. A zero divisor is taken as `+0`; the
embedded code only divides by the constants 6000 and 100. -/
def JSNum.div : JSNum → JSNum → JSNum
  | .fin a, .fin b => if b = 0 then signedInf a else toDouble (a / b)
  | .fin _, .posInf => .fin 0
  | .fin _, .negInf => .fin 0
  | .posInf, .fin b => if 0 ≤ b then .posInf else .negInf
  | .negInf, .fin b => if 0 ≤ b then .negInf else .posInf
  | _, _ => .nan

/-- JavaScript `a < b` on Numbers (false when either side is NaN). -/
def JSNum.lt : JSNum → JSNum → Bool
  | .fin a, .fin b => decide (a < b)
  | .fin _, .posInf => true
  | .negInf, .fin _ => true
  | .negInf, .posInf => true
  | _, _ => false

/-- JavaScript `a <= b` on Numbers (false when either side is NaN). -/
def JSNum.le : JSNum → JSNum → Bool
  | .fin a, .fin b => decide (a ≤ b)
  | .fin _, .posInf => true
  | .negInf, .fin _ => true
  | .negInf, .posInf => true
  | .posInf, .posInf => true
  | .negInf, .negInf => true
  | _, _ => false

/-- JavaScript `a >= b` on Numbers (false when either side is NaN). -/
def JSNum.ge : JSNum → JSNum → Bool
  | .fin a, .fin b => decide (b ≤ a)
  | .fin _, .negInf => true
  | .posInf, .fin _ => true
  | .posInf, .posInf => true
  | .posInf, .negInf => true
  | .negInf, .negInf => true
  | _, _ => false

/-- JavaScript `a !== b` on Numbers: NaN differs from everything, itself included. -/
def JSNum.strictNe : JSNum → JSNum → Bool
  | .nan, _ => true
  | _, .nan => true
  | a, b => decide (a ≠ b)

/-- The sign of a comparator result as `Array.prototype.sort` reads it
(NaN counts as 0). -/
def JSNum.sign : JSNum → ℤ
  | .fin q => if q < 0 then -1 else if q = 0 then 0 else 1
  | .posInf => 1
  | .negInf => -1
  | .nan => 0

/-- `Number.isFinite`. -/
def JSNum.isFinite : JSNum → Bool
  | .fin _ => true
  | _ => false

/-- `Math.round`: the nearest integer, ties towards positive infinity. -/
def mathRound : JSNum → JSNum
  | .fin q => .fin ⌊q + 1 / 2⌋
  | x => x

/-- `Math.floor`. -/
def mathFloor : JSNum → JSNum
  | .fin q => .fin ⌊q⌋
  | x => x

/-! ### JavaScript strings -/

/-- A JavaScript string, as the list of its characters. -/
abbrev Str := List Char

/-- The characters `String.prototype.trim` strips and the regular-expression
class `\s` matches: ECMAScript WhiteSpace and LineTerminator. -/
def isJsSpace (c : Char) : Bool :=
  [9, 10, 11, 12, 13, 32, 160, 5760, 8232, 8233, 8239, 8287, 12288, 65279].contains c.toNat
    || (8192 ≤ c.toNat && c.toNat ≤ 8202)

/-- The regular-expression class `\d` (without the `u`/`i` flags): `0`..`9`. -/
def isDigit (c : Char) : Bool := 48 ≤ c.toNat && c.toNat ≤ 57

/-- `String.prototype.trim`. -/
def trim (s : Str) : Str :=
  ((s.dropWhile isJsSpace).reverse.dropWhile isJsSpace).reverse

/-- The value of a decimal digit character. -/
def digitVal (c : Char) : ℕ := c.toNat - 48

/-- The mathematical value of a string of decimal digits. -/
def natOfDigits (ds : Str) : ℕ := ds.foldl (fun acc c => 10 * acc + digitVal c) 0

/-- The decimal digits of a natural number, most significant first. -/
def natToDigits (n : ℕ) : Str := Nat.toDigits 10 n

/-! ### Number to string -/

/-- `Number::toString` (radix 10) on the values whose text is fixed by
elementary means: NaN, the infinities, and the integers of magnitude below
`2 ^ 53`, which print as their exact decimal expansion. Other values are
outside the modelled fragment (`none`). -/
def numToString : JSNum → Option Str
  | .nan => some "NaN".toList
  | .posInf => some "Infinity".toList
  | .negInf => some "-Infinity".toList
  | .fin q =>
    if q.den = 1 ∧ q.num.natAbs < 2 ^ 53 then
      some ((if q.num < 0 then ['-'] else []) ++ natToDigits q.num.natAbs)
    else none

/-- `String.prototype.padStart(2, "0")`. -/
def padStart2 (s : Str) : Str := List.replicate (2 - s.length) '0' ++ s

/-! ### String to number -/

/-- The value of a digit in the given radix, if the character is one. -/
def radixDigit (radix : ℕ) (c : Char) : Option ℕ :=
  let v : Option ℕ :=
    if 48 ≤ c.toNat ∧ c.toNat ≤ 57 then some (c.toNat - 48)
    else if 97 ≤ c.toNat ∧ c.toNat ≤ 102 then some (c.toNat - 87)
    else if 65 ≤ c.toNat ∧ c.toNat ≤ 70 then some (c.toNat - 55)
    else none
  v.bind fun d => if d < radix then some d else none

/-- The value of a non-empty string of digits in the given radix. -/
def radixValue (radix : ℕ) : Str → Option ℕ
  | [] => none
  | ds => ds.foldl (fun acc c => acc.bind fun a => (radixDigit radix c).map fun d => radix * a + d)
      (some 0)

/-- NonDecimalIntegerLiteral of the StringToNumber grammar: `0x`, `0o`, `0b`
literals (either case of the letter), unsigned. -/
def nonDecimalLiteral : Str → Option ℕ
  | '0' :: c :: ds =>
    if c = 'x' ∨ c = 'X' then radixValue 16 ds
    else if c = 'o' ∨ c = 'O' then radixValue 8 ds
    else if c = 'b' ∨ c = 'B' then radixValue 2 ds
    else none
  | _ => none

/-- ExponentPart (optional) up to the end of the string: `e`/`E`, an optional
sign, at least one digit. `some 0` when the string is already at its end. -/
def exponentPart : Str → Option ℤ
  | [] => some 0
  | c :: r =>
    if c = 'e' ∨ c = 'E' then
      match r with
      | '+' :: ds => if ds ≠ [] ∧ ds.all isDigit then some (natOfDigits ds : ℤ) else none
      | '-' :: ds => if ds ≠ [] ∧ ds.all isDigit then some (-(natOfDigits ds : ℤ)) else none
      | ds => if ds ≠ [] ∧ ds.all isDigit then some (natOfDigits ds : ℤ) else none
    else none

/-- The digits of the fraction: what follows a leading dot, as far as digits go. -/
def fractionDigits : Str → Str
  | '.' :: t => t.takeWhile isDigit
  | _ => []

/-- What is left after the optional dot and its digits. -/
def afterFraction : Str → Str
  | '.' :: t => t.dropWhile isDigit
  | r => r

/-- StrUnsignedDecimalLiteral other than `Infinity`: digits with an optional
fraction and exponent (`12`, `12.`, `12.5`, `.5`, each with an optional
exponent); the mathematical value of the literal. -/
def unsignedDecimal (s : Str) : Option ℚ :=
  let ip := s.takeWhile isDigit
  let fp := fractionDigits (s.dropWhile isDigit)
  if ip = [] ∧ fp = [] then none
  else (exponentPart (afterFraction (s.dropWhile isDigit))).map fun e =>
    (natOfDigits (ip ++ fp) : ℚ) * pow10 (e - fp.length)

/-- `Number(s)` for a string `s` (StringToNumber): surrounding white space is
ignored, the empty string is 0, a text outside the numeric grammar is NaN, and
the mathematical value of a literal is rounded to binary64. -/
def strToNumber (s0 : Str) : JSNum :=
  let s := trim s0
  if s = [] then .fin 0
  else match nonDecimalLiteral s with
    | some n => toDouble n
    | none =>
      let neg : Bool := s.head? = some '-'
      let body := if s.head? = some '-' ∨ s.head? = some '+' then s.tail else s
      if body = "Infinity".toList then (if neg then .negInf else .posInf)
      else match unsignedDecimal body with
        | some q => toDouble (if neg then -q else q)
        | none => .nan

/-! ### Time codec (`app.js` lines 76-127) -/

/-- Regex `\s*`: skip white space. -/
def skipSpaces (s : Str) : Str := s.dropWhile isJsSpace

/-- Regex `(\d+)`: the longest non-empty run of digits and what follows it. -/
def digits1 (s : Str) : Option (Str × Str) :=
  if s.takeWhile isDigit = [] then none else some (s.takeWhile isDigit, s.dropWhile isDigit)

/-- Regex `(\d+(?:\.\d+)?)`: digits, then a dot with digits if both are there.
A dot that no digit follows is left in the remainder, where no continuation
of the patterns below accepts it. -/
def decimal1 (s : Str) : Option (Str × Str) :=
  (digits1 s).map fun p =>
    match p.2 with
    | '.' :: t =>
      (match digits1 t with
        | some f => (p.1 ++ '.' :: f.1, f.2)
        | none => p)
    | _ => p

/-- A literal character of a pattern. -/
def expectChar (c : Char) : Str → Option Str
  | [] => none
  | d :: r => if d = c then some r else none

/-- Regex `\s*$`: only white space is left. -/
def atEnd (s : Str) : Bool := skipSpaces s = []

/-- The pattern `/^\s*(\d+)\s*분\s*(\d+)\s*초\s*(\d+)\s*$/` with its three
groups. White space, digits and the two unit markers are pairwise disjoint
character sets, so the greedy left-to-right reading is the only way the
pattern can match. -/
def matchMain (s : Str) : Option (Str × Str × Str) :=
  (digits1 (skipSpaces s)).bind fun g1 =>
  (expectChar '분' (skipSpaces g1.2)).bind fun r1 =>
  (digits1 (skipSpaces r1)).bind fun g2 =>
  (expectChar '초' (skipSpaces g2.2)).bind fun r2 =>
  (digits1 (skipSpaces r2)).bind fun g3 =>
  if atEnd g3.2 then some (g1.1, g2.1, g3.1) else none

/-- The pattern `/^\s*(\d+)\s*:\s*(\d+(?:\.\d+)?)\s*$/` with its two groups. -/
def matchMmss (s : Str) : Option (Str × Str) :=
  (digits1 (skipSpaces s)).bind fun g1 =>
  (expectChar ':' (skipSpaces g1.2)).bind fun r1 =>
  (decimal1 (skipSpaces r1)).bind fun g2 =>
  if atEnd g2.2 then some (g1.1, g2.1) else none

/-- The pattern `/^\s*(\d+)\s*분\s*(\d+(?:\.\d+)?)\s*초\s*$/` with its two groups. -/
def matchText (s : Str) : Option (Str × Str) :=
  (digits1 (skipSpaces s)).bind fun g1 =>
  (expectChar '분' (skipSpaces g1.2)).bind fun r1 =>
  (decimal1 (skipSpaces r1)).bind fun g2 =>
  (expectChar '초' (skipSpaces g2.2)).bind fun r2 =>
  if atEnd r2 then some (g1.1, g2.1) else none

/-- `s.replace(/,/g, "")`. -/
def removeCommas (s : Str) : Str := s.filter fun c => c ≠ ','

/-- The first return of `parseRecordToSeconds` (line 86), when the main
pattern matched: the value if the three numbers are finite. -/
def mainValue (g : Str × Str × Str) : Option JSNum :=
  let min := strToNumber g.1
  let sec := strToNumber g.2.1
  let cs := strToNumber g.2.2
  if min.isFinite && sec.isFinite && cs.isFinite then
    some (((min.mul (.fin 60)).add sec).add (cs.div (.fin 100)))
  else none

/-- The returns of lines 94 and 101, when a two-group pattern matched. -/
def pairValue (g : Str × Str) : Option JSNum :=
  let min := strToNumber g.1
  let sec := strToNumber g.2
  if min.isFinite && sec.isFinite then some ((min.mul (.fin 60)).add sec) else none

/-- The last return (lines 104-105): the text without commas, as a Number, if finite. -/
def bareValue (s : Str) : Option JSNum :=
  let n := strToNumber (removeCommas s)
  if n.isFinite then some n else none

/-- `parseRecordToSeconds` on a string. A pattern that matches but whose
numbers are not all finite falls through to the next pattern, as in the
source. -/
def parseRecordToSeconds (v : Str) : Option JSNum :=
  let s := trim v
  if s = [] then none
  else
    ((matchMain s).bind mainValue).orElse fun _ =>
    ((matchMmss s).bind pairValue).orElse fun _ =>
    ((matchText s).bind pairValue).orElse fun _ =>
    bareValue s

/-- The numbers `minutes`, `seconds`, `cs` of `formatSecondsToMinSecCs`
just before the template string is built (lines 110-124). -/
def formatParts (totalSeconds : JSNum) : JSNum × JSNum × JSNum :=
  let sec := totalSeconds
  let totalCs := mathRound (sec.mul (.fin 100))
  let minutes := mathFloor (totalCs.div (.fin 6000))
  let totalCs := totalCs.sub ((minutes.mul (.fin 60)).mul (.fin 100))
  let seconds := mathFloor (totalCs.div (.fin 100))
  let totalCs := totalCs.sub (seconds.mul (.fin 100))
  let cs := totalCs
  let carry1 := cs.ge (.fin 100)
  let cs := if carry1 then .fin 0 else cs
  let seconds := if carry1 then seconds.add (.fin 1) else seconds
  let carry2 := seconds.ge (.fin 60)
  let seconds := if carry2 then .fin 0 else seconds
  let minutes := if carry2 then minutes.add (.fin 1) else minutes
  (minutes, seconds, cs)

/-- `formatSecondsToMinSecCs`: the text of the three numbers (line 126).
`none` only when a number is outside the fragment `numToString` models. -/
def formatSecondsToMinSecCs (totalSeconds : JSNum) : Option Str :=
  let p := formatParts totalSeconds
  (numToString p.1).bind fun m =>
  (numToString p.2.1).bind fun s =>
  (numToString p.2.2).map fun c =>
    m ++ "분 ".toList ++ s ++ "초 ".toList ++ padStart2 c

/-! ### Records, header resolver and row normaliser (lines 10-15, 55-69, 130-179) -/

/-- The normalised unit of data built by `normalizeRows` (line 177). -/
structure PersonRecord where
  name : Str
  studentId : Str
  nick : Str
  recordRaw : Str
  seconds : Option JSNum
deriving DecidableEq, Inhabited

/-- A parsed spreadsheet row: the own properties of the row object, in the
order `Object.keys` lists them, with their (string) values. -/
abbrev Row := List (Str × Str)

/-- The constant `HEADER_PREFIX` (lines 10-15). -/
structure HeaderPrefix where
  name : Str
  studentId : Str
  nick : Str
  record : Str

/-- The value of `HEADER_PREFIX`. -/
def HEADER_PREFIX : HeaderPrefix :=
  { name := "이름".toList
    studentId := "학번".toList
    nick := "리더보드에 표시할 닉네임".toList
    record := "기록".toList }

/-- `normalizeHeader`: drop one leading U+FEFF, then trim. -/
def normalizeHeader (h : Str) : Str :=
  trim (match h with
    | c :: t => if c.toNat = 65279 then t else c :: t
    | [] => [])

/-- `simplify`: the normalised header with every run of white space removed. -/
def simplify (s : Str) : Str := (normalizeHeader s).filter fun c => !isJsSpace c

/-- The `map` object of `buildHeaderMap`: the header found for each logical
field, or `none` for `null`. -/
structure HeaderMap where
  name : Option Str
  studentId : Option Str
  nick : Option Str
  record : Option Str
deriving DecidableEq

/-- The closure `findByPrefix` of `buildHeaderMap`: the first header whose
simplified form starts with the simplified argument; a found empty header is
falsy and becomes `null`. -/
def findByPrefix (headers : List Str) (pre : Str) : Option Str :=
  match headers.find? fun h => (simplify pre).isPrefixOf (simplify h) with
  | some h => if h = [] then none else some h
  | none => none

/-- The `headers` array of `buildHeaderMap`: the normalised keys of the first row. -/
def headersOf (data : List Row) : List Str :=
  match data with
  | [] => []
  | first :: _ => first.map fun kv => normalizeHeader kv.1

/-- `buildHeaderMap`: the headers and the field map. -/
def buildHeaderMap (data : List Row) : List Str × HeaderMap :=
  let headers := headersOf data
  (headers,
    { name := findByPrefix headers HEADER_PREFIX.name
      studentId := findByPrefix headers HEADER_PREFIX.studentId
      nick := findByPrefix headers HEADER_PREFIX.nick
      record := findByPrefix headers HEADER_PREFIX.record })

/-- The closure `get` of `normalizeRows` (line 168): the cell under a mapped
header, or the empty string when the key is `null`/empty or the row has no
such property. -/
def getCell (row : Row) (key : Option Str) : Str :=
  match key with
  | none => []
  | some k => if k = [] then [] else (row.lookup k).getD []

/-- `displayName` (line 68): `(r.nick || r.name || "이름 없음").trim()`. -/
def displayName (r : PersonRecord) : Str :=
  trim (if r.nick ≠ [] then r.nick else if r.name ≠ [] then r.name else "이름 없음".toList)

/-- The record the mapping function of `normalizeRows` builds from one row
(lines 171-177). -/
def toRecord (map : HeaderMap) (row : Row) : PersonRecord :=
  { name := trim (getCell row map.name)
    studentId := trim (getCell row map.studentId)
    nick := trim (getCell row map.nick)
    recordRaw := trim (getCell row map.record)
    seconds := parseRecordToSeconds (trim (getCell row map.record)) }

/-- `normalizeRows`: map every row to its record, keep the records whose
`displayName` is truthy (a non-empty string). -/
def normalizeRows (data : List Row) : List PersonRecord :=
  (data.map (toRecord (buildHeaderMap data).2)).filter fun r => displayName r ≠ []

/-! ### Deduplicator (lines 182-203) -/

/-- `keyForPerson`. -/
def keyForPerson (r : PersonRecord) : Str :=
  if trim r.nick ≠ [] then "N:".toList ++ trim r.nick
  else "S:".toList ++ trim r.name ++ "|".toList ++ trim r.studentId

/-- A JavaScript `Map` from strings to records: its entries in insertion order. -/
abbrev RecordMap := List (Str × PersonRecord)

/-- `Map.prototype.get`. -/
def RecordMap.get (m : RecordMap) (key : Str) : Option PersonRecord :=
  match m with
  | [] => none
  | e :: t => if e.1 = key then some e.2 else RecordMap.get t key

/-- `Map.prototype.set`: an existing key keeps its place, a new key goes last. -/
def RecordMap.set (m : RecordMap) (key : Str) (r : PersonRecord) : RecordMap :=
  match m with
  | [] => [(key, r)]
  | e :: t => if e.1 = key then (key, r) :: t else e :: RecordMap.set t key r

/-- One iteration of the loop of `bestOnly` (lines 189-200). -/
def bestOnlyStep (map : RecordMap) (r : PersonRecord) : RecordMap :=
  let key := keyForPerson r
  match map.get key with
  | none => map.set key r
  | some prev =>
    match prev.seconds, r.seconds with
    | none, some _ => map.set key r
    | some _, none => map
    | some p, some x => if x.lt p then map.set key r else map
    | none, none => map

/-- `bestOnly`: fold the loop over the rows, return the values of the map. -/
def bestOnly (rows : List PersonRecord) : List PersonRecord :=
  (rows.foldl bestOnlyStep []).map Prod.snd

/-! ### Ranker and render (lines 206-250) -/

/-- The tie-break of `stableCompare` (lines 217-221): nickname, then student
id, then name, each by `localeCompare` (an integer stands for the Number it
returns). -/
def tieBreak (localeCompare : Str → Str → ℤ) (a b : PersonRecord) : JSNum :=
  let n := localeCompare a.nick b.nick
  if n ≠ 0 then .fin n
  else
    let s := localeCompare a.studentId b.studentId
    if s ≠ 0 then .fin s
    else .fin (localeCompare a.name b.name)

/-- `stableCompare`, with `String.prototype.localeCompare(.., "ko")` as the
parameter `localeCompare`. -/
def stableCompare (localeCompare : Str → Str → ℤ) (a b : PersonRecord) : JSNum :=
  match a.seconds, b.seconds with
  | none, some _ => .fin 1
  | some _, none => .fin (-1)
  | some x, some y => if x.strictNe y then x.sub y else tieBreak localeCompare a b
  | none, none => tieBreak localeCompare a b

/-- How `Array.prototype.sort` reads a comparator result `v`: `a` may stay
before `b` unless `v > 0` (NaN counts as 0). -/
def notAfter (v : JSNum) : Bool :=
  match v with
  | .fin q => decide (q ≤ 0)
  | .posInf => false
  | .negInf => true
  | .nan => true

/-- Insert `a` before the first element that must not precede it. -/
def sortInsert (cmp : PersonRecord → PersonRecord → JSNum) (a : PersonRecord) :
    List PersonRecord → List PersonRecord
  | [] => [a]
  | b :: l => if notAfter (cmp a b) then a :: b :: l else b :: sortInsert cmp a l

/-- `Array.prototype.sort(cmp)`: ECMAScript requires a stable sort, and under a
consistent comparator the stable sorted order is unique; it is computed here
by insertion from the right. -/
def arraySort (cmp : PersonRecord → PersonRecord → JSNum) :
    List PersonRecord → List PersonRecord
  | [] => []
  | a :: l => sortInsert cmp a (arraySort cmp l)

/-- `String.prototype.includes`. -/
def includes (s q : Str) : Bool := s.tails.any fun t => q.isPrefixOf t

/-- The sorted `rows` of `render` (lines 226-237) for the search box value `input`
and the loaded `rawRows`; `toLowerCase` stands for `String.prototype.toLowerCase`. -/
def renderRows (localeCompare : Str → Str → ℤ) (toLowerCase : Str → Str)
    (input : Str) (rawRows : List PersonRecord) : List PersonRecord :=
  let q := trim (toLowerCase input)
  let rows := bestOnly rawRows
  let rows := if q ≠ [] then
      rows.filter fun r =>
        includes (toLowerCase r.nick) q || includes (toLowerCase r.name) q
          || includes (toLowerCase r.studentId) q
    else rows
  arraySort (stableCompare localeCompare) rows

/-- The honor roll of `render` (lines 249-250): `rows.filter(r => r.seconds != null)`
then `slice(0, 3)`. -/
def top3Of (rows : List PersonRecord) : List PersonRecord :=
  (rows.filter fun r => r.seconds ≠ none).take 3

/-- The `top3` array `render` computes. -/
def renderTop3 (localeCompare : Str → Str → ℤ) (toLowerCase : Str → Str)
    (input : Str) (rawRows : List PersonRecord) : List PersonRecord :=
  top3Of (renderRows localeCompare toLowerCase input rawRows)

/-- The data `render` turns into markup: the sorted `rows` and the `top3`
honor roll. The early return for an empty `rows` (lines 240-245) shows an empty
honor roll as well. -/
def render (localeCompare : Str → Str → ℤ) (toLowerCase : Str → Str)
    (input : Str) (rawRows : List PersonRecord) : List PersonRecord × List PersonRecord :=
  (renderRows localeCompare toLowerCase input rawRows,
    renderTop3 localeCompare toLowerCase input rawRows)

/-! ### Invariants of the loop of `bestOnly` -/

/-- The shape of the map after the rows `done` have been processed: every entry
is filed under the key of its record, keys are distinct, records come from the
rows, and the keys are exactly the keys of the rows. -/
structure KeysInv (m : RecordMap) (done : List PersonRecord) : Prop where
  key_eq : ∀ e ∈ m, e.1 = keyForPerson e.2
  nodup : (m.map Prod.fst).Nodup
  mem : ∀ e ∈ m, e.2 ∈ done
  keys : ∀ k, k ∈ m.map Prod.fst ↔ k ∈ done.map keyForPerson

/-- The record `k` is no worse than the row `r`: if `r` has a time, `k` has one
that is not larger. -/
def Better (k r : PersonRecord) : Prop :=
  ∀ x, r.seconds = some x → ∃ y, k.seconds = some y ∧ y.le x = true

/-- After the rows `done`, each of them finds under its key a record no worse
than itself. -/
def BestInv (m : RecordMap) (done : List PersonRecord) : Prop :=
  ∀ r ∈ done, ∃ k, m.get (keyForPerson r) = some k ∧ Better k r

/-! ### Concrete data used by the closed statements -/

/-- The header row of the spec's scenario. -/
def sheetHeaders : List Str :=
  ["이름 (ex.홍길동)".toList, "학번".toList, "리더보드에 표시할 닉네임 (선택)".toList,
    "기록 (예: 1분 30초 12)".toList]

/-- A row under `sheetHeaders` with the given name, student id, nickname and
record cells. -/
def sheetRow (name studentId nick record : String) : Row :=
  sheetHeaders.zip [name.toList, studentId.toList, nick.toList, record.toList]

/-- The three rows of the spec's scenario: A with two attempts, B without a time. -/
def scenarioData : List Row :=
  [sheetRow "" "" "A" "1분 0초 00", sheetRow "" "" "A" "0분 59초 50", sheetRow "" "" "B" ""]

/-- The first attempt of A, as a record. -/
def recordA1 : PersonRecord :=
  { name := [], studentId := [], nick := "A".toList, recordRaw := "1분 0초 00".toList,
    seconds := some (.fin 60) }

/-- The second attempt of A, as a record. -/
def recordA2 : PersonRecord :=
  { name := [], studentId := [], nick := "A".toList, recordRaw := "0분 59초 50".toList,
    seconds := some (.fin (119 / 2)) }

/-- The row of B, as a record. -/
def recordB : PersonRecord :=
  { name := [], studentId := [], nick := "B".toList, recordRaw := [], seconds := none }

/-! ### The order `stableCompare` sorts by -/

/-- A record whose time, if any, is a Number other than NaN. -/
def PersonRecord.TimeOk (r : PersonRecord) : Prop :=
  ∀ x, r.seconds = some x → x.Valid ∧ x ≠ .nan

/-- The position of a time among the classes the comparator separates:
negative infinity, finite values, positive infinity, then no time. -/
def timeClass : Option JSNum → ℕ
  | some .negInf => 0
  | some (.fin _) => 1
  | some .posInf => 2
  | some .nan => 3
  | none => 4

/-- The finite value of a time (0 for the other classes). -/
def timeValue : Option JSNum → ℚ
  | some (.fin q) => q
  | _ => 0

/-- The record `a` ranks strictly ahead of `b` on the time alone. -/
def Before (a b : PersonRecord) : Prop :=
  timeClass a.seconds < timeClass b.seconds ∨
    (timeClass a.seconds = timeClass b.seconds ∧ timeValue a.seconds < timeValue b.seconds)

/-- A collation used to instantiate the comparator in closed statements:
shorter strings first. It is sign-antisymmetric and transitive. -/
def lengthCollation (s t : Str) : ℤ := (s.length : ℤ) - (t.length : ℤ)

/-! ### Shapes of text -/

/-- A non-empty string of decimal digits. -/
def IsDigits (d : Str) : Prop := d ≠ [] ∧ ∀ c ∈ d, isDigit c = true

/-- A (possibly empty) string of white space. -/
def IsSpaces (w : Str) : Prop := ∀ c ∈ w, isJsSpace c = true

/-- The string does not start with a digit. -/
def NoDigitHead (r : Str) : Prop := ∀ c, r.head? = some c → isDigit c = false

/-- The string does not start with white space. -/
def NoSpaceHead (r : Str) : Prop := ∀ c, r.head? = some c → isJsSpace c = false

/-- Text of the primary grammar: minutes, the marker 분, seconds, the marker 초,
centiseconds, with white space `w1`..`w4` around the markers. -/
def mainText (dm w1 w2 ds w3 w4 dc : Str) : Str :=
  dm ++ (w1 ++ '분' :: (w2 ++ (ds ++ (w3 ++ '초' :: (w4 ++ dc)))))

/-- The value line 86 computes from the three numbers of the main pattern:
`min * 60 + sec + cs / 100`, each operation rounded to binary64. -/
def mainFormula (min sec cs : JSNum) : JSNum :=
  ((min.mul (.fin 60)).add sec).add (cs.div (.fin 100))

/-! ### Statements about the header resolver -/

/-- The header test of `findByPrefix` (line 136): the simplified header starts
with the simplified prefix. -/
def headerMatches (pre h : Str) : Bool := (simplify pre).isPrefixOf (simplify h)

/-- The result `res` is the first header of `headers`, in list order, that
passes `headerMatches pre`, or `none` when no header passes. -/
def FirstMatch (headers : List Str) (pre : Str) (res : Option Str) : Prop :=
  match res with
  | some h => ∃ before after, headers = before ++ h :: after ∧ headerMatches pre h = true ∧
      ∀ x ∈ before, headerMatches pre x = false
  | none => ∀ x ∈ headers, headerMatches pre x = false

/-- The claim's "BOM-stripped" form, written from its words: the text without
one leading byte-order mark U+FEFF. -/
def specBomStripped : Str → Str
  | [] => []
  | c :: t => if c.toNat = 65279 then t else c :: t

/-- The claim's "whitespace-collapsed" form, written from its words: the text
with every white-space character removed. -/
def specWhitespaceCollapsed (s : Str) : Str := s.filter fun c => !isJsSpace c

/-- The claim's header test, written from its words: the BOM-stripped,
whitespace-collapsed form of the header starts with the whitespace-collapsed
prefix. -/
def specHeaderMatches (pre h : Str) : Bool :=
  (specWhitespaceCollapsed pre).isPrefixOf (specWhitespaceCollapsed (specBomStripped h))

/-- The result `res` is the first element of `headers`, in list order, that
passes the test `p`, or `none` when no element passes. -/
def FirstWith (p : Str → Bool) (headers : List Str) (res : Option Str) : Prop :=
  match res with
  | some h => ∃ before after, headers = before ++ h :: after ∧ p h = true ∧
      ∀ x ∈ before, p x = false
  | none => ∀ x ∈ headers, p x = false

/-- A first row whose keys carry a byte-order mark, outer white space, and
tabs, doubled spaces and an ideographic space inside. -/
def messyRow : Row :=
  [(Char.ofNat 65279 :: " 이 름\t(ex.홍길동) ".toList, "x".toList),
    ("학  번".toList, "x".toList),
    ("리더보드에표시할".toList ++ Char.ofNat 12288 :: "닉네임 (선택)".toList, "x".toList),
    ("\t기록 (예)\n".toList, "x".toList)]

/-- A first row with two headers that match the name prefix, one that holds
the prefix but not at its start, and no nickname or record column. -/
def partialRow : Row :=
  [("성명".toList, "x".toList), ("내 이름".toList, "x".toList), ("이름A".toList, "x".toList),
    ("이름B".toList, "x".toList), ("학번".toList, "x".toList)]

/-- The string a record field gets from a row for a mapped header: the value
under that header, or the empty string when the field is unmapped or the row
has no such property. -/
def cellText (row : Row) (key : Option Str) : Str :=
  ((key.bind fun k => row.lookup k).getD [])

/-! ### Statements about the deduplicator -/

/-- The row `a` is strictly better than `b` as the loop of `bestOnly` tests it
(lines 194-198): `a` has a time and `b` has none, or both have a time and
`a.seconds < b.seconds`. -/
def StrictlyBetter (a b : PersonRecord) : Prop :=
  match a.seconds, b.seconds with
  | some _, none => True
  | some x, some y => x.lt y = true
  | none, _ => False

/-- The record `x` is the earliest of the rows `rows` with its key that attains
the best time of that key: every earlier row of the key is strictly worse
than `x`, no later row of the key is strictly better. -/
def EarliestBest (x : PersonRecord) (rows : List PersonRecord) : Prop :=
  ∃ before after, rows = before ++ x :: after ∧
    (∀ r ∈ before, keyForPerson r = keyForPerson x → StrictlyBetter x r) ∧
    (∀ r ∈ after, keyForPerson r = keyForPerson x → ¬ StrictlyBetter r x)

/-- After the rows `done`, every record of the map is the earliest best row of
its key. -/
def FirstBestInv (m : RecordMap) (done : List PersonRecord) : Prop :=
  ∀ k x, m.get k = some x → EarliestBest x done

/-! ### Markup escaping (lines 61-66) -/

/-- `String.prototype.replaceAll` for a pattern of one character: every
occurrence of `c` is replaced by `r`, left to right. -/
def replaceAll (c : Char) (r : Str) : Str → Str
  | [] => []
  | d :: t => (if d = c then r else [d]) ++ replaceAll c r t

/-- `escapeHtml`: the three replacements in the order of the source. -/
def escapeHtml (s : Str) : Str :=
  replaceAll '>' "&gt;".toList (replaceAll '<' "&lt;".toList (replaceAll '&' "&amp;".toList s))

/-- Replacing the entities back, in one pass from the left: `&amp;` becomes
`&`, `&lt;` becomes `<`, `&gt;` becomes `>`, any other character stays. -/
def unescapeHtml : Str → Str
  | '&' :: 'a' :: 'm' :: 'p' :: ';' :: t => '&' :: unescapeHtml t
  | '&' :: 'l' :: 't' :: ';' :: t => '<' :: unescapeHtml t
  | '&' :: 'g' :: 't' :: ';' :: t => '>' :: unescapeHtml t
  | c :: t => c :: unescapeHtml t
  | [] => []

/-- What `escapeHtml` writes for one character. -/
def escapeChar (c : Char) : Str :=
  if c = '&' then "&amp;".toList else if c = '<' then "&lt;".toList
  else if c = '>' then "&gt;".toList else [c]

/-- Two sheet rows of two different persons, without nicknames, whose names
and student ids differ but give the same text around the separator. -/
def barData : List Row :=
  [sheetRow "a|b" "c" "" "1분 0초 00", sheetRow "a" "b|c" "" "0분 50초 00"]

/-- The record of the first row of `barData`. -/
def barRecord1 : PersonRecord :=
  { name := "a|b".toList, studentId := "c".toList, nick := [],
    recordRaw := "1분 0초 00".toList, seconds := some (.fin 60) }

/-- The record of the second row of `barData`. -/
def barRecord2 : PersonRecord :=
  { name := "a".toList, studentId := "b|c".toList, nick := [],
    recordRaw := "0분 50초 00".toList, seconds := some (.fin 50) }

/-- A sheet with a real time and a cell that holds a negative number. -/
def negativeData : List Row :=
  [sheetRow "" "" "A" "0분 59초 50", sheetRow "" "" "B" "-5"]

/-- The numbers `minutes`, `seconds`, `cs` of `formatSecondsToMinSecCs` after
the floor-based decomposition and before the two carry tests (lines 113-120). -/
def formatDecompose (totalSeconds : JSNum) : JSNum × JSNum × JSNum :=
  let sec := totalSeconds
  let totalCs := mathRound (sec.mul (.fin 100))
  let minutes := mathFloor (totalCs.div (.fin 6000))
  let totalCs := totalCs.sub ((minutes.mul (.fin 60)).mul (.fin 100))
  let seconds := mathFloor (totalCs.div (.fin 100))
  let totalCs := totalCs.sub (seconds.mul (.fin 100))
  let cs := totalCs
  (minutes, seconds, cs)

/-- The two carry tests of lines 123-124 as the code evaluates them: `cs >= 100`
on the decomposed `cs`, then `seconds >= 60` on the seconds the first
correction leaves. -/
def carryTaken (totalSeconds : JSNum) : Bool × Bool :=
  let p := formatDecompose totalSeconds
  let carry1 := p.2.2.ge (.fin 100)
  let seconds := if carry1 then p.2.1.add (.fin 1) else p.2.1
  (carry1, seconds.ge (.fin 60))

/-! ## Lemmas and theorems -/

/-! ### The record map -/

theorem RecordMap.get_eq_none_iff (m : RecordMap) (key : Str) :
    m.get key = none ↔ key ∉ m.map Prod.fst := by
  induction m with
  | nil => simp [RecordMap.get]
  | cons e t ih =>
    by_cases h : e.1 = key
    · simp [RecordMap.get, h]
    · simp only [RecordMap.get, h, if_false, ih, List.map_cons, List.mem_cons, not_or]
      constructor
      · intro h2; exact ⟨fun h3 => h h3.symm, h2⟩
      · intro h2; exact h2.2

theorem RecordMap.mem_of_get (m : RecordMap) (key : Str) (r : PersonRecord)
    (h : m.get key = some r) : (key, r) ∈ m := by
  induction m with
  | nil => simp [RecordMap.get] at h
  | cons e t ih =>
    by_cases hk : e.1 = key
    · simp only [RecordMap.get, hk, if_true, Option.some.injEq] at h
      subst hk; subst h; simp
    · simp only [RecordMap.get, hk, if_false] at h
      exact List.mem_cons_of_mem _ (ih h)

theorem RecordMap.get_of_mem (m : RecordMap) (key : Str) (r : PersonRecord)
    (hnd : (m.map Prod.fst).Nodup) (h : (key, r) ∈ m) : m.get key = some r := by
  induction m with
  | nil => simp at h
  | cons e t ih =>
    simp only [List.map_cons, List.nodup_cons] at hnd
    rcases List.mem_cons.1 h with h1 | h1
    · subst h1; simp [RecordMap.get]
    · have hne : e.1 ≠ key := by
        intro he
        exact hnd.1 (he ▸ List.mem_map_of_mem Prod.fst h1)
      simp only [RecordMap.get, hne, if_false]
      exact ih hnd.2 h1

theorem RecordMap.keys_set_of_mem (m : RecordMap) (key : Str) (r : PersonRecord)
    (h : key ∈ m.map Prod.fst) : (m.set key r).map Prod.fst = m.map Prod.fst := by
  induction m with
  | nil => simp at h
  | cons e t ih =>
    by_cases hk : e.1 = key
    · simp [RecordMap.set, hk]
    · have ht : key ∈ t.map Prod.fst := by
        simp only [List.map_cons, List.mem_cons] at h
        rcases h with h | h
        · exact absurd h.symm hk
        · exact h
      simp [RecordMap.set, hk, ih ht]

theorem RecordMap.keys_set_of_not_mem (m : RecordMap) (key : Str) (r : PersonRecord)
    (h : key ∉ m.map Prod.fst) : (m.set key r).map Prod.fst = m.map Prod.fst ++ [key] := by
  induction m with
  | nil => simp [RecordMap.set]
  | cons e t ih =>
    simp only [List.map_cons, List.mem_cons, not_or] at h
    have hk : e.1 ≠ key := fun he => h.1 he.symm
    simp [RecordMap.set, hk, ih h.2]

theorem RecordMap.mem_set (m : RecordMap) (key : Str) (r : PersonRecord) (e : Str × PersonRecord)
    (h : e ∈ m.set key r) : e = (key, r) ∨ e ∈ m := by
  induction m with
  | nil => simp [RecordMap.set] at h; exact Or.inl h
  | cons d t ih =>
    by_cases hk : d.1 = key
    · simp only [RecordMap.set, hk, if_true, List.mem_cons] at h
      rcases h with h | h
      · exact Or.inl h
      · exact Or.inr (List.mem_cons_of_mem _ h)
    · simp only [RecordMap.set, hk, if_false, List.mem_cons] at h
      rcases h with h | h
      · exact Or.inr (h ▸ List.mem_cons_self _ _)
      · rcases ih h with h | h
        · exact Or.inl h
        · exact Or.inr (List.mem_cons_of_mem _ h)

theorem RecordMap.get_set_self (m : RecordMap) (key : Str) (r : PersonRecord) :
    (m.set key r).get key = some r := by
  induction m with
  | nil => simp [RecordMap.set, RecordMap.get]
  | cons d t ih =>
    by_cases hk : d.1 = key
    · simp [RecordMap.set, RecordMap.get, hk]
    · simp [RecordMap.set, RecordMap.get, hk, ih]

theorem RecordMap.get_set_of_ne (m : RecordMap) (key k2 : Str) (r : PersonRecord) (h : k2 ≠ key) :
    (m.set key r).get k2 = m.get k2 := by
  induction m with
  | nil => simp [RecordMap.set, RecordMap.get, h.symm]
  | cons d t ih =>
    by_cases hk : d.1 = key
    · have : d.1 ≠ k2 := fun hh => h (hh ▸ hk)
      simp [RecordMap.set, RecordMap.get, hk, h.symm, this]
    · by_cases hk2 : d.1 = k2
      · simp [RecordMap.set, RecordMap.get, hk, hk2, h]
      · simp [RecordMap.set, RecordMap.get, hk, hk2, ih]

/-- What one loop iteration does to the map, by cases on the source's tests. -/
theorem bestOnlyStep_cases (m : RecordMap) (r : PersonRecord) :
    bestOnlyStep m r = m.set (keyForPerson r) r ∨
      (bestOnlyStep m r = m ∧ keyForPerson r ∈ m.map Prod.fst) := by
  cases hg : m.get (keyForPerson r) with
  | none => left; simp only [bestOnlyStep, hg]
  | some prev =>
    have hmem : keyForPerson r ∈ m.map Prod.fst := by
      by_contra hc
      rw [← RecordMap.get_eq_none_iff] at hc
      rw [hc] at hg; cases hg
    cases hp : prev.seconds <;> cases hr : r.seconds <;>
      simp only [bestOnlyStep, hg, hp, hr, hmem, and_true, true_or, or_true]
    split_ifs <;> simp

/-! ### The loop of `bestOnly` keeps its invariants -/

theorem keysInv_nil : KeysInv [] [] :=
  ⟨by simp, by simp, by simp, by simp⟩

theorem keysInv_step {m : RecordMap} {done : List PersonRecord} (h : KeysInv m done)
    (r : PersonRecord) : KeysInv (bestOnlyStep m r) (done ++ [r]) := by
  rcases bestOnlyStep_cases m r with hs | ⟨hs, hk⟩
  · rw [hs]
    refine ⟨?_, ?_, ?_, ?_⟩
    · intro e he
      rcases RecordMap.mem_set m _ r e he with he | he
      · rw [he]
      · exact h.key_eq e he
    · by_cases hk : keyForPerson r ∈ m.map Prod.fst
      · rw [RecordMap.keys_set_of_mem m _ r hk]; exact h.nodup
      · rw [RecordMap.keys_set_of_not_mem m _ r hk]
        exact List.Nodup.append h.nodup (List.nodup_singleton _) (by simpa using hk)
    · intro e he
      rcases RecordMap.mem_set m _ r e he with he | he
      · rw [he]; simp
      · exact List.mem_append_left _ (h.mem e he)
    · intro k
      by_cases hk : keyForPerson r ∈ m.map Prod.fst
      · rw [RecordMap.keys_set_of_mem m _ r hk, h.keys k]
        simp only [List.map_append, List.map_cons, List.map_nil, List.mem_append,
          List.mem_singleton]
        constructor
        · exact Or.inl
        · rintro (h1 | h1)
          · exact h1
          · rw [h1]; exact (h.keys _).1 hk
      · rw [RecordMap.keys_set_of_not_mem m _ r hk]
        simp only [List.map_append, List.map_cons, List.map_nil, List.mem_append,
          List.mem_singleton, h.keys k]
  · rw [hs]
    refine ⟨h.key_eq, h.nodup, fun e he => List.mem_append_left _ (h.mem e he), ?_⟩
    intro k
    rw [h.keys k]
    simp only [List.map_append, List.map_cons, List.map_nil, List.mem_append, List.mem_singleton]
    constructor
    · exact Or.inl
    · rintro (h1 | h1)
      · exact h1
      · rw [h1]; exact (h.keys _).1 hk

theorem keysInv_foldl (l : List PersonRecord) :
    ∀ (m : RecordMap) (done : List PersonRecord), KeysInv m done →
      KeysInv (l.foldl bestOnlyStep m) (done ++ l) := by
  induction l with
  | nil => intro m done h; simpa using h
  | cons r t ih =>
    intro m done h
    have := ih (bestOnlyStep m r) (done ++ [r]) (keysInv_step h r)
    simpa using this

theorem keysInv_bestOnly (rows : List PersonRecord) :
    KeysInv (rows.foldl bestOnlyStep []) rows := by
  simpa using keysInv_foldl rows [] [] keysInv_nil

theorem bestOnly_map_key (rows : List PersonRecord) :
    (bestOnly rows).map keyForPerson = (rows.foldl bestOnlyStep []).map Prod.fst := by
  unfold bestOnly
  rw [List.map_map]
  apply List.map_congr_left
  intro e he
  exact ((keysInv_bestOnly rows).key_eq e he).symm

/-- C4. One entry per person: the records `bestOnly` returns have pairwise
distinct identity keys, their keys are exactly the keys of the input rows, and
each returned record is one of the input records. -/
theorem bestOnly_one_per_key (rows : List PersonRecord) :
    ((bestOnly rows).map keyForPerson).Nodup ∧
      (∀ k, k ∈ (bestOnly rows).map keyForPerson ↔ k ∈ rows.map keyForPerson) ∧
      ∀ r ∈ bestOnly rows, r ∈ rows := by
  have h := keysInv_bestOnly rows
  refine ⟨?_, ?_, ?_⟩
  · rw [bestOnly_map_key]; exact h.nodup
  · intro k; rw [bestOnly_map_key]; exact h.keys k
  · intro r hr
    unfold bestOnly at hr
    rcases List.mem_map.1 hr with ⟨e, he, rfl⟩
    exact h.mem e he

/-- C7. Top-3 exclusion: the honor roll `render` computes holds no record
without a time, has `min 3 k` entries where `k` counts the sorted rows with a
time, and is a prefix (same order) of the sorted rows with a time. -/
theorem top3_exclusion (localeCompare : Str → Str → ℤ) (toLowerCase : Str → Str)
    (input : Str) (rawRows : List PersonRecord) :
    (∀ r ∈ (render localeCompare toLowerCase input rawRows).2, r.seconds ≠ none) ∧
      (render localeCompare toLowerCase input rawRows).2.length =
        min 3 ((render localeCompare toLowerCase input rawRows).1.filter
          fun r => r.seconds ≠ none).length ∧
      (render localeCompare toLowerCase input rawRows).2 <+:
        (render localeCompare toLowerCase input rawRows).1.filter fun r => r.seconds ≠ none := by
  unfold render renderTop3 top3Of
  refine ⟨?_, ?_, ?_⟩
  · intro r hr
    have := List.mem_of_mem_take hr
    simpa using (List.mem_filter.1 this).2
  · simp [List.length_take]
  · exact List.take_prefix _ _

/-! ### Order facts on Numbers -/

theorem JSNum.le_refl_of_ne_nan (x : JSNum) (h : x ≠ .nan) : x.le x = true := by
  cases x <;> simp [JSNum.le] at h ⊢

theorem JSNum.le_of_lt_of_le {x p z : JSNum} (h1 : x.lt p = true) (h2 : p.le z = true) :
    x.le z = true := by
  cases x <;> cases p <;> cases z <;> simp [JSNum.lt, JSNum.le] at h1 h2 ⊢
  exact le_of_lt (lt_of_lt_of_le h1 h2)

theorem JSNum.le_of_not_lt {x p : JSNum} (hx : x ≠ .nan) (hp : p ≠ .nan)
    (h : x.lt p = false) : p.le x = true := by
  cases x <;> cases p <;> simp [JSNum.lt, JSNum.le] at h hx hp ⊢
  exact h

theorem JSNum.le_true_of_lt {x p : JSNum} (h : x.lt p = true) : x.le p = true := by
  cases x <;> cases p <;> simp [JSNum.lt, JSNum.le] at h ⊢
  exact le_of_lt h

/-! ### The kept record is at least as good as every row of its key -/

theorem better_refl_of_ne_nan (r : PersonRecord) (h : r.seconds ≠ some .nan) : Better r r := by
  intro x hx
  refine ⟨x, hx, JSNum.le_refl_of_ne_nan x ?_⟩
  rintro rfl
  exact h hx

theorem bestInv_step {m : RecordMap} {done : List PersonRecord} (hk : KeysInv m done)
    (h : BestInv m done) (hnan : ∀ r ∈ done, r.seconds ≠ some .nan)
    (r : PersonRecord) (hr : r.seconds ≠ some .nan) :
    BestInv (bestOnlyStep m r) (done ++ [r]) := by
  intro r0 hr0
  rcases List.mem_append.1 hr0 with hr0 | hr0
  · -- an earlier row
    obtain ⟨k, hget, hbet⟩ := h r0 hr0
    by_cases hkey : keyForPerson r0 = keyForPerson r
    · rw [hkey] at hget ⊢
      cases hp : k.seconds with
      | none =>
        cases hrs : r.seconds with
        | none =>
          refine ⟨k, ?_, hbet⟩
          simp only [bestOnlyStep, hget, hp, hrs]
        | some x =>
          refine ⟨r, ?_, ?_⟩
          · simp only [bestOnlyStep, hget, hp, hrs]
            exact RecordMap.get_set_self _ _ _
          · intro z hz
            obtain ⟨y, hy, _⟩ := hbet z hz
            rw [hp] at hy; cases hy
      | some p =>
        cases hrs : r.seconds with
        | none =>
          refine ⟨k, ?_, hbet⟩
          simp only [bestOnlyStep, hget, hp, hrs]
        | some x =>
          by_cases hlt : x.lt p = true
          · refine ⟨r, ?_, ?_⟩
            · simp only [bestOnlyStep, hget, hp, hrs, hlt, if_true]
              exact RecordMap.get_set_self _ _ _
            · intro z hz
              obtain ⟨y, hy, hyz⟩ := hbet z hz
              rw [hp] at hy
              cases hy
              exact ⟨x, hrs, JSNum.le_of_lt_of_le hlt hyz⟩
          · refine ⟨k, ?_, hbet⟩
            simp only [bestOnlyStep, hget, hp, hrs, hlt]
            simpa using hget
    · refine ⟨k, ?_, hbet⟩
      rcases bestOnlyStep_cases m r with hs | ⟨hs, _⟩
      · rw [hs, RecordMap.get_set_of_ne _ _ _ _ hkey]; exact hget
      · rw [hs]; exact hget
  · -- the new row
    have hr0' : r0 = r := by simpa using hr0
    subst hr0'
    cases hget : m.get (keyForPerson r0) with
    | none =>
      refine ⟨r0, ?_, better_refl_of_ne_nan r0 hr⟩
      simp only [bestOnlyStep, hget]
      exact RecordMap.get_set_self _ _ _
    | some prev =>
      have hprev : prev.seconds ≠ some .nan :=
        hnan prev (hk.mem _ (RecordMap.mem_of_get m _ prev hget))
      cases hp : prev.seconds with
      | none =>
        cases hrs : r0.seconds with
        | none =>
          refine ⟨prev, ?_, ?_⟩
          · simp only [bestOnlyStep, hget, hp, hrs]
          · intro z hz; rw [hrs] at hz; cases hz
        | some x =>
          refine ⟨r0, ?_, better_refl_of_ne_nan r0 hr⟩
          simp only [bestOnlyStep, hget, hp, hrs]
          exact RecordMap.get_set_self _ _ _
      | some p =>
        cases hrs : r0.seconds with
        | none =>
          refine ⟨prev, ?_, ?_⟩
          · simp only [bestOnlyStep, hget, hp, hrs]
          · intro z hz; rw [hrs] at hz; cases hz
        | some x =>
          by_cases hlt : x.lt p = true
          · refine ⟨r0, ?_, better_refl_of_ne_nan r0 hr⟩
            simp only [bestOnlyStep, hget, hp, hrs, hlt, if_true]
            exact RecordMap.get_set_self _ _ _
          · refine ⟨prev, ?_, ?_⟩
            · simp only [bestOnlyStep, hget, hp, hrs, hlt]
              simpa using hget
            · intro z hz
              rw [hrs] at hz
              cases hz
              refine ⟨p, hp, JSNum.le_of_not_lt ?_ ?_ (by simpa using hlt)⟩
              · rintro rfl; exact hr hrs
              · rintro rfl; exact hprev hp

theorem bestInv_foldl (l : List PersonRecord) :
    ∀ (m : RecordMap) (done : List PersonRecord), KeysInv m done → BestInv m done →
      (∀ r ∈ done ++ l, r.seconds ≠ some .nan) →
      BestInv (l.foldl bestOnlyStep m) (done ++ l) := by
  induction l with
  | nil => intro m done _ h _; simpa using h
  | cons r t ih =>
    intro m done hk h hnan
    have h1 : ∀ r ∈ done, r.seconds ≠ some .nan := fun x hx =>
      hnan x (List.mem_append_left _ hx)
    have h2 : r.seconds ≠ some .nan := hnan r (by simp)
    have := ih (bestOnlyStep m r) (done ++ [r]) (keysInv_step hk r) (bestInv_step hk h h1 r h2)
      (by simpa using hnan)
    simpa using this

/-- C3. Dedup monotonicity: for rows whose times are Numbers other than NaN
(all that `parseRecordToSeconds` yields) and every row `r`, exactly one output
record `k` carries the identity key of `r`, and if `r` has a time then `k` has a
time that is not larger. -/
theorem bestOnly_monotone (rows : List PersonRecord)
    (hnan : ∀ r ∈ rows, r.seconds ≠ some .nan) (r : PersonRecord) (hr : r ∈ rows) :
    ∃ k, k ∈ bestOnly rows ∧ keyForPerson k = keyForPerson r ∧
      (∀ k2 ∈ bestOnly rows, keyForPerson k2 = keyForPerson r → k2 = k) ∧
      ∀ x, r.seconds = some x → ∃ y, k.seconds = some y ∧ y.le x = true := by
  have hk := keysInv_bestOnly rows
  have hb : BestInv (rows.foldl bestOnlyStep []) rows := by
    have := bestInv_foldl rows [] [] keysInv_nil (by intro r hr; simp at hr) (by simpa using hnan)
    simpa using this
  obtain ⟨k, hget, hbet⟩ := hb r hr
  have hmem := RecordMap.mem_of_get _ _ _ hget
  refine ⟨k, ?_, ?_, ?_, hbet⟩
  · exact List.mem_map.2 ⟨_, hmem, rfl⟩
  · exact (hk.key_eq _ hmem).symm
  · intro k2 hk2 hkey
    rcases List.mem_map.1 hk2 with ⟨e, he, rfl⟩
    have h1 : e.1 = keyForPerson r := by rw [hk.key_eq e he]; exact hkey
    have h2 := RecordMap.get_of_mem _ e.1 e.2 hk.nodup he
    rw [h1, hget] at h2
    exact (Option.some.inj h2).symm

/-! ### Trimming -/

theorem trim_eq_rdropWhile (s : Str) :
    trim s = (s.dropWhile isJsSpace).rdropWhile isJsSpace := rfl

theorem dropWhile_trim (s : Str) : (trim s).dropWhile isJsSpace = trim s := by
  rw [trim_eq_rdropWhile]
  cases hu : s.dropWhile isJsSpace with
  | nil => simp
  | cons a u =>
    have ha : isJsSpace a = false := by
      have := List.head_dropWhile_not isJsSpace s (by rw [hu]; simp)
      simpa [hu] using this
    have hp := List.rdropWhile_prefix (p := isJsSpace) (l := a :: u)
    cases ht : List.rdropWhile isJsSpace (a :: u) with
    | nil => simp
    | cons b t =>
      rw [ht] at hp
      obtain ⟨w, hw⟩ := hp
      have hb : b = a := by
        have := congrArg List.head? hw
        simpa using this
      subst hb
      simp [List.dropWhile, ha]

theorem trim_trim (s : Str) : trim (trim s) = trim s := by
  conv_lhs => rw [trim_eq_rdropWhile, dropWhile_trim]
  rw [trim_eq_rdropWhile, List.rdropWhile_idempotent]

/-! ### Rows are never filtered out -/

theorem displayName_toRecord_ne_nil (map : HeaderMap) (row : Row) :
    displayName (toRecord map row) ≠ [] := by
  unfold displayName
  by_cases h1 : (toRecord map row).nick ≠ []
  · rw [if_pos h1]
    have : trim (toRecord map row).nick = (toRecord map row).nick := trim_trim _
    rw [this]; exact h1
  · rw [if_neg h1]
    by_cases h2 : (toRecord map row).name ≠ []
    · rw [if_pos h2]
      have : trim (toRecord map row).name = (toRecord map row).name := trim_trim _
      rw [this]; exact h2
    · rw [if_neg h2]; decide

/-- The filter of `normalizeRows` keeps every record: `displayName` falls back
to the text "이름 없음", which is truthy. -/
theorem normalizeRows_eq_map (data : List Row) :
    normalizeRows data = data.map (toRecord (buildHeaderMap data).2) := by
  unfold normalizeRows
  rw [List.filter_eq_self]
  intro r hr
  rcases List.mem_map.1 hr with ⟨row, _, rfl⟩
  simpa using displayName_toRecord_ne_nil _ row

/-- C2 (failing input). A row whose name and nickname cells are both blank is
not discarded: `normalizeRows` returns a record for it, with empty `nick` and
`name`, where the filter rule says the output is empty. -/
theorem normalizeRows_keeps_blank_row :
    normalizeRows [sheetRow "" "20231234" "" ""] =
      [{ name := [], studentId := "20231234".toList, nick := [], recordRaw := [],
         seconds := none }] := by
  decide!

/-- The scenario of the spec, normalised. -/
theorem normalizeRows_scenario : normalizeRows scenarioData = [recordA1, recordA2, recordB] := by
  decide!

/-- Witness of `bestOnly_monotone` on the scenario of the spec: the first
attempt of A (60 s) is covered by a kept record with a time of at most 60 s. -/
theorem bestOnly_monotone_witness :
    (∀ r ∈ [recordA1, recordA2, recordB], r.seconds ≠ some .nan) ∧
      recordA1 ∈ [recordA1, recordA2, recordB] ∧
      ∃ k, k ∈ bestOnly [recordA1, recordA2, recordB] ∧
        keyForPerson k = keyForPerson recordA1 ∧
        (∀ k2 ∈ bestOnly [recordA1, recordA2, recordB],
          keyForPerson k2 = keyForPerson recordA1 → k2 = k) ∧
        ∀ x, recordA1.seconds = some x → ∃ y, k.seconds = some y ∧ y.le x = true :=
  ⟨by decide!, by decide!,
    bestOnly_monotone [recordA1, recordA2, recordB] (by decide!) recordA1 (by decide!)⟩

/-- C9. Parse tolerance table: the six sample texts of the spec parse to
90.12, 125.5, 225, null, null and 1234. -/
theorem parse_tolerance_table :
    parseRecordToSeconds "1분 30초 12".toList = some (toDouble (9012 / 100)) ∧
      parseRecordToSeconds "2:05.5".toList = some (.fin (251 / 2)) ∧
      parseRecordToSeconds "3분 45초".toList = some (.fin 225) ∧
      parseRecordToSeconds "".toList = none ∧
      parseRecordToSeconds "abc".toList = none ∧
      parseRecordToSeconds "1,234".toList = some (.fin 1234) := by
  decide!

/-! ### Powers of two and the binary exponent -/

theorem pow2_eq (e : ℤ) : pow2 e = (2 : ℚ) ^ e := by
  unfold pow2
  split_ifs with h
  · obtain ⟨n, rfl⟩ := Int.eq_ofNat_of_zero_le h
    simp
  · have h' : e = -(((-e).toNat : ℕ) : ℤ) := by omega
    conv_rhs => rw [h']
    rw [zpow_neg, zpow_natCast]
    simp

theorem pow2_pos (e : ℤ) : 0 < pow2 e := by
  rw [pow2_eq]; positivity

theorem pow2_add (a b : ℤ) : pow2 (a + b) = pow2 a * pow2 b := by
  simp only [pow2_eq]
  exact zpow_add₀ (by norm_num) a b

theorem pow2_le_pow2 {a b : ℤ} (h : a ≤ b) : pow2 a ≤ pow2 b := by
  simp only [pow2_eq]
  exact zpow_le_zpow_right₀ (by norm_num) h

theorem pow2_lt_pow2 {a b : ℤ} (h : a < b) : pow2 a < pow2 b := by
  simp only [pow2_eq]
  exact zpow_lt_zpow_right₀ (by norm_num) h

theorem pow2_lt_pow2_iff {a b : ℤ} : pow2 a < pow2 b ↔ a < b := by
  constructor
  · intro h
    by_contra hc
    exact absurd (pow2_le_pow2 (not_lt.1 hc)) (not_le.2 h)
  · exact pow2_lt_pow2

theorem pow2_natCast (n : ℕ) : pow2 (n : ℤ) = (2 : ℚ) ^ n := by
  rw [pow2_eq, zpow_natCast]

theorem log2Fuel_spec : ∀ (fuel n : ℕ), 1 ≤ n → n ≤ fuel →
    2 ^ log2Fuel fuel n ≤ n ∧ n < 2 ^ (log2Fuel fuel n + 1) := by
  intro fuel
  induction fuel with
  | zero => intro n h1 h2; omega
  | succ f ih =>
    intro n h1 h2
    unfold log2Fuel
    split_ifs with h
    · have := ih (n / 2) (by omega) (by omega)
      constructor
      · calc 2 ^ (log2Fuel f (n / 2) + 1) = 2 ^ log2Fuel f (n / 2) * 2 := by ring
          _ ≤ n / 2 * 2 := Nat.mul_le_mul_right 2 this.1
          _ ≤ n := Nat.div_mul_le_self n 2
      · have h3 : n / 2 + 1 ≤ 2 ^ (log2Fuel f (n / 2) + 1) := this.2
        calc n < (n / 2 + 1) * 2 := by omega
          _ ≤ 2 ^ (log2Fuel f (n / 2) + 1) * 2 := Nat.mul_le_mul_right 2 h3
          _ = 2 ^ (log2Fuel f (n / 2) + 1 + 1) := by ring
    · constructor
      · simpa using h1
      · simp; omega

theorem log2_spec (n : ℕ) (h : 1 ≤ n) : 2 ^ log2 n ≤ n ∧ n < 2 ^ (log2 n + 1) :=
  log2Fuel_spec n n h le_rfl

theorem binade_spec (q : ℚ) (hq : q ≠ 0) : pow2 (binade q) ≤ |q| ∧ |q| < pow2 (binade q + 1) := by
  have hnum : 1 ≤ q.num.natAbs := by
    have : q.num ≠ 0 := Rat.num_ne_zero.2 hq
    omega
  have hden : 1 ≤ q.den := q.den_pos
  obtain ⟨hn1, hn2⟩ := log2_spec _ hnum
  obtain ⟨hd1, hd2⟩ := log2_spec _ hden
  have habs : |q| = (q.num.natAbs : ℚ) / (q.den : ℚ) := by
    conv_lhs => rw [← Rat.num_div_den q]
    rw [abs_div, Nat.abs_cast]
    congr 1
    rw [Nat.cast_natAbs, Int.cast_abs]
  have hdpos : (0 : ℚ) < q.den := by exact_mod_cast q.den_pos
  set ln := log2 q.num.natAbs with hln
  set ld := log2 q.den with hld
  have hn1' : (2 : ℚ) ^ ln ≤ (q.num.natAbs : ℚ) := by exact_mod_cast hn1
  have hn2' : (q.num.natAbs : ℚ) < (2 : ℚ) ^ (ln + 1) := by exact_mod_cast hn2
  have hd1' : (2 : ℚ) ^ ld ≤ (q.den : ℚ) := by exact_mod_cast hd1
  have hd2' : (q.den : ℚ) < (2 : ℚ) ^ (ld + 1) := by exact_mod_cast hd2
  have hlow : pow2 ((ln : ℤ) - ld - 1) < |q| := by
    rw [habs, lt_div_iff₀ hdpos, pow2_eq]
    have : (2 : ℚ) ^ ((ln : ℤ) - ld - 1) * (2 : ℚ) ^ (ld + 1) = (2 : ℚ) ^ ln := by
      rw [← zpow_natCast, ← zpow_natCast, ← zpow_add₀ (by norm_num)]
      congr 1; push_cast; ring
    calc (2 : ℚ) ^ ((ln : ℤ) - ld - 1) * (q.den : ℚ)
        < (2 : ℚ) ^ ((ln : ℤ) - ld - 1) * (2 : ℚ) ^ (ld + 1) := by
          apply mul_lt_mul_of_pos_left hd2'
          positivity
      _ = (2 : ℚ) ^ ln := this
      _ ≤ _ := hn1'
  have hhigh : |q| < pow2 ((ln : ℤ) - ld + 1) := by
    rw [habs, div_lt_iff₀ hdpos, pow2_eq]
    have : (2 : ℚ) ^ ((ln : ℤ) - ld + 1) * (2 : ℚ) ^ ld = (2 : ℚ) ^ (ln + 1) := by
      rw [← zpow_natCast, ← zpow_natCast, ← zpow_add₀ (by norm_num)]
      congr 1; push_cast; ring
    calc (q.num.natAbs : ℚ) < (2 : ℚ) ^ (ln + 1) := hn2'
      _ = (2 : ℚ) ^ ((ln : ℤ) - ld + 1) * (2 : ℚ) ^ ld := this.symm
      _ ≤ (2 : ℚ) ^ ((ln : ℤ) - ld + 1) * (q.den : ℚ) := by
          apply mul_le_mul_of_nonneg_left hd1'
          positivity
  unfold binade
  simp only [← hln, ← hld]
  split_ifs with h
  · exact ⟨h, hhigh⟩
  · refine ⟨le_of_lt hlow, ?_⟩
    have : (ln : ℤ) - ld - 1 + 1 = (ln : ℤ) - ld := by ring
    rw [this]
    exact not_le.1 h

/-! ### Rounding to the nearest integer -/

theorem roundHalfEven_cases (q : ℚ) :
    (roundHalfEven q = ⌊q⌋ ∧ q - ⌊q⌋ ≤ 1 / 2) ∨ (roundHalfEven q = ⌊q⌋ + 1 ∧ 1 / 2 ≤ q - ⌊q⌋) := by
  unfold roundHalfEven
  simp only []
  split_ifs with h1 h2 h3
  · exact Or.inl ⟨rfl, le_of_lt h1⟩
  · exact Or.inr ⟨rfl, le_of_lt h2⟩
  · exact Or.inl ⟨rfl, not_lt.1 h2⟩
  · exact Or.inr ⟨rfl, not_lt.1 h1⟩

theorem abs_roundHalfEven_sub_le (q : ℚ) : |(roundHalfEven q : ℚ) - q| ≤ 1 / 2 := by
  have h1 := Int.floor_le q
  have h2 := Int.lt_floor_add_one q
  rw [abs_le]
  rcases roundHalfEven_cases q with ⟨h, hh⟩ | ⟨h, hh⟩
  · rw [h]; constructor <;> linarith
  · rw [h]; push_cast; constructor <;> linarith

theorem roundHalfEven_intCast (n : ℤ) : roundHalfEven (n : ℚ) = n := by
  rcases roundHalfEven_cases (n : ℚ) with ⟨h, _⟩ | ⟨h, hh⟩
  · rw [h]; simp
  · simp at hh; norm_num at hh

theorem le_roundHalfEven {n : ℤ} {q : ℚ} (h : (n : ℚ) ≤ q) : n ≤ roundHalfEven q := by
  have h1 : n ≤ ⌊q⌋ := Int.le_floor.2 h
  rcases roundHalfEven_cases q with ⟨h2, _⟩ | ⟨h2, _⟩ <;> rw [h2] <;> omega

theorem roundHalfEven_le {n : ℤ} {q : ℚ} (h : q ≤ (n : ℚ)) : roundHalfEven q ≤ n := by
  rcases roundHalfEven_cases q with ⟨h2, _⟩ | ⟨h2, hh⟩
  · rw [h2]
    have h3 : (⌊q⌋ : ℚ) ≤ n := le_trans (Int.floor_le q) h
    exact_mod_cast h3
  · rw [h2]
    have h3 : (⌊q⌋ : ℚ) < n := by linarith [Int.floor_le q]
    have h4 : ⌊q⌋ < n := by exact_mod_cast h3
    omega

/-! ### The rounding grid -/

theorem ulpExp_ge (q : ℚ) : -1074 ≤ ulpExp q := le_max_right _ _

theorem binade_sub_le_ulpExp (q : ℚ) : binade q - 52 ≤ ulpExp q := le_max_left _ _

theorem nearest_eq (q : ℚ) :
    nearest q = (roundHalfEven (q / pow2 (ulpExp q)) : ℚ) * pow2 (ulpExp q) := rfl

theorem abs_nearest_sub_le (q : ℚ) : |nearest q - q| ≤ pow2 (ulpExp q) / 2 := by
  have hp := pow2_pos (ulpExp q)
  have h := abs_roundHalfEven_sub_le (q / pow2 (ulpExp q))
  have e1 : nearest q - q =
      ((roundHalfEven (q / pow2 (ulpExp q)) : ℚ) - q / pow2 (ulpExp q)) * pow2 (ulpExp q) := by
    rw [nearest_eq]; field_simp
  rw [e1, abs_mul, abs_of_pos hp]
  calc _ ≤ 1 / 2 * pow2 (ulpExp q) := mul_le_mul_of_nonneg_right h (le_of_lt hp)
    _ = pow2 (ulpExp q) / 2 := by ring

/-- A multiple of the unit in the last place below `q` stays below its rounding. -/
theorem le_nearest {q : ℚ} {k : ℤ} (h : (k : ℚ) * pow2 (ulpExp q) ≤ q) :
    (k : ℚ) * pow2 (ulpExp q) ≤ nearest q := by
  have hp := pow2_pos (ulpExp q)
  have h1 : (k : ℚ) ≤ q / pow2 (ulpExp q) := (le_div_iff₀ hp).2 h
  have h2 : ((k : ℤ) : ℚ) ≤ (roundHalfEven (q / pow2 (ulpExp q)) : ℚ) := by
    exact_mod_cast le_roundHalfEven h1
  rw [nearest_eq]
  exact mul_le_mul_of_nonneg_right h2 (le_of_lt hp)

/-- A multiple of the unit in the last place above `q` stays above its rounding. -/
theorem nearest_le {q : ℚ} {k : ℤ} (h : q ≤ (k : ℚ) * pow2 (ulpExp q)) :
    nearest q ≤ (k : ℚ) * pow2 (ulpExp q) := by
  have hp := pow2_pos (ulpExp q)
  have h1 : q / pow2 (ulpExp q) ≤ (k : ℚ) := (div_le_iff₀ hp).2 h
  have h2 : (roundHalfEven (q / pow2 (ulpExp q)) : ℚ) ≤ ((k : ℤ) : ℚ) := by
    exact_mod_cast roundHalfEven_le h1
  rw [nearest_eq]
  exact mul_le_mul_of_nonneg_right h2 (le_of_lt hp)

theorem nearest_eq_self {q : ℚ} {k : ℤ} (h : q = (k : ℚ) * pow2 (ulpExp q)) : nearest q = q := by
  apply le_antisymm
  · exact le_trans (nearest_le (le_of_eq h)) (le_of_eq h.symm)
  · exact le_trans (le_of_eq h) (le_nearest (le_of_eq h.symm))

/-- An integer is a multiple of every power of two with a non-positive exponent. -/
theorem int_eq_mul_pow2 (n : ℤ) {e : ℤ} (he : e ≤ 0) :
    ∃ k : ℤ, (n : ℚ) = (k : ℚ) * pow2 e := by
  refine ⟨n * 2 ^ (-e).toNat, ?_⟩
  have h' : e = -(((-e).toNat : ℕ) : ℤ) := by omega
  have : pow2 e = ((2 : ℚ) ^ (-e).toNat)⁻¹ := by
    rw [pow2_eq]
    conv_lhs => rw [h']
    rw [zpow_neg, zpow_natCast]
  rw [this]
  push_cast
  field_simp

theorem toDouble_of_lt {q : ℚ} (hq : q ≠ 0) (h : |nearest q| < pow2 1024) :
    toDouble q = .fin (nearest q) := by
  unfold toDouble
  rw [if_neg hq, if_neg (not_le.2 h)]

theorem binade_lt_of_abs_lt {q : ℚ} (hq : q ≠ 0) {e : ℤ} (h : |q| < pow2 e) : binade q < e := by
  have := (binade_spec q hq).1
  exact pow2_lt_pow2_iff.1 (lt_of_le_of_lt this h)

theorem le_binade_of_le_abs {q : ℚ} (hq : q ≠ 0) {e : ℤ} (h : pow2 e ≤ |q|) : e ≤ binade q := by
  have := (binade_spec q hq).2
  have h2 := pow2_lt_pow2_iff.1 (lt_of_le_of_lt h this)
  omega

theorem ulpExp_nonpos_of_abs_lt {q : ℚ} (hq : q ≠ 0) (h : |q| < pow2 53) : ulpExp q ≤ 0 := by
  have := binade_lt_of_abs_lt hq h
  unfold ulpExp
  exact max_le (by omega) (by norm_num)

/-- Integers of magnitude below `2 ^ 53` are binary64 values. -/
theorem toDouble_intCast (n : ℤ) (h : |(n : ℚ)| < pow2 53) : toDouble (n : ℚ) = .fin (n : ℚ) := by
  by_cases hn : (n : ℚ) = 0
  · rw [hn]; rfl
  · obtain ⟨k, hk⟩ := int_eq_mul_pow2 n (ulpExp_nonpos_of_abs_lt hn h)
    have hs := nearest_eq_self hk
    rw [toDouble_of_lt hn, hs]
    rw [hs]
    exact lt_trans h (pow2_lt_pow2 (by norm_num))

theorem toDouble_natCast (n : ℕ) (h : n < 2 ^ 53) : toDouble (n : ℚ) = .fin (n : ℚ) := by
  have := toDouble_intCast (n : ℤ) (by
    rw [pow2_eq]
    have : |((n : ℤ) : ℚ)| = (n : ℚ) := by simp
    rw [this]
    exact_mod_cast h)
  simpa using this

/-! ### Error and sign of binary64 rounding -/

theorem pow2_ulpExp_le_abs {q : ℚ} (hq : q ≠ 0) (h : pow2 (-1074) ≤ |q|) :
    pow2 (ulpExp q) ≤ |q| := by
  unfold ulpExp
  rcases max_cases (binade q - 52) (-1074) with ⟨h1, _⟩ | ⟨h1, _⟩
  · rw [h1]
    exact le_trans (pow2_le_pow2 (by omega)) (binade_spec q hq).1
  · rw [h1]; exact h

/-- In the normal range rounding has relative error at most `2 ^ (-53)`. -/
theorem toDouble_rel {q : ℚ} (h1 : pow2 (-1022) ≤ |q|) (h2 : |q| < pow2 1023) :
    toDouble q = .fin (nearest q) ∧ |nearest q - q| ≤ pow2 (-53) * |q| := by
  have hq : q ≠ 0 := by
    intro h0
    rw [h0, abs_zero] at h1
    exact absurd h1 (not_le.2 (pow2_pos _))
  have hb : -1022 ≤ binade q := le_binade_of_le_abs hq h1
  have hu : ulpExp q = binade q - 52 := by
    unfold ulpExp; exact max_eq_left (by omega)
  have herr : |nearest q - q| ≤ pow2 (-53) * |q| := by
    have h3 := abs_nearest_sub_le q
    have h4 : pow2 (ulpExp q) / 2 = pow2 (-53) * pow2 (binade q) := by
      rw [hu, ← pow2_add]
      have : binade q - 52 = -53 + binade q + 1 := by ring
      rw [this, pow2_add (-53 + binade q) 1, pow2_add]
      have : pow2 1 = 2 := by rw [pow2_eq]; norm_num
      rw [this]; ring
    rw [h4] at h3
    exact le_trans h3 (mul_le_mul_of_nonneg_left (binade_spec q hq).1 (le_of_lt (pow2_pos _)))
  refine ⟨toDouble_of_lt hq ?_, herr⟩
  have h5 : |nearest q| ≤ |q| + |nearest q - q| := by
    have := abs_add (nearest q - q) q
    simp only [sub_add_cancel] at this
    linarith
  have h6 : pow2 (-53) ≤ 1 := by
    have := pow2_le_pow2 (show (-53 : ℤ) ≤ 0 by norm_num)
    have h0 : pow2 0 = 1 := by rw [pow2_eq]; norm_num
    rwa [h0] at this
  have h7 : pow2 1024 = 2 * pow2 1023 := by
    have : (1024 : ℤ) = 1 + 1023 := by norm_num
    rw [this, pow2_add]
    have : pow2 1 = 2 := by rw [pow2_eq]; norm_num
    rw [this]
  rw [h7]
  have h8 : pow2 (-53) * |q| ≤ |q| := by
    calc pow2 (-53) * |q| ≤ 1 * |q| := mul_le_mul_of_nonneg_right h6 (abs_nonneg q)
      _ = |q| := one_mul _
  linarith

/-- Rounding keeps the sign of a value of magnitude at least `2 ^ (-1074)`. -/
theorem sign_toDouble {q : ℚ} (h : pow2 (-1074) ≤ |q|) :
    (toDouble q).sign = if q < 0 then -1 else 1 := by
  have hq : q ≠ 0 := by
    intro h0
    rw [h0, abs_zero] at h
    exact absurd h (not_le.2 (pow2_pos _))
  have hp := pow2_pos (ulpExp q)
  have hu := pow2_ulpExp_le_abs hq h
  by_cases hneg : q < 0
  · rw [if_pos hneg]
    rw [abs_of_neg hneg] at hu
    have h1 : nearest q ≤ ((-1 : ℤ) : ℚ) * pow2 (ulpExp q) := by
      apply nearest_le
      push_cast; linarith
    have h2 : nearest q < 0 := by
      push_cast at h1; linarith
    unfold toDouble
    rw [if_neg hq]
    split_ifs
    · rfl
    · simp [JSNum.sign, h2]
  · rw [if_neg hneg]
    have hpos : 0 < q := lt_of_le_of_ne (not_lt.1 hneg) (Ne.symm hq)
    rw [abs_of_pos hpos] at hu
    have h1 : ((1 : ℤ) : ℚ) * pow2 (ulpExp q) ≤ nearest q := by
      apply le_nearest
      push_cast; linarith
    have h2 : 0 < nearest q := by
      push_cast at h1; linarith
    unfold toDouble
    rw [if_neg hq]
    split_ifs
    · rfl
    · simp [JSNum.sign, not_lt.2 (le_of_lt h2), ne_of_gt h2]

/-- A binary64 value is a multiple of `2 ^ (-1074)`. -/
theorem isDouble_eq_mul_pow2 {q : ℚ} (h : IsDouble q) : ∃ k : ℤ, q = (k : ℚ) * pow2 (-1074) := by
  by_cases hq : q = 0
  · exact ⟨0, by simp [hq]⟩
  · unfold IsDouble toDouble at h
    rw [if_neg hq] at h
    split_ifs at h
    have h1 : nearest q = q := by injection h
    have he := ulpExp_ge q
    refine ⟨roundHalfEven (q / pow2 (ulpExp q)) * 2 ^ (ulpExp q + 1074).toNat, ?_⟩
    have h2 : pow2 (ulpExp q) = (2 : ℚ) ^ (ulpExp q + 1074).toNat * pow2 (-1074) := by
      have : ulpExp q = ((ulpExp q + 1074).toNat : ℤ) + (-1074) := by omega
      conv_lhs => rw [this]
      rw [pow2_add, pow2_natCast]
    have h3 : q = (roundHalfEven (q / pow2 (ulpExp q)) : ℚ) * pow2 (ulpExp q) := by
      rw [← nearest_eq]; exact h1.symm
    generalize roundHalfEven (q / pow2 (ulpExp q)) = r at h3 ⊢
    rw [h2] at h3
    calc q = _ := h3
      _ = _ := by push_cast; ring

/-- Two different binary64 values differ by at least `2 ^ (-1074)`. -/
theorem isDouble_abs_sub_ge {a b : ℚ} (ha : IsDouble a) (hb : IsDouble b) (hab : a ≠ b) :
    pow2 (-1074) ≤ |a - b| := by
  obtain ⟨ka, hka⟩ := isDouble_eq_mul_pow2 ha
  obtain ⟨kb, hkb⟩ := isDouble_eq_mul_pow2 hb
  have hp := pow2_pos (-1074)
  have hne : ka ≠ kb := by
    rintro rfl
    exact hab (hka.trans hkb.symm)
  have h1 : a - b = ((ka - kb : ℤ) : ℚ) * pow2 (-1074) := by
    rw [hka, hkb]; push_cast; ring
  rw [h1, abs_mul, abs_of_pos hp]
  have h2 : (1 : ℚ) ≤ |((ka - kb : ℤ) : ℚ)| := by
    have : (1 : ℤ) ≤ |ka - kb| := Int.one_le_abs (sub_ne_zero.2 hne)
    rw [← Int.cast_abs]
    exact_mod_cast this
  calc pow2 (-1074) = 1 * pow2 (-1074) := (one_mul _).symm
    _ ≤ _ := mul_le_mul_of_nonneg_right h2 (le_of_lt hp)

/-- The floor of a rounded positive value is the floor of the exact value when
the exact value stays far enough below the next integer. -/
theorem floor_toDouble {x : ℚ} {k b : ℤ} (hx0 : 0 < x) (hk : (k : ℚ) ≤ x) (hb : x < pow2 b)
    (hb0 : 0 ≤ b) (hb53 : b ≤ 53) (hgap : x + pow2 (b - 54) < (k : ℚ) + 1) :
    toDouble x = .fin (nearest x) ∧ ⌊nearest x⌋ = k := by
  have hq : x ≠ 0 := ne_of_gt hx0
  have habs : |x| = x := abs_of_pos hx0
  have hbin : binade x < b := binade_lt_of_abs_lt hq (by rw [habs]; exact hb)
  have hu : ulpExp x ≤ b - 53 := by
    unfold ulpExp; exact max_le (by omega) (by omega)
  obtain ⟨k2, hk2⟩ := int_eq_mul_pow2 k (show ulpExp x ≤ 0 by omega)
  have hlow : (k : ℚ) ≤ nearest x := by
    rw [hk2]; apply le_nearest; rw [← hk2]; exact hk
  have hnn : 0 ≤ nearest x := by
    have := le_nearest (q := x) (k := 0) (by simpa using le_of_lt hx0)
    simpa using this
  have hup : nearest x < (k : ℚ) + 1 := by
    have h1 := abs_nearest_sub_le x
    have h2 : pow2 (ulpExp x) / 2 ≤ pow2 (b - 54) := by
      have h3 : pow2 (b - 53) = 2 * pow2 (b - 54) := by
        have : b - 53 = 1 + (b - 54) := by ring
        rw [this, pow2_add]
        have : pow2 1 = 2 := by rw [pow2_eq]; norm_num
        rw [this]
      have := pow2_le_pow2 hu
      linarith
    have h4 := (abs_le.1 h1).2
    linarith
  refine ⟨toDouble_of_lt hq ?_, ?_⟩
  · rw [abs_of_nonneg hnn]
    have h5 : pow2 b ≤ pow2 53 := pow2_le_pow2 hb53
    have h6 : pow2 53 + 1 < pow2 1024 := by
      simp only [pow2_eq]; norm_num
    linarith
  · rw [Int.floor_eq_iff]
    exact ⟨hlow, hup⟩

/-! ### The comparator -/

theorem intSign_cases (n : ℤ) :
    (Int.sign n = -1 ∧ n < 0) ∨ (Int.sign n = 0 ∧ n = 0) ∨ (Int.sign n = 1 ∧ 0 < n) := by
  rcases lt_trichotomy n 0 with h | h | h
  · exact Or.inl ⟨Int.sign_eq_neg_one_of_neg h, h⟩
  · exact Or.inr (Or.inl ⟨by rw [h]; rfl, h⟩)
  · exact Or.inr (Or.inr ⟨Int.sign_eq_one_of_pos h, h⟩)

theorem JSNum.sign_fin_intCast (n : ℤ) : (JSNum.fin (n : ℚ)).sign = Int.sign n := by
  simp only [JSNum.sign]
  rcases intSign_cases n with ⟨h1, h2⟩ | ⟨h1, h2⟩ | ⟨h1, h2⟩
  · have : (n : ℚ) < 0 := by exact_mod_cast h2
    rw [if_pos this, h1]
  · subst h2; simp
  · have h3 : ¬ (n : ℚ) < 0 := by
      have : (0 : ℚ) < n := by exact_mod_cast h2
      exact not_lt.2 (le_of_lt this)
    have h4 : ¬ (n : ℚ) = 0 := by
      have : (0 : ℚ) < n := by exact_mod_cast h2
      exact ne_of_gt this
    rw [if_neg h3, if_neg h4, h1]

theorem notAfter_iff (v : JSNum) : notAfter v = true ↔ v.sign ≤ 0 := by
  cases v with
  | fin q =>
    simp only [notAfter, JSNum.sign, decide_eq_true_eq]
    split_ifs with h1 h2
    · simp [le_of_lt h1]
    · simp [h2]
    · have : 0 < q := lt_of_le_of_ne (not_lt.1 h1) (Ne.symm h2)
      simp [not_le.2 this]
  | posInf => simp [notAfter, JSNum.sign]
  | negInf => simp [notAfter, JSNum.sign]
  | nan => simp [notAfter, JSNum.sign]

/-- The sign of the tie-break, from the three collation results. -/
theorem sign_tieBreak (lc : Str → Str → ℤ) (a b : PersonRecord) :
    (tieBreak lc a b).sign =
      if lc a.nick b.nick ≠ 0 then Int.sign (lc a.nick b.nick)
      else if lc a.studentId b.studentId ≠ 0 then Int.sign (lc a.studentId b.studentId)
      else Int.sign (lc a.name b.name) := by
  unfold tieBreak
  simp only []
  split_ifs <;> exact JSNum.sign_fin_intCast _

theorem sign_sub_of_ne {x y : JSNum} (hx : x.Valid) (hy : y.Valid) (hxn : x ≠ .nan)
    (hyn : y ≠ .nan) (hne : x ≠ y) : (x.sub y).sign = if x.lt y then -1 else 1 := by
  cases x with
  | fin a =>
    cases y with
    | fin b =>
      have hab : a ≠ b := fun h => hne (by rw [h])
      have h := sign_toDouble (isDouble_abs_sub_ge hx hy hab)
      simp only [JSNum.sub, JSNum.lt, h, sub_neg, decide_eq_true_eq]
    | posInf => simp [JSNum.sub, JSNum.lt, JSNum.sign]
    | negInf => simp [JSNum.sub, JSNum.lt, JSNum.sign]
    | nan => exact absurd rfl hyn
  | posInf =>
    cases y with
    | fin b => simp [JSNum.sub, JSNum.lt, JSNum.sign]
    | posInf => exact absurd rfl hne
    | negInf => simp [JSNum.sub, JSNum.lt, JSNum.sign]
    | nan => exact absurd rfl hyn
  | negInf =>
    cases y with
    | fin b => simp [JSNum.sub, JSNum.lt, JSNum.sign]
    | posInf => simp [JSNum.sub, JSNum.lt, JSNum.sign]
    | negInf => exact absurd rfl hne
    | nan => exact absurd rfl hyn
  | nan => exact absurd rfl hxn

theorem strictNe_eq_of_ne_nan {x y : JSNum} (hxn : x ≠ .nan) (hyn : y ≠ .nan) :
    x.strictNe y = decide (x ≠ y) := by
  cases x <;> cases y <;> simp [JSNum.strictNe] at hxn hyn ⊢

theorem lt_iff_class {x y : JSNum} (hxn : x ≠ .nan) (hyn : y ≠ .nan) :
    x.lt y = true ↔ (timeClass (some x) < timeClass (some y) ∨
      (timeClass (some x) = timeClass (some y) ∧ timeValue (some x) < timeValue (some y))) := by
  cases x <;> cases y <;> simp [JSNum.lt, timeClass, timeValue] at hxn hyn ⊢

theorem eq_of_class_value {x y : Option JSNum} (h1 : timeClass x = timeClass y)
    (h2 : timeValue x = timeValue y) : x = y := by
  rcases x with _ | x <;> rcases y with _ | y
  · rfl
  · cases y <;> simp [timeClass] at h1
  · cases x <;> simp [timeClass] at h1
  · cases x <;> cases y <;> simp [timeClass, timeValue] at h1 h2 ⊢
    exact h2

theorem before_trichotomy (a b : PersonRecord) :
    Before a b ∨ a.seconds = b.seconds ∨ Before b a := by
  unfold Before
  rcases lt_trichotomy (timeClass a.seconds) (timeClass b.seconds) with h | h | h
  · exact Or.inl (Or.inl h)
  · rcases lt_trichotomy (timeValue a.seconds) (timeValue b.seconds) with h2 | h2 | h2
    · exact Or.inl (Or.inr ⟨h, h2⟩)
    · exact Or.inr (Or.inl (eq_of_class_value h h2))
    · exact Or.inr (Or.inr (Or.inr ⟨h.symm, h2⟩))
  · exact Or.inr (Or.inr (Or.inl h))

theorem before_not_symm {a b : PersonRecord} (h : Before a b) : ¬ Before b a := by
  unfold Before at *
  rcases h with h | ⟨h, h2⟩
  · rintro (h3 | ⟨h3, _⟩) <;> omega
  · rintro (h3 | ⟨_, h4⟩)
    · omega
    · exact absurd h4 (not_lt.2 (le_of_lt h2))

theorem before_ne {a b : PersonRecord} (h : Before a b) : a.seconds ≠ b.seconds := by
  intro he
  unfold Before at h
  rw [he] at h
  rcases h with h | ⟨_, h⟩
  · omega
  · exact lt_irrefl _ h

theorem before_trans {a b c : PersonRecord} (h1 : Before a b) (h2 : Before b c) : Before a c := by
  unfold Before at *
  rcases h1 with h1 | ⟨h1, h1v⟩ <;> rcases h2 with h2 | ⟨h2, h2v⟩
  · exact Or.inl (by omega)
  · exact Or.inl (by omega)
  · exact Or.inl (by omega)
  · exact Or.inr ⟨by omega, lt_trans h1v h2v⟩

/-- The sign of `stableCompare` when `a` ranks ahead of `b` on the time. -/
theorem sign_stableCompare_of_before (lc : Str → Str → ℤ) {a b : PersonRecord}
    (ha : a.TimeOk) (hb : b.TimeOk) (h : Before a b) : (stableCompare lc a b).sign = -1 := by
  unfold Before at h
  unfold stableCompare
  cases hsa : a.seconds with
  | none =>
    rw [hsa] at h
    cases hsb : b.seconds with
    | none => rw [hsb] at h; simp [timeClass, timeValue] at h
    | some y =>
      rw [hsb] at h
      have := (hb y hsb).2
      cases y <;> simp [timeClass, timeValue] at h this
  | some x =>
    cases hsb : b.seconds with
    | none => simp [JSNum.sign]
    | some y =>
      rw [hsa, hsb] at h
      have hx := ha x hsa
      have hy := hb y hsb
      have hlt := (lt_iff_class hx.2 hy.2).2 h
      have hne : x ≠ y := by
        rintro rfl
        cases x <;> simp [JSNum.lt] at hlt
      simp only [strictNe_eq_of_ne_nan hx.2 hy.2, hne, ne_eq, not_false_eq_true, decide_True,
        if_true]
      rw [sign_sub_of_ne hx.1 hy.1 hx.2 hy.2 hne, if_pos hlt]

/-- The sign of `stableCompare` when `b` ranks ahead of `a` on the time. -/
theorem sign_stableCompare_of_after (lc : Str → Str → ℤ) {a b : PersonRecord}
    (ha : a.TimeOk) (hb : b.TimeOk) (h : Before b a) : (stableCompare lc a b).sign = 1 := by
  unfold Before at h
  unfold stableCompare
  cases hsa : a.seconds with
  | none =>
    cases hsb : b.seconds with
    | none => rw [hsa, hsb] at h; simp [timeClass, timeValue] at h
    | some y => simp [JSNum.sign]
  | some x =>
    cases hsb : b.seconds with
    | none =>
      rw [hsa, hsb] at h
      have := (ha x hsa).2
      cases x <;> simp [timeClass, timeValue] at h this
    | some y =>
      rw [hsa, hsb] at h
      have hx := ha x hsa
      have hy := hb y hsb
      have hlt := (lt_iff_class hy.2 hx.2).2 h
      have hne : x ≠ y := by
        rintro rfl
        cases x <;> simp [JSNum.lt] at hlt
      have hnlt : x.lt y = false := by
        cases x <;> cases y <;> simp [JSNum.lt] at hlt ⊢
        exact le_of_lt hlt
      simp only [strictNe_eq_of_ne_nan hx.2 hy.2, hne, ne_eq, not_false_eq_true, decide_True,
        if_true]
      rw [sign_sub_of_ne hx.1 hy.1 hx.2 hy.2 hne, hnlt]
      simp

/-- The sign of `stableCompare` on equal times is the sign of the tie-break. -/
theorem sign_stableCompare_of_eq (lc : Str → Str → ℤ) {a b : PersonRecord}
    (ha : a.TimeOk) (h : a.seconds = b.seconds) :
    stableCompare lc a b = tieBreak lc a b := by
  unfold stableCompare
  cases hsa : a.seconds with
  | none => rw [← h, hsa]
  | some x =>
    rw [← h, hsa]
    have hx := ha x hsa
    simp [strictNe_eq_of_ne_nan hx.2 hx.2]

/-! ### The comparator is a total preorder -/

/-- What a consistent collation gives for three strings, on signs. -/
theorem collation_facts (lc : Str → Str → ℤ)
    (hanti : ∀ s t, Int.sign (lc s t) = -Int.sign (lc t s))
    (htrans : ∀ s t u, lc s t ≤ 0 → lc t u ≤ 0 → lc s u ≤ 0) (s t u : Str) :
    (Int.sign (lc s t) ≤ 0 → Int.sign (lc t u) ≤ 0 → Int.sign (lc s u) ≤ 0) ∧
      (0 ≤ Int.sign (lc s t) → 0 ≤ Int.sign (lc t u) → 0 ≤ Int.sign (lc s u)) ∧
      (Int.sign (lc s t) < 0 → Int.sign (lc t u) ≤ 0 → Int.sign (lc s u) < 0) ∧
      (Int.sign (lc s t) ≤ 0 → Int.sign (lc t u) < 0 → Int.sign (lc s u) < 0) := by
  have c1 := intSign_cases (lc s t)
  have c2 := intSign_cases (lc t u)
  have c3 := intSign_cases (lc s u)
  have c4 := intSign_cases (lc t s)
  have c5 := intSign_cases (lc u t)
  have c6 := intSign_cases (lc u s)
  have a1 := hanti s t
  have a2 := hanti t u
  have a3 := hanti s u
  have t1 := htrans s t u
  have t2 := htrans u t s
  have t3 := htrans t u s
  have t4 := htrans u s t
  refine ⟨?_, ?_, ?_, ?_⟩ <;> omega

theorem lex_step (x y z X Y Z : ℤ)
    (h : (x ≤ 0 → y ≤ 0 → z ≤ 0) ∧ (0 ≤ x → 0 ≤ y → 0 ≤ z) ∧
      (x < 0 → y ≤ 0 → z < 0) ∧ (x ≤ 0 → y < 0 → z < 0))
    (hrest : X ≤ 0 → Y ≤ 0 → Z ≤ 0)
    (hx : (if x ≠ 0 then x else X) ≤ 0) (hy : (if y ≠ 0 then y else Y) ≤ 0) :
    (if z ≠ 0 then z else Z) ≤ 0 := by
  obtain ⟨p1, p2, p3, p4⟩ := h
  by_cases hx0 : x = 0 <;> by_cases hy0 : y = 0
  · have hz1 := p1 (le_of_eq hx0) (le_of_eq hy0)
    have hz2 := p2 (le_of_eq hx0.symm) (le_of_eq hy0.symm)
    have hz : z = 0 := le_antisymm hz1 hz2
    rw [if_neg (not_not.2 hx0)] at hx
    rw [if_neg (not_not.2 hy0)] at hy
    rw [if_neg (not_not.2 hz)]
    exact hrest hx hy
  · rw [if_pos hy0] at hy
    have hz := p4 (le_of_eq hx0) (lt_of_le_of_ne hy hy0)
    rw [if_pos (ne_of_lt hz)]
    exact le_of_lt hz
  · rw [if_pos hx0] at hx
    have hz := p3 (lt_of_le_of_ne hx hx0) (le_of_eq hy0)
    rw [if_pos (ne_of_lt hz)]
    exact le_of_lt hz
  · rw [if_pos hx0] at hx
    rw [if_pos hy0] at hy
    have hz := p3 (lt_of_le_of_ne hx hx0) hy
    rw [if_pos (ne_of_lt hz)]
    exact le_of_lt hz

theorem lex_trans (x1 y1 z1 x2 y2 z2 x3 y3 z3 : ℤ)
    (h1 : (x1 ≤ 0 → y1 ≤ 0 → z1 ≤ 0) ∧ (0 ≤ x1 → 0 ≤ y1 → 0 ≤ z1) ∧
      (x1 < 0 → y1 ≤ 0 → z1 < 0) ∧ (x1 ≤ 0 → y1 < 0 → z1 < 0))
    (h2 : (x2 ≤ 0 → y2 ≤ 0 → z2 ≤ 0) ∧ (0 ≤ x2 → 0 ≤ y2 → 0 ≤ z2) ∧
      (x2 < 0 → y2 ≤ 0 → z2 < 0) ∧ (x2 ≤ 0 → y2 < 0 → z2 < 0))
    (h3 : (x3 ≤ 0 → y3 ≤ 0 → z3 ≤ 0) ∧ (0 ≤ x3 → 0 ≤ y3 → 0 ≤ z3) ∧
      (x3 < 0 → y3 ≤ 0 → z3 < 0) ∧ (x3 ≤ 0 → y3 < 0 → z3 < 0))
    (hx : (if x1 ≠ 0 then x1 else if x2 ≠ 0 then x2 else x3) ≤ 0)
    (hy : (if y1 ≠ 0 then y1 else if y2 ≠ 0 then y2 else y3) ≤ 0) :
    (if z1 ≠ 0 then z1 else if z2 ≠ 0 then z2 else z3) ≤ 0 :=
  lex_step x1 y1 z1 _ _ _ h1 (fun hx2 hy2 => lex_step x2 y2 z2 _ _ _ h2 h3.1 hx2 hy2) hx hy

/-- The sign of the tie-break in terms of the signs of the collation results. -/
theorem sign_tieBreak_signs (lc : Str → Str → ℤ) (a b : PersonRecord) :
    (tieBreak lc a b).sign =
      if Int.sign (lc a.nick b.nick) ≠ 0 then Int.sign (lc a.nick b.nick)
      else if Int.sign (lc a.studentId b.studentId) ≠ 0 then
        Int.sign (lc a.studentId b.studentId)
      else Int.sign (lc a.name b.name) := by
  rw [sign_tieBreak]
  simp only [ne_eq, Int.sign_eq_zero_iff_zero]

/-- C5. Total order of the Ranker: for a collation that is sign-antisymmetric
and transitive, and records whose times are Numbers other than NaN,
`stableCompare` is sign-antisymmetric and transitive, and it returns a zero
only for records with the same time (present or not) whose nick, studentId and
name all collate as equal. -/
theorem stableCompare_total_order (lc : Str → Str → ℤ)
    (hanti : ∀ s t, Int.sign (lc s t) = -Int.sign (lc t s))
    (htrans : ∀ s t u, lc s t ≤ 0 → lc t u ≤ 0 → lc s u ≤ 0)
    (a b c : PersonRecord) (ha : a.TimeOk) (hb : b.TimeOk) (hc : c.TimeOk) :
    (stableCompare lc a b).sign = -(stableCompare lc b a).sign ∧
      ((stableCompare lc a b).sign ≤ 0 → (stableCompare lc b c).sign ≤ 0 →
        (stableCompare lc a c).sign ≤ 0) ∧
      ((stableCompare lc a b).sign = 0 →
        a.seconds = b.seconds ∧ lc a.nick b.nick = 0 ∧ lc a.studentId b.studentId = 0 ∧
          lc a.name b.name = 0) := by
  refine ⟨?_, ?_, ?_⟩
  · rcases before_trichotomy a b with h | h | h
    · rw [sign_stableCompare_of_before lc ha hb h, sign_stableCompare_of_after lc hb ha h]
    · rw [sign_stableCompare_of_eq lc ha h, sign_stableCompare_of_eq lc hb h.symm,
        sign_tieBreak_signs, sign_tieBreak_signs]
      have a1 := hanti a.nick b.nick
      have a2 := hanti a.studentId b.studentId
      have a3 := hanti a.name b.name
      split_ifs <;> omega
    · rw [sign_stableCompare_of_after lc ha hb h, sign_stableCompare_of_before lc hb ha h]
      norm_num
  · intro hab hbc
    rcases before_trichotomy a b with h | h | h
    · rcases before_trichotomy b c with h2 | h2 | h2
      · rw [sign_stableCompare_of_before lc ha hc (before_trans h h2)]; norm_num
      · have h3 : Before a c := by unfold Before at h ⊢; rw [← h2]; exact h
        rw [sign_stableCompare_of_before lc ha hc h3]; norm_num
      · rw [sign_stableCompare_of_after lc hb hc h2] at hbc; norm_num at hbc
    · rcases before_trichotomy b c with h2 | h2 | h2
      · have h3 : Before a c := by unfold Before at h2 ⊢; rw [h]; exact h2
        rw [sign_stableCompare_of_before lc ha hc h3]; norm_num
      · rw [sign_stableCompare_of_eq lc ha h, sign_tieBreak_signs] at hab
        rw [sign_stableCompare_of_eq lc hb h2, sign_tieBreak_signs] at hbc
        rw [sign_stableCompare_of_eq lc ha (h.trans h2), sign_tieBreak_signs]
        exact lex_trans _ _ _ _ _ _ _ _ _
          (collation_facts lc hanti htrans a.nick b.nick c.nick)
          (collation_facts lc hanti htrans a.studentId b.studentId c.studentId)
          (collation_facts lc hanti htrans a.name b.name c.name) hab hbc
      · rw [sign_stableCompare_of_after lc hb hc h2] at hbc; norm_num at hbc
    · rw [sign_stableCompare_of_after lc ha hb h] at hab; norm_num at hab
  · intro h0
    rcases before_trichotomy a b with h | h | h
    · rw [sign_stableCompare_of_before lc ha hb h] at h0; norm_num at h0
    · rw [sign_stableCompare_of_eq lc ha h, sign_tieBreak] at h0
      refine ⟨h, ?_⟩
      have c1 := intSign_cases (lc a.nick b.nick)
      have c2 := intSign_cases (lc a.studentId b.studentId)
      have c3 := intSign_cases (lc a.name b.name)
      split_ifs at h0 <;> omega
    · rw [sign_stableCompare_of_after lc ha hb h] at h0; norm_num at h0

/-! ### Sorting -/

theorem mem_sortInsert (cmp : PersonRecord → PersonRecord → JSNum) (a y : PersonRecord)
    (l : List PersonRecord) : y ∈ sortInsert cmp a l ↔ y = a ∨ y ∈ l := by
  induction l with
  | nil => simp [sortInsert]
  | cons b t ih =>
    unfold sortInsert
    split_ifs
    · simp
    · simp only [List.mem_cons, ih]
      tauto

theorem sortInsert_perm (cmp : PersonRecord → PersonRecord → JSNum) (a : PersonRecord)
    (l : List PersonRecord) : (sortInsert cmp a l).Perm (a :: l) := by
  induction l with
  | nil => simp [sortInsert]
  | cons b t ih =>
    unfold sortInsert
    split_ifs
    · exact List.Perm.refl _
    · exact (List.Perm.cons b ih).trans (List.Perm.swap a b t)

theorem arraySort_perm (cmp : PersonRecord → PersonRecord → JSNum) (l : List PersonRecord) :
    (arraySort cmp l).Perm l := by
  induction l with
  | nil => simp [arraySort]
  | cons a t ih =>
    unfold arraySort
    exact (sortInsert_perm cmp a _).trans (List.Perm.cons a ih)

/-- Not being strictly behind is transitive. -/
theorem not_before_trans {a b c : PersonRecord} (h1 : ¬ Before b a) (h2 : ¬ Before c b) :
    ¬ Before c a := by
  unfold Before at *
  push_neg at h1 h2
  rintro (h | ⟨h, hv⟩)
  · omega
  · have e1 : timeClass b.seconds = timeClass a.seconds := by omega
    have e2 : timeClass c.seconds = timeClass b.seconds := by omega
    have v1 := h1.2 e1
    have v2 := h2.2 e2
    exact absurd hv (not_lt.2 (le_trans v1 v2))

theorem sortInsert_sorted (lc : Str → Str → ℤ) (a : PersonRecord) (l : List PersonRecord)
    (ha : a.TimeOk) (hl : ∀ r ∈ l, r.TimeOk)
    (hs : l.Pairwise fun x y => ¬ Before y x) :
    (sortInsert (stableCompare lc) a l).Pairwise fun x y => ¬ Before y x := by
  induction l with
  | nil => simp [sortInsert]
  | cons b t ih =>
    have hb : b.TimeOk := hl b (by simp)
    have ht : ∀ r ∈ t, r.TimeOk := fun r hr => hl r (by simp [hr])
    rw [List.pairwise_cons] at hs
    unfold sortInsert
    split_ifs with hna
    · -- `a` stays in front of `b`
      have hab : ¬ Before b a := by
        intro hba
        rw [notAfter_iff, sign_stableCompare_of_after lc ha hb hba] at hna
        norm_num at hna
      rw [List.pairwise_cons]
      refine ⟨?_, List.pairwise_cons.2 hs⟩
      intro y hy
      rcases List.mem_cons.1 hy with rfl | hy
      · exact hab
      · exact not_before_trans hab (hs.1 y hy)
    · -- `a` goes behind `b`
      have hba : ¬ Before a b := by
        intro hab
        apply hna
        rw [notAfter_iff, sign_stableCompare_of_before lc ha hb hab]
        norm_num
      rw [List.pairwise_cons]
      refine ⟨?_, ih ht hs.2⟩
      intro y hy
      rcases (mem_sortInsert _ a y t).1 hy with rfl | hy
      · exact hba
      · exact hs.1 y hy

theorem arraySort_sorted (lc : Str → Str → ℤ) (l : List PersonRecord)
    (hl : ∀ r ∈ l, r.TimeOk) :
    (arraySort (stableCompare lc) l).Pairwise fun x y => ¬ Before y x := by
  induction l with
  | nil => simp [arraySort]
  | cons a t ih =>
    unfold arraySort
    have ht : ∀ r ∈ t, r.TimeOk := fun r hr => hl r (by simp [hr])
    apply sortInsert_sorted lc a _ (hl a (by simp))
    · intro r hr
      exact ht r ((arraySort_perm _ t).mem_iff.1 hr)
    · exact ih ht

/-- What "not strictly behind" says about the times of two records. -/
theorem not_before_iff {x y : PersonRecord} (hx : x.TimeOk) (hy : y.TimeOk) (h : ¬ Before y x) :
    (x.seconds = none → y.seconds = none) ∧
      ∀ p q, x.seconds = some p → y.seconds = some q → p.le q = true := by
  unfold Before at h
  push_neg at h
  constructor
  · intro hxn
    rw [hxn] at h
    cases hys : y.seconds with
    | none => rfl
    | some q =>
      rw [hys] at h
      have := (hy q hys).2
      cases q <;> simp [timeClass] at h this
  · intro p q hp hq
    rw [hp, hq] at h
    have hpn := (hx p hp).2
    have hqn := (hy q hq).2
    cases p <;> cases q <;> simp [timeClass, timeValue, JSNum.le] at h hpn hqn ⊢
    exact h

/-- C6. Rank order: sorting records (times other than NaN) with
`stableCompare` gives a permutation of the rows in which no record without a
time precedes a record with one and the times are non-decreasing; a record
without a time compares greater than one with a time, and a smaller time
compares less than a larger one. -/
theorem rank_order (lc : Str → Str → ℤ) (rows : List PersonRecord)
    (hok : ∀ r ∈ rows, r.TimeOk) :
    (arraySort (stableCompare lc) rows).Perm rows ∧
      ((arraySort (stableCompare lc) rows).Pairwise fun a b =>
        (a.seconds = none → b.seconds = none) ∧
          ∀ x y, a.seconds = some x → b.seconds = some y → x.le y = true) ∧
      (∀ a b : PersonRecord, a.seconds = none → b.seconds ≠ none →
        0 < (stableCompare lc a b).sign) ∧
      ∀ a b : PersonRecord, a.TimeOk → b.TimeOk →
        ∀ x y, a.seconds = some x → b.seconds = some y → x.lt y = true →
          (stableCompare lc a b).sign < 0 := by
  refine ⟨arraySort_perm _ rows, ?_, ?_, ?_⟩
  · have hs := arraySort_sorted lc rows hok
    have hmem : ∀ r ∈ arraySort (stableCompare lc) rows, r.TimeOk := fun r hr =>
      hok r ((arraySort_perm _ rows).mem_iff.1 hr)
    exact List.Pairwise.imp_of_mem (fun {x y} hx hy h => not_before_iff (hmem x hx) (hmem y hy) h) hs
  · intro a b ha hb
    cases hsb : b.seconds with
    | none => exact absurd hsb hb
    | some y =>
      unfold stableCompare
      rw [ha, hsb]
      norm_num [JSNum.sign]
  · intro a b ha hb x y hx hy hlt
    have hbefore : Before a b := by
      unfold Before
      rw [hx, hy]
      exact (lt_iff_class (ha x hx).2 (hb y hy).2).1 hlt
    rw [sign_stableCompare_of_before lc ha hb hbefore]
    norm_num

theorem timeOk_of_none {r : PersonRecord} (h : r.seconds = none) : r.TimeOk := by
  intro x hx; rw [h] at hx; cases hx

theorem timeOk_of_fin {r : PersonRecord} {q : ℚ} (h : r.seconds = some (.fin q))
    (hq : IsDouble q) : r.TimeOk := by
  intro x hx
  rw [h] at hx
  cases hx
  exact ⟨hq, by simp⟩

theorem lengthCollation_antisymm (s t : Str) :
    Int.sign (lengthCollation s t) = -Int.sign (lengthCollation t s) := by
  unfold lengthCollation
  rw [← Int.sign_neg]
  congr 1
  ring

theorem lengthCollation_trans (s t u : Str) (h1 : lengthCollation s t ≤ 0)
    (h2 : lengthCollation t u ≤ 0) : lengthCollation s u ≤ 0 := by
  unfold lengthCollation at *
  omega

theorem timeOk_scenario : ∀ r ∈ [recordA1, recordA2, recordB], r.TimeOk := by
  intro r hr
  simp only [List.mem_cons, List.mem_singleton, List.not_mem_nil, or_false] at hr
  rcases hr with rfl | rfl | rfl
  · exact timeOk_of_fin (q := 60) rfl (by unfold IsDouble; decide!)
  · exact timeOk_of_fin (q := 119 / 2) rfl (by unfold IsDouble; decide!)
  · exact timeOk_of_none rfl

/-- Witness of `stableCompare_total_order`: the length collation is consistent,
and the theorem applies to the three records of the spec's scenario. -/
theorem stableCompare_total_order_witness :
    ((∀ s t, Int.sign (lengthCollation s t) = -Int.sign (lengthCollation t s)) ∧
      (∀ s t u, lengthCollation s t ≤ 0 → lengthCollation t u ≤ 0 → lengthCollation s u ≤ 0) ∧
      recordA1.TimeOk ∧ recordA2.TimeOk ∧ recordB.TimeOk) ∧
    ((stableCompare lengthCollation recordA1 recordA2).sign =
        -(stableCompare lengthCollation recordA2 recordA1).sign ∧
      ((stableCompare lengthCollation recordA1 recordA2).sign ≤ 0 →
        (stableCompare lengthCollation recordA2 recordB).sign ≤ 0 →
        (stableCompare lengthCollation recordA1 recordB).sign ≤ 0) ∧
      ((stableCompare lengthCollation recordA1 recordA2).sign = 0 →
        recordA1.seconds = recordA2.seconds ∧ lengthCollation recordA1.nick recordA2.nick = 0 ∧
          lengthCollation recordA1.studentId recordA2.studentId = 0 ∧
          lengthCollation recordA1.name recordA2.name = 0)) :=
  ⟨⟨lengthCollation_antisymm, lengthCollation_trans, timeOk_scenario _ (by simp),
      timeOk_scenario _ (by simp), timeOk_scenario _ (by simp)⟩,
    stableCompare_total_order lengthCollation lengthCollation_antisymm lengthCollation_trans
      recordA1 recordA2 recordB (timeOk_scenario _ (by simp)) (timeOk_scenario _ (by simp))
      (timeOk_scenario _ (by simp))⟩

/-- Witness of `rank_order` on the scenario of the spec (B, without a time,
listed first): the hypothesis holds there and the theorem applies. -/
theorem rank_order_witness :
    (∀ r ∈ [recordB, recordA1, recordA2], r.TimeOk) ∧
    ((arraySort (stableCompare lengthCollation) [recordB, recordA1, recordA2]).Perm
        [recordB, recordA1, recordA2] ∧
      ((arraySort (stableCompare lengthCollation) [recordB, recordA1, recordA2]).Pairwise
        fun a b => (a.seconds = none → b.seconds = none) ∧
          ∀ x y, a.seconds = some x → b.seconds = some y → x.le y = true) ∧
      (∀ a b : PersonRecord, a.seconds = none → b.seconds ≠ none →
        0 < (stableCompare lengthCollation a b).sign) ∧
      ∀ a b : PersonRecord, a.TimeOk → b.TimeOk →
        ∀ x y, a.seconds = some x → b.seconds = some y → x.lt y = true →
          (stableCompare lengthCollation a b).sign < 0) :=
  ⟨fun r hr => timeOk_scenario r (by simp at hr ⊢; tauto),
    rank_order lengthCollation [recordB, recordA1, recordA2]
      (fun r hr => timeOk_scenario r (by simp at hr ⊢; tauto))⟩

/-- The sorted scenario: A's two attempts by time, then B. -/
theorem arraySort_scenario :
    arraySort (stableCompare lengthCollation) [recordB, recordA1, recordA2] =
      [recordA2, recordA1, recordB] := by
  decide!

/-! ### The decomposition in `formatSecondsToMinSecCs` -/

/-- Dividing a natural number by a small constant and taking the floor gives
the integer quotient, also after binary64 rounding of the quotient. -/
theorem floor_div_toDouble (T d : ℕ) (b : ℤ) (hd : 0 < d) (hlt : (T : ℚ) / (d : ℚ) < pow2 b)
    (hb0 : 0 ≤ b) (hb53 : b ≤ 53) (hgap : pow2 (b - 54) < 1 / (d : ℚ)) :
    mathFloor (toDouble ((T : ℚ) / (d : ℚ))) = .fin ((T / d : ℕ) : ℚ) := by
  have hdq : (0 : ℚ) < (d : ℚ) := by exact_mod_cast hd
  by_cases hT : T < d
  · -- the quotient is 0
    have hk : T / d = 0 := Nat.div_eq_of_lt hT
    rw [hk]
    by_cases hT0 : T = 0
    · subst hT0
      simp [toDouble, mathFloor]
    · have hx0 : (0 : ℚ) < (T : ℚ) / (d : ℚ) := by
        apply div_pos _ hdq
        exact_mod_cast Nat.pos_of_ne_zero hT0
      have hle : (T : ℚ) + 1 ≤ d := by exact_mod_cast hT
      have hup : (T : ℚ) / (d : ℚ) ≤ 1 - 1 / (d : ℚ) := by
        rw [div_le_iff₀ hdq]
        field_simp
        linarith
      have := floor_toDouble (x := (T : ℚ) / (d : ℚ)) (k := 0) (b := b) hx0
        (by simpa using le_of_lt hx0) hlt hb0 hb53 (by push_cast; linarith)
      rw [this.1]
      simp [mathFloor, this.2]
  · have hTd : d ≤ T := not_lt.1 hT
    have hx0 : (0 : ℚ) < (T : ℚ) / (d : ℚ) := by
      apply div_pos _ hdq
      exact_mod_cast lt_of_lt_of_le hd hTd
    have hdm := Nat.div_add_mod T d
    have hmod := Nat.mod_lt T hd
    have hdne : (d : ℚ) ≠ 0 := ne_of_gt hdq
    have hlow : ((T / d : ℕ) : ℚ) ≤ (T : ℚ) / (d : ℚ) := by
      rw [le_div_iff₀ hdq]
      have : (T / d) * d ≤ T := Nat.div_mul_le_self T d
      exact_mod_cast this
    have hup : (T : ℚ) / (d : ℚ) ≤ ((T / d : ℕ) : ℚ) + 1 - 1 / (d : ℚ) := by
      rw [div_le_iff₀ hdq]
      have h1 : (((T / d : ℕ) : ℚ) + 1 - 1 / (d : ℚ)) * (d : ℚ) =
          ((T / d : ℕ) : ℚ) * d + d - 1 := by
        rw [sub_mul, add_mul, one_mul, one_div, inv_mul_cancel₀ hdne]
      rw [h1]
      have h2 : T + 1 ≤ (T / d) * d + d := by
        have : d * (T / d) = (T / d) * d := Nat.mul_comm _ _
        omega
      have h3 : ((T + 1 : ℕ) : ℚ) ≤ (((T / d) * d + d : ℕ) : ℚ) := by exact_mod_cast h2
      push_cast at h3
      linarith
    have := floor_toDouble (x := (T : ℚ) / (d : ℚ)) (k := ((T / d : ℕ) : ℤ)) (b := b) hx0
      (by rw [Int.cast_natCast]; exact hlow) hlt hb0 hb53
      (by rw [Int.cast_natCast]; linarith)
    rw [this.1]
    simp only [mathFloor, this.2, Int.cast_natCast]

theorem numToString_natCast (n : ℕ) (h : n < 2 ^ 53) :
    numToString (.fin (n : ℚ)) = some (natToDigits n) := by
  simpa [numToString] using h

theorem toDouble_natCast_sub (a b : ℕ) (hb : b ≤ a) (ha : a < 2 ^ 53) :
    toDouble ((a : ℚ) - (b : ℚ)) = .fin ((a - b : ℕ) : ℚ) := by
  rw [← Nat.cast_sub hb]
  exact toDouble_natCast _ (by omega)

theorem toDouble_natCast_mul (a b : ℕ) (h : a * b < 2 ^ 53) :
    toDouble ((a : ℚ) * (b : ℚ)) = .fin ((a * b : ℕ) : ℚ) := by
  rw [← Nat.cast_mul]
  exact toDouble_natCast _ h

/-- The three numbers `formatSecondsToMinSecCs` prints, when the rounded total
of centiseconds `T` is below `2 ^ 53`: the quotients and remainders of `T` by
6000 and 100, with no carry. -/
theorem formatParts_of_round (v : JSNum) (T : ℕ)
    (hT : mathRound (v.mul (.fin 100)) = .fin (T : ℚ)) (hlt : T < 2 ^ 53) :
    formatParts v =
      (.fin ((T / 6000 : ℕ) : ℚ), .fin ((T % 6000 / 100 : ℕ) : ℚ), .fin ((T % 100 : ℕ) : ℚ)) := by
  have hM : mathFloor ((JSNum.fin (T : ℚ)).div (.fin 6000)) = .fin ((T / 6000 : ℕ) : ℚ) := by
    have h := floor_div_toDouble T 6000 41 (by norm_num)
      (by
        rw [pow2_eq, div_lt_iff₀ (by norm_num)]
        have : (T : ℚ) < 2 ^ 53 := by exact_mod_cast hlt
        norm_num at this ⊢
        linarith)
      (by norm_num) (by norm_num) (by rw [pow2_eq]; norm_num)
    simpa [JSNum.div] using h
  have hM60 : (JSNum.fin ((T / 6000 : ℕ) : ℚ)).mul (.fin 60) = .fin ((T / 6000 * 60 : ℕ) : ℚ) := by
    have := toDouble_natCast_mul (T / 6000) 60 (by omega)
    simpa [JSNum.mul] using this
  have hM6000 : (JSNum.fin ((T / 6000 * 60 : ℕ) : ℚ)).mul (.fin 100) =
      .fin ((T / 6000 * 60 * 100 : ℕ) : ℚ) := by
    have := toDouble_natCast_mul (T / 6000 * 60) 100 (by omega)
    simpa [JSNum.mul] using this
  have hR : (JSNum.fin (T : ℚ)).sub (.fin ((T / 6000 * 60 * 100 : ℕ) : ℚ)) =
      .fin ((T % 6000 : ℕ) : ℚ) := by
    have := toDouble_natCast_sub T (T / 6000 * 60 * 100) (by omega) hlt
    have e : T - T / 6000 * 60 * 100 = T % 6000 := by omega
    rw [e] at this
    simpa [JSNum.sub] using this
  have hS : mathFloor ((JSNum.fin ((T % 6000 : ℕ) : ℚ)).div (.fin 100)) =
      .fin ((T % 6000 / 100 : ℕ) : ℚ) := by
    have h := floor_div_toDouble (T % 6000) 100 13 (by norm_num)
      (by
        rw [pow2_eq, div_lt_iff₀ (by norm_num)]
        have : T % 6000 < 6000 := Nat.mod_lt _ (by norm_num)
        have : ((T % 6000 : ℕ) : ℚ) < 6000 := by exact_mod_cast this
        norm_num at this ⊢
        linarith)
      (by norm_num) (by norm_num) (by rw [pow2_eq]; norm_num)
    simpa [JSNum.div] using h
  have hS100 : (JSNum.fin ((T % 6000 / 100 : ℕ) : ℚ)).mul (.fin 100) =
      .fin ((T % 6000 / 100 * 100 : ℕ) : ℚ) := by
    have := toDouble_natCast_mul (T % 6000 / 100) 100 (by omega)
    simpa [JSNum.mul] using this
  have hC : (JSNum.fin ((T % 6000 : ℕ) : ℚ)).sub (.fin ((T % 6000 / 100 * 100 : ℕ) : ℚ)) =
      .fin ((T % 100 : ℕ) : ℚ) := by
    have := toDouble_natCast_sub (T % 6000) (T % 6000 / 100 * 100) (by omega) (by omega)
    have e : T % 6000 - T % 6000 / 100 * 100 = T % 100 := by omega
    rw [e] at this
    simpa [JSNum.sub] using this
  have hc1 : (JSNum.fin ((T % 100 : ℕ) : ℚ)).ge (.fin 100) = false := by
    have : T % 100 < 100 := Nat.mod_lt _ (by norm_num)
    have : ((T % 100 : ℕ) : ℚ) < 100 := by exact_mod_cast this
    simpa [JSNum.ge] using this
  have hc2 : (JSNum.fin ((T % 6000 / 100 : ℕ) : ℚ)).ge (.fin 60) = false := by
    have : T % 6000 / 100 < 60 := by omega
    have : ((T % 6000 / 100 : ℕ) : ℚ) < 60 := by exact_mod_cast this
    simpa [JSNum.ge] using this
  unfold formatParts
  simp only [hT, hM, hM60, hM6000, hR, hS, hS100, hC, hc1, hc2, Bool.false_eq_true, if_false]

/-- C10 (amended). Format decomposition: whenever the rounded total of
centiseconds `T = Math.round(v * 100)` is a natural number below `2 ^ 53`,
`formatSecondsToMinSecCs(v)` is the text of `T div 6000`, the marker, the text of
`(T mod 6000) div 100` (at most 59), the marker, and `T mod 100` (at most 99)
padded to two digits; `format(90.0)` is "1분 30초 00" and `format(90.126)` is
"1분 30초 13". -/
theorem format_decomposition :
    (∀ (v : JSNum) (T : ℕ), mathRound (v.mul (.fin 100)) = .fin (T : ℚ) → T < 2 ^ 53 →
      formatSecondsToMinSecCs v =
          some (natToDigits (T / 6000) ++ "분 ".toList ++ natToDigits (T % 6000 / 100) ++
            "초 ".toList ++ padStart2 (natToDigits (T % 100))) ∧
        T % 6000 / 100 ≤ 59 ∧ T % 100 ≤ 99) ∧
      formatSecondsToMinSecCs (.fin 90) = some "1분 30초 00".toList ∧
      formatSecondsToMinSecCs (toDouble (90126 / 1000)) = some "1분 30초 13".toList := by
  refine ⟨?_, by decide!, by decide!⟩
  intro v T hT hlt
  refine ⟨?_, by omega, by omega⟩
  unfold formatSecondsToMinSecCs
  rw [formatParts_of_round v T hT hlt]
  simp only [numToString_natCast _ (show T / 6000 < 2 ^ 53 by omega),
    numToString_natCast _ (show T % 6000 / 100 < 2 ^ 53 by omega),
    numToString_natCast _ (show T % 100 < 2 ^ 53 by omega), Option.some_bind, Option.map_some']

/-- Witness of `format_decomposition` at `v = 90.126`, where `T = 9013`. -/
theorem format_decomposition_witness :
    (mathRound ((toDouble (90126 / 1000)).mul (.fin 100)) = .fin ((9013 : ℕ) : ℚ) ∧
      9013 < 2 ^ 53) ∧
    (formatSecondsToMinSecCs (toDouble (90126 / 1000)) =
        some (natToDigits (9013 / 6000) ++ "분 ".toList ++ natToDigits (9013 % 6000 / 100) ++
          "초 ".toList ++ padStart2 (natToDigits (9013 % 100))) ∧
      9013 % 6000 / 100 ≤ 59 ∧ 9013 % 100 ≤ 99) :=
  ⟨⟨by decide!, by norm_num⟩,
    format_decomposition.1 (toDouble (90126 / 1000)) 9013 (by decide!) (by norm_num)⟩

/-- C10 (counterexample). At `v = 10 ^ 16`, a binary64 value, the rounded total is
`T = 10 ^ 18` and the claim's text is "166666666666666분 40초 00", but the
floating-point decomposition prints 39 seconds and 68 centiseconds. -/
theorem format_decomposition_fails :
    IsDouble (10 ^ 16) ∧
      mathRound ((JSNum.fin (10 ^ 16)).mul (.fin 100)) = .fin ((10 ^ 18 : ℕ) : ℚ) ∧
      formatSecondsToMinSecCs (.fin (10 ^ 16)) = some "166666666666666분 39초 68".toList ∧
      natToDigits (10 ^ 18 / 6000) ++ "분 ".toList ++ natToDigits (10 ^ 18 % 6000 / 100) ++
          "초 ".toList ++ padStart2 (natToDigits (10 ^ 18 % 100)) =
        "166666666666666분 40초 00".toList ∧
      formatSecondsToMinSecCs (.fin (10 ^ 16)) ≠
        some (natToDigits (10 ^ 18 / 6000) ++ "분 ".toList ++
          natToDigits (10 ^ 18 % 6000 / 100) ++ "초 ".toList ++
          padStart2 (natToDigits (10 ^ 18 % 100))) := by
  unfold IsDouble
  decide!

/-- At `v = 2 ^ 1023` the product `v * 100` overflows and the text has no digits. -/
theorem format_overflow :
    IsDouble (pow2 1023) ∧
      formatSecondsToMinSecCs (.fin (pow2 1023)) = some "Infinity분 NaN초 NaN".toList := by
  unfold IsDouble
  decide!

/-! ### The matchers on text of the primary grammar -/

theorem isJsSpace_of_isDigit {c : Char} (h : isDigit c = true) : isJsSpace c = false := by
  simp only [isDigit, Bool.and_eq_true, decide_eq_true_eq] at h
  simp [isJsSpace]
  omega

theorem isDigit_of_isJsSpace {c : Char} (h : isJsSpace c = true) : isDigit c = false := by
  cases hd : isDigit c with
  | false => rfl
  | true => rw [isJsSpace_of_isDigit hd] at h; cases h

theorem noDigitHead_nil : NoDigitHead [] := by
  intro c h; simp at h

theorem noSpaceHead_nil : NoSpaceHead [] := by
  intro c h; simp at h

theorem noSpaceHead_cons {c : Char} (r : Str) (h : isJsSpace c = false) : NoSpaceHead (c :: r) := by
  intro d hd
  simp only [List.head?_cons, Option.some.injEq] at hd
  rw [← hd]; exact h

theorem noDigitHead_cons {c : Char} (r : Str) (h : isDigit c = false) : NoDigitHead (c :: r) := by
  intro d hd
  simp only [List.head?_cons, Option.some.injEq] at hd
  rw [← hd]; exact h

theorem noSpaceHead_digits_append {d : Str} (r : Str) (hd : IsDigits d) : NoSpaceHead (d ++ r) := by
  obtain ⟨hne, hall⟩ := hd
  cases d with
  | nil => exact absurd rfl hne
  | cons c t => exact noSpaceHead_cons _ (isJsSpace_of_isDigit (hall c (by simp)))

theorem noDigitHead_spaces_append {w : Str} {c : Char} (r : Str) (hw : IsSpaces w)
    (hc : isDigit c = false) : NoDigitHead (w ++ c :: r) := by
  cases w with
  | nil => exact noDigitHead_cons _ hc
  | cons a t => exact noDigitHead_cons _ (isDigit_of_isJsSpace (hw a (by simp)))

theorem takeWhile_eq_nil_of_noDigitHead {r : Str} (hr : NoDigitHead r) :
    r.takeWhile isDigit = [] := by
  cases r with
  | nil => rfl
  | cons c t => simp [List.takeWhile, hr c rfl]

theorem dropWhile_eq_self_of_noDigitHead {r : Str} (hr : NoDigitHead r) :
    r.dropWhile isDigit = r := by
  cases r with
  | nil => rfl
  | cons c t => simp [List.dropWhile, hr c rfl]

theorem takeWhile_digits_append {d r : Str} (hd : ∀ c ∈ d, isDigit c = true)
    (hr : NoDigitHead r) : (d ++ r).takeWhile isDigit = d := by
  rw [List.takeWhile_append_of_pos hd, takeWhile_eq_nil_of_noDigitHead hr, List.append_nil]

theorem dropWhile_digits_append {d r : Str} (hd : ∀ c ∈ d, isDigit c = true)
    (hr : NoDigitHead r) : (d ++ r).dropWhile isDigit = r := by
  rw [List.dropWhile_append_of_pos hd, dropWhile_eq_self_of_noDigitHead hr]

theorem digits1_append {d r : Str} (hd : IsDigits d) (hr : NoDigitHead r) :
    digits1 (d ++ r) = some (d, r) := by
  unfold digits1
  rw [takeWhile_digits_append hd.2 hr, dropWhile_digits_append hd.2 hr, if_neg hd.1]

theorem skipSpaces_of_noSpaceHead {r : Str} (hr : NoSpaceHead r) : skipSpaces r = r := by
  unfold skipSpaces
  cases r with
  | nil => rfl
  | cons c t => simp [List.dropWhile, hr c rfl]

theorem skipSpaces_append {w r : Str} (hw : IsSpaces w) (hr : NoSpaceHead r) :
    skipSpaces (w ++ r) = r := by
  have := skipSpaces_of_noSpaceHead hr
  unfold skipSpaces at *
  rw [List.dropWhile_append_of_pos hw, this]

theorem isDigit_minute : isDigit '분' = false := by decide

theorem isDigit_second : isDigit '초' = false := by decide

theorem isJsSpace_minute : isJsSpace '분' = false := by decide

theorem isJsSpace_second : isJsSpace '초' = false := by decide

/-- The main pattern matches text of the primary grammar, with the three digit
strings as its groups. -/
theorem matchMain_mainText {dm w1 w2 ds w3 w4 dc : Str} (hdm : IsDigits dm) (hds : IsDigits ds)
    (hdc : IsDigits dc) (hw1 : IsSpaces w1) (hw2 : IsSpaces w2) (hw3 : IsSpaces w3)
    (hw4 : IsSpaces w4) :
    matchMain (mainText dm w1 w2 ds w3 w4 dc) = some (dm, ds, dc) := by
  unfold matchMain mainText
  rw [skipSpaces_of_noSpaceHead (noSpaceHead_digits_append _ hdm),
    digits1_append hdm (noDigitHead_spaces_append _ hw1 isDigit_minute)]
  simp only [Option.some_bind]
  rw [skipSpaces_append hw1 (noSpaceHead_cons _ isJsSpace_minute)]
  simp only [expectChar, if_true, Option.some_bind]
  rw [skipSpaces_append hw2 (noSpaceHead_digits_append _ hds),
    digits1_append hds (noDigitHead_spaces_append _ hw3 isDigit_second)]
  simp only [Option.some_bind]
  rw [skipSpaces_append hw3 (noSpaceHead_cons _ isJsSpace_second)]
  simp only [expectChar, if_true, Option.some_bind]
  have h1 : skipSpaces (w4 ++ dc) = dc ++ [] := by
    rw [skipSpaces_append hw4 (by simpa using noSpaceHead_digits_append [] hdc)]
    simp
  rw [h1, digits1_append hdc noDigitHead_nil]
  simp [atEnd, skipSpaces]

/-! ### `Number(...)` on a string of digits -/

theorem trim_eq_self_of {s : Str} (h1 : NoSpaceHead s) (h2 : NoSpaceHead s.reverse) :
    trim s = s := by
  unfold trim
  have e1 := skipSpaces_of_noSpaceHead h1
  have e2 := skipSpaces_of_noSpaceHead h2
  unfold skipSpaces at e1 e2
  rw [e1, e2, List.reverse_reverse]

theorem isDigits_reverse {d : Str} (hd : IsDigits d) : IsDigits d.reverse :=
  ⟨by simpa using hd.1, fun c hc => hd.2 c (List.mem_reverse.1 hc)⟩

theorem trim_digits {d : Str} (hd : IsDigits d) : trim d = d := by
  apply trim_eq_self_of
  · simpa using noSpaceHead_digits_append [] hd
  · simpa using noSpaceHead_digits_append [] (isDigits_reverse hd)

theorem trim_mainText {dm w1 w2 ds w3 w4 dc : Str} (hdm : IsDigits dm) (hdc : IsDigits dc) :
    trim (mainText dm w1 w2 ds w3 w4 dc) = mainText dm w1 w2 ds w3 w4 dc := by
  apply trim_eq_self_of
  · exact noSpaceHead_digits_append _ hdm
  · have : (mainText dm w1 w2 ds w3 w4 dc).reverse =
        dc.reverse ++ (dm ++ (w1 ++ '분' :: (w2 ++ (ds ++ (w3 ++ '초' :: w4))))).reverse := by
      simp [mainText]
    rw [this]
    exact noSpaceHead_digits_append _ (isDigits_reverse hdc)

theorem nonDecimalLiteral_cons_cons (a c : Char) (t : Str)
    (hc : c ≠ 'x' ∧ c ≠ 'X' ∧ c ≠ 'o' ∧ c ≠ 'O' ∧ c ≠ 'b' ∧ c ≠ 'B') :
    nonDecimalLiteral (a :: c :: t) = none := by
  unfold nonDecimalLiteral
  split
  · rename_i c2 ds heq
    have h2 : c = c2 := by injection heq with _ h; injection h
    subst h2
    simp [hc.1, hc.2.1, hc.2.2.1, hc.2.2.2.1, hc.2.2.2.2.1, hc.2.2.2.2.2]
  · rfl

theorem not_radix_letter_of_isDigit {c : Char} (h : isDigit c = true) :
    c ≠ 'x' ∧ c ≠ 'X' ∧ c ≠ 'o' ∧ c ≠ 'O' ∧ c ≠ 'b' ∧ c ≠ 'B' := by
  refine ⟨?_, ?_, ?_, ?_, ?_, ?_⟩ <;> (rintro rfl; revert h; decide)

theorem nonDecimalLiteral_digits {d : Str} (hd : IsDigits d) : nonDecimalLiteral d = none := by
  cases d with
  | nil => rfl
  | cons a t =>
    cases t with
    | nil => unfold nonDecimalLiteral; split <;> simp_all
    | cons c u =>
      exact nonDecimalLiteral_cons_cons a c u (not_radix_letter_of_isDigit (hd.2 c (by simp)))

theorem head_ne_sign_of_digits {d : Str} (hd : IsDigits d) :
    d.head? ≠ some '-' ∧ d.head? ≠ some '+' := by
  obtain ⟨hne, hall⟩ := hd
  cases d with
  | nil => exact absurd rfl hne
  | cons c t =>
    have hc := hall c (by simp)
    constructor <;> (intro h; simp at h; subst h; revert hc; decide)

theorem ne_infinity_of_digits {d : Str} (hd : IsDigits d) : d ≠ "Infinity".toList := by
  obtain ⟨hne, hall⟩ := hd
  rintro rfl
  have := hall 'I' (by decide)
  revert this; decide

theorem pow10_zero : pow10 0 = 1 := by
  simp [pow10]

theorem unsignedDecimal_digits {d : Str} (hd : IsDigits d) :
    unsignedDecimal d = some (natOfDigits d : ℚ) := by
  have h1 : d.takeWhile isDigit = d := by
    simpa using takeWhile_digits_append (r := []) hd.2 noDigitHead_nil
  have h2 : d.dropWhile isDigit = [] := by
    simpa using dropWhile_digits_append (r := []) hd.2 noDigitHead_nil
  unfold unsignedDecimal
  simp only [h1, h2, hd.1, false_and, if_false, exponentPart, Option.map_some', List.append_nil,
    List.length_nil, Nat.cast_zero, sub_zero, pow10_zero, mul_one, fractionDigits, afterFraction]

/-- `Number(d)` for a string of digits is its value, rounded to binary64. -/
theorem strToNumber_digits {d : Str} (hd : IsDigits d) :
    strToNumber d = toDouble (natOfDigits d : ℚ) := by
  unfold strToNumber
  simp only [trim_digits hd, hd.1, if_false, nonDecimalLiteral_digits hd,
    (head_ne_sign_of_digits hd).1, (head_ne_sign_of_digits hd).2, or_self, if_false,
    ne_infinity_of_digits hd, unsignedDecimal_digits hd, decide_False, Bool.false_eq_true]

/-! ### The other patterns reject text of the primary grammar -/

theorem head_spaces_append_cons {w : Str} (c : Char) (r : Str) (hw : IsSpaces w) :
    ∃ h t, w ++ c :: r = h :: t ∧ (isJsSpace h = true ∨ h = c) := by
  cases w with
  | nil => exact ⟨c, r, rfl, Or.inr rfl⟩
  | cons a t => exact ⟨a, t ++ c :: r, rfl, Or.inl (hw a (by simp))⟩

theorem matchMmss_mainText {dm w1 w2 ds w3 w4 dc : Str} (hdm : IsDigits dm) (hw1 : IsSpaces w1) :
    matchMmss (mainText dm w1 w2 ds w3 w4 dc) = none := by
  unfold matchMmss mainText
  rw [skipSpaces_of_noSpaceHead (noSpaceHead_digits_append _ hdm),
    digits1_append hdm (noDigitHead_spaces_append _ hw1 isDigit_minute)]
  simp only [Option.some_bind]
  rw [skipSpaces_append hw1 (noSpaceHead_cons _ isJsSpace_minute)]
  have : ('분' : Char) ≠ ':' := by decide
  simp [expectChar, this]

theorem decimal1_digits_append {d r : Str} (hd : IsDigits d) (hr : NoDigitHead r)
    (hdot : r.head? ≠ some '.') : decimal1 (d ++ r) = some (d, r) := by
  unfold decimal1
  rw [digits1_append hd hr]
  simp only [Option.map_some']
  split
  · simp at hdot
  · rfl

theorem matchText_mainText {dm w1 w2 ds w3 w4 dc : Str} (hdm : IsDigits dm) (hds : IsDigits ds)
    (hdc : IsDigits dc) (hw1 : IsSpaces w1) (hw2 : IsSpaces w2) (hw3 : IsSpaces w3)
    (hw4 : IsSpaces w4) :
    matchText (mainText dm w1 w2 ds w3 w4 dc) = none := by
  unfold matchText mainText
  rw [skipSpaces_of_noSpaceHead (noSpaceHead_digits_append _ hdm),
    digits1_append hdm (noDigitHead_spaces_append _ hw1 isDigit_minute)]
  simp only [Option.some_bind]
  rw [skipSpaces_append hw1 (noSpaceHead_cons _ isJsSpace_minute)]
  simp only [expectChar, if_true, Option.some_bind]
  have hdot : (w3 ++ '초' :: (w4 ++ dc)).head? ≠ some '.' := by
    obtain ⟨h, t, heq, hh⟩ := head_spaces_append_cons '초' (w4 ++ dc) hw3
    rw [heq]
    simp only [List.head?_cons, ne_eq, Option.some.injEq]
    rintro rfl
    rcases hh with hh | hh
    · revert hh; decide
    · revert hh; decide
  rw [skipSpaces_append hw2 (noSpaceHead_digits_append _ hds),
    decimal1_digits_append hds (noDigitHead_spaces_append _ hw3 isDigit_second) hdot]
  simp only [Option.some_bind]
  rw [skipSpaces_append hw3 (noSpaceHead_cons _ isJsSpace_second)]
  simp only [expectChar, if_true, Option.some_bind]
  have h1 : skipSpaces (w4 ++ dc) = dc := by
    rw [skipSpaces_append hw4 (by simpa using noSpaceHead_digits_append [] hdc)]
  simp [atEnd, h1, hdc.1]

theorem mem_mainText {dm w1 w2 ds w3 w4 dc : Str} {c : Char}
    (h : c ∈ mainText dm w1 w2 ds w3 w4 dc) (hdm : IsDigits dm) (hds : IsDigits ds)
    (hdc : IsDigits dc) (hw1 : IsSpaces w1) (hw2 : IsSpaces w2) (hw3 : IsSpaces w3)
    (hw4 : IsSpaces w4) :
    isDigit c = true ∨ isJsSpace c = true ∨ c = '분' ∨ c = '초' := by
  simp only [mainText, List.mem_append, List.mem_cons] at h
  rcases h with h | h | h | h | h | h | h | h | h
  · exact Or.inl (hdm.2 c h)
  · exact Or.inr (Or.inl (hw1 c h))
  · exact Or.inr (Or.inr (Or.inl h))
  · exact Or.inr (Or.inl (hw2 c h))
  · exact Or.inl (hds.2 c h)
  · exact Or.inr (Or.inl (hw3 c h))
  · exact Or.inr (Or.inr (Or.inr h))
  · exact Or.inr (Or.inl (hw4 c h))
  · exact Or.inl (hdc.2 c h)

theorem removeCommas_mainText {dm w1 w2 ds w3 w4 dc : Str} (hdm : IsDigits dm)
    (hds : IsDigits ds) (hdc : IsDigits dc) (hw1 : IsSpaces w1) (hw2 : IsSpaces w2)
    (hw3 : IsSpaces w3) (hw4 : IsSpaces w4) :
    removeCommas (mainText dm w1 w2 ds w3 w4 dc) = mainText dm w1 w2 ds w3 w4 dc := by
  unfold removeCommas
  rw [List.filter_eq_self]
  intro c hc
  have := mem_mainText hc hdm hds hdc hw1 hw2 hw3 hw4
  simp only [ne_eq, decide_not, Bool.not_eq_eq_eq_not, Bool.not_true, decide_eq_false_iff_not]
  rintro rfl
  rcases this with h | h | h | h <;> revert h <;> decide

/-- `Number(...)` of text of the primary grammar is NaN. -/
theorem strToNumber_mainText {dm w1 w2 ds w3 w4 dc : Str} (hdm : IsDigits dm)
    (hdc : IsDigits dc) (hw1 : IsSpaces w1) :
    strToNumber (mainText dm w1 w2 ds w3 w4 dc) = .nan := by
  obtain ⟨h, t, heq, hh⟩ := head_spaces_append_cons '분' (w2 ++ (ds ++ (w3 ++ '초' :: (w4 ++ dc)))) hw1
  have hhx : h ≠ 'x' ∧ h ≠ 'X' ∧ h ≠ 'o' ∧ h ≠ 'O' ∧ h ≠ 'b' ∧ h ≠ 'B' := by
    refine ⟨?_, ?_, ?_, ?_, ?_, ?_⟩ <;>
      (rintro rfl; rcases hh with hh | hh <;> revert hh <;> decide)
  have hhe : ¬ (h = 'e' ∨ h = 'E') := by
    rintro (rfl | rfl) <;> rcases hh with hh | hh <;> revert hh <;> decide
  have hhd : h ≠ '.' := by
    rintro rfl; rcases hh with hh | hh <;> revert hh <;> decide
  have hhdig : isDigit h = false := by
    rcases hh with hh | hh
    · exact isDigit_of_isJsSpace hh
    · rw [hh]; decide
  have htext : mainText dm w1 w2 ds w3 w4 dc = dm ++ h :: t := by
    unfold mainText; rw [heq]
  have hne : mainText dm w1 w2 ds w3 w4 dc ≠ [] := by
    rw [htext]; simp [hdm.1]
  have hnd : nonDecimalLiteral (dm ++ h :: t) = none := by
    obtain ⟨hne, hall⟩ := hdm
    cases dm with
    | nil => exact absurd rfl hne
    | cons a u =>
      cases u with
      | nil => exact nonDecimalLiteral_cons_cons a h t hhx
      | cons c v =>
        exact nonDecimalLiteral_cons_cons a c _ (not_radix_letter_of_isDigit (hall c (by simp)))
  have hhead : (dm ++ h :: t).head? ≠ some '-' ∧ (dm ++ h :: t).head? ≠ some '+' := by
    obtain ⟨hne, hall⟩ := hdm
    cases dm with
    | nil => exact absurd rfl hne
    | cons a u => exact head_ne_sign_of_digits (d := [a]) ⟨by simp, by simpa using hall a (by simp)⟩
  have hinf : dm ++ h :: t ≠ "Infinity".toList := by
    obtain ⟨hne, hall⟩ := hdm
    cases dm with
    | nil => exact absurd rfl hne
    | cons a u =>
      intro he
      have ha := hall a (by simp)
      have : a = 'I' := by
        have := congrArg List.head? he
        simpa using this
      subst this
      revert ha; decide
  have hud : unsignedDecimal (dm ++ h :: t) = none := by
    have h1 : (dm ++ h :: t).takeWhile isDigit = dm :=
      takeWhile_digits_append hdm.2 (noDigitHead_cons _ hhdig)
    have h2 : (dm ++ h :: t).dropWhile isDigit = h :: t :=
      dropWhile_digits_append hdm.2 (noDigitHead_cons _ hhdig)
    have h3 : fractionDigits (h :: t) = [] := by
      unfold fractionDigits
      split
      · rename_i u he
        have : h = '.' := by injection he
        exact absurd this hhd
      · rfl
    have h4 : afterFraction (h :: t) = h :: t := by
      unfold afterFraction
      split
      · rename_i u he
        have : h = '.' := by injection he
        exact absurd this hhd
      · rfl
    unfold unsignedDecimal
    simp only [h1, h2, h3, h4]
    simp [hdm.1, exponentPart, hhe]
  unfold strToNumber
  rw [trim_mainText hdm hdc]
  simp only [hne, if_false]
  rw [htext, hnd]
  simp only [hhead.1, hhead.2, or_self, if_false, hinf, hud]

/-! ### `parseRecordToSeconds` on text of the primary grammar -/

/-- On text of the primary grammar the parser returns the value of line 86 when
the three numerals convert to finite Numbers, and `null` otherwise. -/
theorem parse_mainText {dm w1 w2 ds w3 w4 dc : Str} (hdm : IsDigits dm) (hds : IsDigits ds)
    (hdc : IsDigits dc) (hw1 : IsSpaces w1) (hw2 : IsSpaces w2) (hw3 : IsSpaces w3)
    (hw4 : IsSpaces w4) :
    parseRecordToSeconds (mainText dm w1 w2 ds w3 w4 dc) =
      if (toDouble (natOfDigits dm : ℚ)).isFinite = true ∧
          (toDouble (natOfDigits ds : ℚ)).isFinite = true ∧
          (toDouble (natOfDigits dc : ℚ)).isFinite = true then
        some (mainFormula (toDouble (natOfDigits dm : ℚ)) (toDouble (natOfDigits ds : ℚ))
          (toDouble (natOfDigits dc : ℚ)))
      else none := by
  have hne : mainText dm w1 w2 ds w3 w4 dc ≠ [] := by
    unfold mainText; simp [hdm.1]
  unfold parseRecordToSeconds
  simp only [trim_mainText hdm hdc, hne, if_false,
    matchMain_mainText hdm hds hdc hw1 hw2 hw3 hw4, matchMmss_mainText hdm hw1,
    matchText_mainText hdm hds hdc hw1 hw2 hw3 hw4, Option.some_bind, Option.none_bind]
  unfold mainValue
  simp only [strToNumber_digits hdm, strToNumber_digits hds, strToNumber_digits hdc]
  by_cases hfin : (toDouble (natOfDigits dm : ℚ)).isFinite = true ∧
      (toDouble (natOfDigits ds : ℚ)).isFinite = true ∧
      (toDouble (natOfDigits dc : ℚ)).isFinite = true
  · rw [if_pos hfin]
    simp [hfin.1, hfin.2.1, hfin.2.2, mainFormula, Option.orElse]
  · rw [if_neg hfin]
    have hb : ((toDouble (natOfDigits dm : ℚ)).isFinite && (toDouble (natOfDigits ds : ℚ)).isFinite
        && (toDouble (natOfDigits dc : ℚ)).isFinite) = false := by
      rw [Bool.eq_false_iff]
      intro h
      simp only [Bool.and_eq_true] at h
      exact hfin ⟨h.1.1, h.1.2, h.2⟩
    simp only [hb, Bool.false_eq_true, if_false, Option.orElse]
    unfold bareValue
    rw [removeCommas_mainText hdm hds hdc hw1 hw2 hw3 hw4, strToNumber_mainText hdm hdc hw1]
    rfl

/-- C8 (amended). Primary grammar value: for digit strings `dm`, `ds`, `dc`
(any number of digits) and white space `w1`..`w4` around the unit markers,
`parseRecordToSeconds` returns `Number(dm) * 60 + Number(ds) + Number(dc) / 100`,
computed in binary64 arithmetic, provided the three numerals convert to finite
Numbers; when one of them overflows to Infinity the result is `null`. -/
theorem parse_primary_grammar (dm w1 w2 ds w3 w4 dc : Str) (hdm : IsDigits dm)
    (hds : IsDigits ds) (hdc : IsDigits dc) (hw1 : IsSpaces w1) (hw2 : IsSpaces w2)
    (hw3 : IsSpaces w3) (hw4 : IsSpaces w4) :
    parseRecordToSeconds (dm ++ (w1 ++ '분' :: (w2 ++ (ds ++ (w3 ++ '초' :: (w4 ++ dc)))))) =
      if (toDouble (natOfDigits dm : ℚ)).isFinite = true ∧
          (toDouble (natOfDigits ds : ℚ)).isFinite = true ∧
          (toDouble (natOfDigits dc : ℚ)).isFinite = true then
        some ((((toDouble (natOfDigits dm : ℚ)).mul (.fin 60)).add
          (toDouble (natOfDigits ds : ℚ))).add ((toDouble (natOfDigits dc : ℚ)).div (.fin 100)))
      else none :=
  parse_mainText hdm hds hdc hw1 hw2 hw3 hw4

theorem isDigits_of_all {d : Str} (h1 : d ≠ []) (h2 : d.all isDigit = true) : IsDigits d :=
  ⟨h1, fun c hc => List.all_eq_true.1 h2 c hc⟩

theorem isSpaces_of_all {w : Str} (h : w.all isJsSpace = true) : IsSpaces w :=
  fun c hc => List.all_eq_true.1 h c hc

/-- Witness of `parse_primary_grammar` at the text "1분 30초 12": the hypotheses
hold and the value is the Number 90.12. -/
theorem parse_primary_grammar_witness :
    (IsDigits "1".toList ∧ IsDigits "30".toList ∧ IsDigits "12".toList ∧ IsSpaces [] ∧
      IsSpaces " ".toList) ∧
    parseRecordToSeconds "1분 30초 12".toList = some (toDouble (9012 / 100)) :=
  ⟨⟨isDigits_of_all (by decide) (by decide), isDigits_of_all (by decide) (by decide),
      isDigits_of_all (by decide) (by decide), isSpaces_of_all (by decide),
      isSpaces_of_all (by decide)⟩,
    (parse_primary_grammar "1".toList [] " ".toList "30".toList [] " ".toList "12".toList
      (isDigits_of_all (by decide) (by decide)) (isDigits_of_all (by decide) (by decide))
      (isDigits_of_all (by decide) (by decide)) (isSpaces_of_all (by decide))
      (isSpaces_of_all (by decide)) (isSpaces_of_all (by decide))
      (isSpaces_of_all (by decide))).trans (by decide!)⟩

/-- C8 (counterexample). For `m = 10 ^ 309`, `s = 1`, `c = 1` the numeral of `m`
converts to Infinity, the guard of line 86 fails, no other pattern matches, and
the result is `null` rather than a number. And for `m = 0`, `s = 1`, `c = 14` the
result is `1 + 0.14` as binary64 arithmetic computes it, which is not the
Number nearest to 1.14. -/
theorem parse_primary_grammar_fails :
    parseRecordToSeconds (natToDigits (10 ^ 309) ++ "분 ".toList ++ natToDigits 1 ++
        "초 ".toList ++ natToDigits 1) = none ∧
      parseRecordToSeconds (natToDigits 0 ++ "분 ".toList ++ natToDigits 1 ++
        "초 ".toList ++ natToDigits 14) ≠ some (toDouble (0 * 60 + 1 + 14 / 100)) := by
  decide!

/-! ### Decimal digits of a natural number -/

theorem digitVal_digitChar (k : ℕ) (h : k < 10) : digitVal (Nat.digitChar k) = k := by
  interval_cases k <;> rfl

theorem isDigit_digitChar (k : ℕ) (h : k < 10) : isDigit (Nat.digitChar k) = true := by
  interval_cases k <;> rfl

theorem foldl_digits (ds : Str) (acc : ℕ) :
    ds.foldl (fun a c => 10 * a + digitVal c) acc = acc * 10 ^ ds.length + natOfDigits ds := by
  induction ds generalizing acc with
  | nil => simp [natOfDigits]
  | cons c t ih =>
    unfold natOfDigits
    simp only [List.foldl_cons, List.length_cons]
    rw [ih (10 * acc + digitVal c), ih (10 * 0 + digitVal c)]
    ring

theorem natOfDigits_cons (c : Char) (t : Str) :
    natOfDigits (c :: t) = digitVal c * 10 ^ t.length + natOfDigits t := by
  unfold natOfDigits
  simp only [List.foldl_cons]
  rw [foldl_digits]
  simp [natOfDigits]

theorem natOfDigits_append (a b : Str) :
    natOfDigits (a ++ b) = natOfDigits a * 10 ^ b.length + natOfDigits b := by
  unfold natOfDigits
  rw [List.foldl_append, foldl_digits]
  rfl

theorem toDigitsCore_spec : ∀ (fuel n : ℕ) (ds : Str), n < fuel →
    natOfDigits (Nat.toDigitsCore 10 fuel n ds) = n * 10 ^ ds.length + natOfDigits ds ∧
      (∃ pre, pre ≠ [] ∧ (∀ c ∈ pre, isDigit c = true) ∧
        Nat.toDigitsCore 10 fuel n ds = pre ++ ds) := by
  intro fuel
  induction fuel with
  | zero => intro n ds h; omega
  | succ f ih =>
    intro n ds h
    unfold Nat.toDigitsCore
    simp only []
    have hmod : n % 10 < 10 := Nat.mod_lt _ (by norm_num)
    split_ifs with h0
    · constructor
      · rw [natOfDigits_cons, digitVal_digitChar _ hmod]
        have : n = n % 10 := by omega
        rw [← this]
      · exact ⟨[Nat.digitChar (n % 10)], by simp, by simpa using isDigit_digitChar _ hmod, rfl⟩
    · have hlt : n / 10 < f := by omega
      obtain ⟨h1, pre, hpre, hall, heq⟩ := ih (n / 10) (Nat.digitChar (n % 10) :: ds) hlt
      constructor
      · rw [h1, natOfDigits_cons, digitVal_digitChar _ hmod]
        simp only [List.length_cons, pow_succ]
        have hn : n * 10 ^ ds.length = (10 * (n / 10) + n % 10) * 10 ^ ds.length := by
          rw [Nat.div_add_mod n 10]
        rw [hn]
        ring
      · refine ⟨pre ++ [Nat.digitChar (n % 10)], by simp, ?_, ?_⟩
        · intro c hc
          rcases List.mem_append.1 hc with hc | hc
          · exact hall c hc
          · simp only [List.mem_singleton] at hc
            rw [hc]; exact isDigit_digitChar _ hmod
        · rw [heq]; simp

theorem natOfDigits_natToDigits (n : ℕ) : natOfDigits (natToDigits n) = n := by
  have := (toDigitsCore_spec (n + 1) n [] (by omega)).1
  simpa [natToDigits, Nat.toDigits, natOfDigits] using this

theorem isDigits_natToDigits (n : ℕ) : IsDigits (natToDigits n) := by
  obtain ⟨pre, hpre, hall, heq⟩ := (toDigitsCore_spec (n + 1) n [] (by omega)).2
  unfold natToDigits Nat.toDigits
  rw [heq, List.append_nil]
  exact ⟨hpre, hall⟩

theorem natOfDigits_replicate_zero (k : ℕ) : natOfDigits (List.replicate k '0') = 0 := by
  induction k with
  | zero => rfl
  | succ k ih =>
    rw [List.replicate_succ, natOfDigits_cons, ih]
    simp [digitVal]

theorem natOfDigits_padStart2 (s : Str) : natOfDigits (padStart2 s) = natOfDigits s := by
  unfold padStart2
  rw [natOfDigits_append, natOfDigits_replicate_zero]
  simp

theorem isDigits_padStart2 {s : Str} (h : IsDigits s) : IsDigits (padStart2 s) := by
  unfold padStart2
  refine ⟨by simp [h.1], ?_⟩
  intro c hc
  rcases List.mem_append.1 hc with hc | hc
  · rw [(List.mem_replicate.1 hc).2]; decide
  · exact h.2 c hc

/-! ### Round trip through the text -/

theorem pow2_neg53 : pow2 (-53) = 1 / 9007199254740992 := by
  rw [pow2_eq]; norm_num

theorem pow2_neg1022_le : pow2 (-1022) ≤ 1 / 128 := by
  have h := pow2_le_pow2 (show (-1022 : ℤ) ≤ -7 by norm_num)
  have h7 : pow2 (-7) = 1 / 128 := by rw [pow2_eq]; norm_num
  rwa [h7] at h

theorem lt_pow2_1023 {x : ℚ} (h : x < 288230376151711744) : x < pow2 1023 := by
  have h1 := pow2_le_pow2 (show (58 : ℤ) ≤ 1023 by norm_num)
  have h58 : pow2 58 = 288230376151711744 := by rw [pow2_eq]; norm_num
  rw [h58] at h1
  exact lt_of_lt_of_le h h1

/-- The text `formatSecondsToMinSecCs` builds when the rounded total of
centiseconds is `T < 2 ^ 53`. -/
theorem format_of_round (v : JSNum) (T : ℕ)
    (hT : mathRound (v.mul (.fin 100)) = .fin (T : ℚ)) (hlt : T < 2 ^ 53) :
    formatSecondsToMinSecCs v =
      some (mainText (natToDigits (T / 6000)) [] [' '] (natToDigits (T % 6000 / 100)) [] [' ']
        (padStart2 (natToDigits (T % 100)))) := by
  unfold formatSecondsToMinSecCs
  rw [formatParts_of_round v T hT hlt]
  simp only [numToString_natCast _ (show T / 6000 < 2 ^ 53 by omega),
    numToString_natCast _ (show T % 6000 / 100 < 2 ^ 53 by omega),
    numToString_natCast _ (show T % 100 < 2 ^ 53 by omega), Option.some_bind, Option.map_some',
    mainText]
  have e1 : "분 ".toList = ['분', ' '] := rfl
  have e2 : "초 ".toList = ['초', ' '] := rfl
  rw [e1, e2]
  simp

/-- The double nearest to `n / 100` times 100 rounds back to `n`. -/
theorem round_centis (n : ℕ) (h1 : 1 ≤ n) (hn : n < 2 ^ 50) :
    toDouble ((n : ℚ) / 100) = .fin (nearest ((n : ℚ) / 100)) ∧
      |nearest ((n : ℚ) / 100) - (n : ℚ) / 100| ≤ pow2 (-53) * ((n : ℚ) / 100) ∧
      mathRound ((JSNum.fin (nearest ((n : ℚ) / 100))).mul (.fin 100)) = .fin (n : ℚ) := by
  have hn1 : (1 : ℚ) ≤ (n : ℚ) := by exact_mod_cast h1
  have hn2 : (n : ℚ) < 1125899906842624 := by
    have : (n : ℚ) < ((2 ^ 50 : ℕ) : ℚ) := by exact_mod_cast hn
    simpa using this
  set q : ℚ := (n : ℚ) / 100 with hq
  have hqn : (n : ℚ) = 100 * q := by rw [hq]; ring
  have hqpos : 0 < q := by rw [hq]; positivity
  have hqabs : |q| = q := abs_of_pos hqpos
  obtain ⟨e1, b1⟩ := toDouble_rel (q := q)
    (by rw [hqabs]; have := pow2_neg1022_le; linarith)
    (by rw [hqabs]; exact lt_pow2_1023 (by linarith))
  rw [hqabs, pow2_neg53] at b1
  have b1' := abs_le.1 b1
  set v : ℚ := nearest q with hv
  have hvpos : 0 < v * 100 := by linarith [b1'.1]
  have hvabs : |v * 100| = v * 100 := abs_of_pos hvpos
  obtain ⟨e2, b2⟩ := toDouble_rel (q := v * 100)
    (by rw [hvabs]; have := pow2_neg1022_le; linarith [b1'.1])
    (by rw [hvabs]; exact lt_pow2_1023 (by linarith [b1'.2]))
  rw [hvabs, pow2_neg53] at b2
  have b2' := abs_le.1 b2
  refine ⟨e1, by rw [pow2_neg53]; exact b1, ?_⟩
  simp only [JSNum.mul, e2, mathRound]
  congr 1
  have : ⌊nearest (v * 100) + 1 / 2⌋ = (n : ℤ) := by
    rw [Int.floor_eq_iff]
    push_cast
    constructor <;> linarith [b1'.1, b1'.2, b2'.1, b2'.2]
  rw [this]
  simp

theorem pow2_neg51 : pow2 (-51) = 1 / 2251799813685248 := by
  rw [pow2_eq]; norm_num

/-- If `T / 100` is itself a binary64 value then `T` is a multiple of 25. -/
theorem dvd_of_isDouble_div_hundred (T : ℕ) (h : IsDouble ((T : ℚ) / 100)) : 25 ∣ T := by
  obtain ⟨k, hk⟩ := isDouble_eq_mul_pow2 h
  have hc : IsCoprime (25 : ℤ) (2 ^ 1074) :=
    IsCoprime.pow_right ⟨1, -12, by norm_num⟩
  have hp : pow2 (-1074) = 1 / (((2 : ℤ) ^ 1074 : ℤ) : ℚ) := by
    rw [pow2_eq, zpow_neg, one_div]
    norm_cast
  have hpos : (0 : ℤ) < 2 ^ 1074 := by positivity
  generalize (2 : ℤ) ^ 1074 = N at hc hp hpos
  rw [hp] at hk
  have hposq : (0 : ℚ) < (N : ℚ) := by exact_mod_cast hpos
  have h1 : ((T : ℤ) : ℚ) * (N : ℚ) = ((100 * k : ℤ) : ℚ) := by
    push_cast
    field_simp at hk
    linarith
  have h2 : (T : ℤ) * N = 100 * k := by exact_mod_cast h1
  have h3 : (25 : ℤ) ∣ (T : ℤ) * N := ⟨4 * k, by rw [h2]; ring⟩
  have h4 : (25 : ℤ) ∣ (T : ℤ) := hc.dvd_of_dvd_mul_right h3
  exact_mod_cast h4

theorem toDouble_quarters (C : ℕ) (h : C = 25 ∨ C = 50 ∨ C = 75) :
    toDouble ((C : ℚ) / 100) = .fin ((C : ℚ) / 100) := by
  rcases h with rfl | rfl | rfl <;> decide!

/-- The value the parser reads back from the text of `T` centiseconds: within
relative error `2 ^ (-51)` of `T / 100`, and equal to it when `T / 100` is a
binary64 value. -/
theorem parse_text_of_centis (T : ℕ) (hT : T < 2 ^ 50) :
    ∃ r : ℚ, parseRecordToSeconds (mainText (natToDigits (T / 6000)) [] [' ']
        (natToDigits (T % 6000 / 100)) [] [' '] (padStart2 (natToDigits (T % 100)))) =
        some (.fin r) ∧
      |r - (T : ℚ) / 100| ≤ pow2 (-51) * ((T : ℚ) / 100) ∧
      (IsDouble ((T : ℚ) / 100) → r = (T : ℚ) / 100) := by
  have hsp : IsSpaces [' '] := isSpaces_of_all (by decide)
  have hnil : IsSpaces [] := isSpaces_of_all (by decide)
  rw [parse_mainText (isDigits_natToDigits _) (isDigits_natToDigits _)
    (isDigits_padStart2 (isDigits_natToDigits _)) hnil hsp hnil hsp]
  simp only [natOfDigits_natToDigits, natOfDigits_padStart2]
  have eM := toDouble_natCast (T / 6000) (by omega)
  have eS := toDouble_natCast (T % 6000 / 100) (by omega)
  have eC := toDouble_natCast (T % 100) (by omega)
  rw [eM, eS, eC]
  simp only [JSNum.isFinite, and_self, if_true, mainFormula]
  have hM60 : (JSNum.fin ((T / 6000 : ℕ) : ℚ)).mul (.fin 60) = .fin ((T / 6000 * 60 : ℕ) : ℚ) := by
    have := toDouble_natCast_mul (T / 6000) 60 (by omega)
    simpa [JSNum.mul] using this
  have hK : (JSNum.fin ((T / 6000 * 60 : ℕ) : ℚ)).add (.fin ((T % 6000 / 100 : ℕ) : ℚ)) =
      .fin ((T / 6000 * 60 + T % 6000 / 100 : ℕ) : ℚ) := by
    have := toDouble_natCast (T / 6000 * 60 + T % 6000 / 100) (by omega)
    simpa [JSNum.add] using this
  rw [hM60, hK]
  have hdvd : IsDouble ((T : ℚ) / 100) → T % 100 = 0 ∨ T % 100 = 25 ∨ T % 100 = 50 ∨ T % 100 = 75 := by
    intro h
    have := dvd_of_isDouble_div_hundred T h
    omega
  set K : ℕ := T / 6000 * 60 + T % 6000 / 100 with hKdef
  set C : ℕ := T % 100 with hCdef
  have hTKC : (T : ℚ) / 100 = (K : ℚ) + (C : ℚ) / 100 := by
    have h : T = K * 100 + C := by omega
    have h' : (T : ℚ) = (K : ℚ) * 100 + (C : ℚ) := by exact_mod_cast h
    rw [h']; ring
  have hK0 : (0 : ℚ) ≤ (K : ℚ) := Nat.cast_nonneg K
  have hKlt : (K : ℚ) < 1125899906842624 := by
    have : K < 2 ^ 50 := by omega
    have : (K : ℚ) < ((2 ^ 50 : ℕ) : ℚ) := by exact_mod_cast this
    simpa using this
  have hC100 : (C : ℚ) < 100 := by
    have : C < 100 := by omega
    exact_mod_cast this
  rw [hTKC, pow2_neg51]
  by_cases hC0 : C = 0
  · -- whole seconds: every step is exact
    rw [hC0]
    have hdiv : (JSNum.fin ((0 : ℕ) : ℚ)).div (.fin 100) = .fin 0 := by
      simp [JSNum.div, toDouble]
    rw [hdiv]
    have hadd : (JSNum.fin (K : ℚ)).add (.fin 0) = .fin (K : ℚ) := by
      have := toDouble_natCast K (by omega)
      simpa [JSNum.add] using this
    rw [hadd]
    refine ⟨(K : ℚ), rfl, ?_, fun _ => by simp⟩
    simp only [Nat.cast_zero, zero_div, add_zero, sub_self, abs_zero]
    positivity
  · have hC1 : (1 : ℚ) ≤ (C : ℚ) := by
      have : 1 ≤ C := Nat.one_le_iff_ne_zero.2 hC0
      exact_mod_cast this
    have hcq : (0 : ℚ) < (C : ℚ) / 100 := by positivity
    have hcabs : |(C : ℚ) / 100| = (C : ℚ) / 100 := abs_of_pos hcq
    obtain ⟨e1, b1⟩ := toDouble_rel (q := (C : ℚ) / 100)
      (by rw [hcabs]; have := pow2_neg1022_le; linarith)
      (by rw [hcabs]; exact lt_pow2_1023 (by linarith))
    rw [hcabs, pow2_neg53] at b1
    have b1' := abs_le.1 b1
    have hdiv : (JSNum.fin (C : ℚ)).div (.fin 100) = .fin (nearest ((C : ℚ) / 100)) := by
      simp [JSNum.div, e1]
    rw [hdiv]
    have hsum : 0 < (K : ℚ) + nearest ((C : ℚ) / 100) := by linarith [b1'.1]
    have hsabs : |(K : ℚ) + nearest ((C : ℚ) / 100)| = (K : ℚ) + nearest ((C : ℚ) / 100) :=
      abs_of_pos hsum
    obtain ⟨e2, b2⟩ := toDouble_rel (q := (K : ℚ) + nearest ((C : ℚ) / 100))
      (by rw [hsabs]; have := pow2_neg1022_le; linarith [b1'.1])
      (by rw [hsabs]; exact lt_pow2_1023 (by linarith [b1'.2]))
    rw [hsabs, pow2_neg53] at b2
    have b2' := abs_le.1 b2
    refine ⟨nearest ((K : ℚ) + nearest ((C : ℚ) / 100)), by simp [JSNum.add, e2], ?_, ?_⟩
    · rw [abs_le]
      constructor <;> linarith [b1'.1, b1'.2, b2'.1, b2'.2]
    · intro hd
      have hq : C = 25 ∨ C = 50 ∨ C = 75 := by
        rcases hdvd (by rw [hTKC]; exact hd) with h | h | h | h
        · exact absurd h hC0
        · exact Or.inl h
        · exact Or.inr (Or.inl h)
        · exact Or.inr (Or.inr h)
      have hc : nearest ((C : ℚ) / 100) = (C : ℚ) / 100 := by
        have := toDouble_quarters C hq
        rw [e1] at this
        injection this
      rw [hc] at e2 ⊢
      have hd' : toDouble ((K : ℚ) + (C : ℚ) / 100) = .fin ((K : ℚ) + (C : ℚ) / 100) := hd
      rw [e2] at hd'
      injection hd'

theorem mainText_eq_text (a b c : Str) :
    mainText a [] [' '] b [] [' '] c = a ++ "분 ".toList ++ b ++ "초 ".toList ++ c := by
  have e1 : "분 ".toList = ['분', ' '] := rfl
  have e2 : "초 ".toList = ['초', ' '] := rfl
  rw [e1, e2]
  simp [mainText]

/-- C1 (amended). Round trip of the Time Codec up to rounding: for every
natural `n < 2 ^ 50`, with `v` the binary64 value nearest `n / 100`,
`formatSecondsToMinSecCs(v)` is the text of `n` centiseconds, and
`parseRecordToSeconds` of that text is a finite Number `r` within relative error
`2 ^ (-51)` of `n / 100` (`v` itself is within `2 ^ (-53)`). `r` is `v` when
`n / 100` is itself a binary64 value (`n` a multiple of 25); otherwise the two
need not be the same Number. -/
theorem round_trip_close (n : ℕ) (hn : n < 2 ^ 50) :
    ∃ v r : ℚ, toDouble ((n : ℚ) / 100) = .fin v ∧
      |v - (n : ℚ) / 100| ≤ pow2 (-53) * ((n : ℚ) / 100) ∧
      formatSecondsToMinSecCs (.fin v) =
        some (natToDigits (n / 6000) ++ "분 ".toList ++ natToDigits (n % 6000 / 100) ++
          "초 ".toList ++ padStart2 (natToDigits (n % 100))) ∧
      (formatSecondsToMinSecCs (.fin v)).bind parseRecordToSeconds = some (.fin r) ∧
      |r - (n : ℚ) / 100| ≤ pow2 (-51) * ((n : ℚ) / 100) ∧
      (IsDouble ((n : ℚ) / 100) → r = v) := by
  obtain ⟨r, hr, hb, hex⟩ := parse_text_of_centis n hn
  have hfmt : ∀ v : ℚ, mathRound ((JSNum.fin v).mul (.fin 100)) = .fin (n : ℚ) →
      formatSecondsToMinSecCs (.fin v) =
        some (natToDigits (n / 6000) ++ "분 ".toList ++ natToDigits (n % 6000 / 100) ++
          "초 ".toList ++ padStart2 (natToDigits (n % 100))) ∧
      (formatSecondsToMinSecCs (.fin v)).bind parseRecordToSeconds = some (.fin r) := by
    intro v hv
    have h := format_of_round (.fin v) n hv (by omega)
    refine ⟨by rw [h, mainText_eq_text], ?_⟩
    rw [h, Option.some_bind, hr]
  by_cases h0 : n = 0
  · subst h0
    have hround : mathRound ((JSNum.fin 0).mul (.fin 100)) = .fin ((0 : ℕ) : ℚ) := by
      simp [JSNum.mul, toDouble, mathRound]
      norm_num
    obtain ⟨h1, h2⟩ := hfmt 0 hround
    refine ⟨0, r, by simp [toDouble], by simp, h1, h2, hb, ?_⟩
    intro hd
    simpa using hex hd
  · obtain ⟨e, b, hround⟩ := round_centis n (Nat.one_le_iff_ne_zero.2 h0) hn
    obtain ⟨h1, h2⟩ := hfmt _ hround
    refine ⟨_, r, e, b, h1, h2, hb, ?_⟩
    intro hd
    have hv : toDouble ((n : ℚ) / 100) = .fin ((n : ℚ) / 100) := hd
    rw [e] at hv
    injection hv with hv
    rw [hex hd, hv]

/-- Witness of `round_trip_close` at `n = 114` (1.14 s). -/
theorem round_trip_close_witness :
    114 < 2 ^ 50 ∧
    ∃ v r : ℚ, toDouble (((114 : ℕ) : ℚ) / 100) = .fin v ∧
      |v - ((114 : ℕ) : ℚ) / 100| ≤ pow2 (-53) * (((114 : ℕ) : ℚ) / 100) ∧
      formatSecondsToMinSecCs (.fin v) =
        some (natToDigits (114 / 6000) ++ "분 ".toList ++ natToDigits (114 % 6000 / 100) ++
          "초 ".toList ++ padStart2 (natToDigits (114 % 100))) ∧
      (formatSecondsToMinSecCs (.fin v)).bind parseRecordToSeconds = some (.fin r) ∧
      |r - ((114 : ℕ) : ℚ) / 100| ≤ pow2 (-51) * (((114 : ℕ) : ℚ) / 100) ∧
      (IsDouble (((114 : ℕ) : ℚ) / 100) → r = v) :=
  ⟨by norm_num, round_trip_close 114 (by norm_num)⟩

/-- C1 (counterexample). For `v = 1.14` (the binary64 value nearest 114/100) the
text is "0분 1초 14" and parsing it computes `1 + 0.14`, the next binary64 value
above `v`: `parse(format(v))` is not `v`. For `v = 2 * 10 ^ 15`, which is exactly
`n / 100` with `n = 2 * 10 ^ 17`, the text is "33333333333333분 19초 84" and parsing
it gives 1999999999999999.75, not `v`. -/
theorem round_trip_inexact :
    (toDouble (114 / 100) = .fin (5134103575202365 / 4503599627370496) ∧
      formatSecondsToMinSecCs (toDouble (114 / 100)) = some "0분 1초 14".toList ∧
      parseRecordToSeconds "0분 1초 14".toList =
        some (.fin (2567051787601183 / 2251799813685248)) ∧
      (formatSecondsToMinSecCs (toDouble (114 / 100))).bind parseRecordToSeconds ≠
        some (toDouble (114 / 100))) ∧
    (IsDouble (2 * 10 ^ 15) ∧ (2 * 10 ^ 15 : ℚ) = ((2 * 10 ^ 17 : ℕ) : ℚ) / 100 ∧
      formatSecondsToMinSecCs (.fin (2 * 10 ^ 15)) = some "33333333333333분 19초 84".toList ∧
      (formatSecondsToMinSecCs (.fin (2 * 10 ^ 15))).bind parseRecordToSeconds =
        some (.fin (7999999999999999 / 4)) ∧
      (formatSecondsToMinSecCs (.fin (2 * 10 ^ 15))).bind parseRecordToSeconds ≠
        some (.fin (2 * 10 ^ 15))) := by
  unfold IsDouble
  decide!

/-! ### Rounded values are binary64 values -/

theorem pow2_53 : pow2 53 = 9007199254740992 := by
  rw [pow2_eq]; norm_num

theorem pow2_mul_of_le {a b : ℤ} (h : a ≤ b) :
    pow2 b = ((2 ^ (b - a).toNat : ℤ) : ℚ) * pow2 a := by
  have : b = ((b - a).toNat : ℤ) + a := by omega
  conv_lhs => rw [this]
  rw [pow2_add, pow2_natCast]
  push_cast
  rfl

theorem abs_roundHalfEven_le {q : ℚ} {n : ℤ} (h : |q| ≤ (n : ℚ)) : |roundHalfEven q| ≤ n := by
  have h' := abs_le.1 h
  rw [abs_le]
  constructor
  · apply le_roundHalfEven
    push_cast
    exact h'.1
  · exact roundHalfEven_le h'.2

/-- The mantissa of a rounded value has at most 53 bits, the top one included. -/
theorem abs_mantissa_le (q : ℚ) (hq : q ≠ 0) :
    |roundHalfEven (q / pow2 (ulpExp q))| ≤ 2 ^ 53 := by
  apply abs_roundHalfEven_le
  have hp := pow2_pos (ulpExp q)
  rw [abs_div, abs_of_pos hp, div_le_iff₀ hp]
  have h1 := (binade_spec q hq).2
  have h2 : pow2 (binade q + 1) ≤ pow2 (53 + ulpExp q) :=
    pow2_le_pow2 (by have := binade_sub_le_ulpExp q; omega)
  have h3 : pow2 (53 + ulpExp q) = (((2 ^ 53 : ℤ) : ℤ) : ℚ) * pow2 (ulpExp q) := by
    rw [pow2_add, pow2_53]
    norm_num
  rw [← h3]
  exact le_of_lt (lt_of_lt_of_le h1 h2)

/-- A rounded value is a multiple of its own unit in the last place. -/
theorem nearest_on_grid (q : ℚ) (hq : q ≠ 0) (hr : nearest q ≠ 0) :
    ∃ k : ℤ, nearest q = (k : ℚ) * pow2 (ulpExp (nearest q)) := by
  set e := ulpExp q with he
  set m := roundHalfEven (q / pow2 e) with hm
  have hre : nearest q = (m : ℚ) * pow2 e := rfl
  have hp := pow2_pos e
  have hm53 : |m| ≤ 2 ^ 53 := abs_mantissa_le q hq
  have habs : |nearest q| = ((|m| : ℤ) : ℚ) * pow2 e := by
    rw [hre, abs_mul, abs_of_pos hp, Int.cast_abs]
  have he1074 : -1074 ≤ e := ulpExp_ge q
  by_cases htop : |m| = 2 ^ 53
  · -- the rounding reached the next power of two
    have hval : |nearest q| = pow2 (53 + e) := by
      rw [habs, htop, pow2_add, pow2_53]
      norm_num
    have hb1 : 53 + e ≤ binade (nearest q) := le_binade_of_le_abs hr (le_of_eq hval.symm)
    have hb2 : binade (nearest q) < 53 + e + 1 :=
      binade_lt_of_abs_lt hr (by rw [hval]; exact pow2_lt_pow2 (by omega))
    have hu : ulpExp (nearest q) = e + 1 := by
      unfold ulpExp
      rw [max_eq_left (by omega)]
      omega
    rw [hu]
    have hpe : pow2 (e + 1) = 2 * pow2 e := by
      have h1 : pow2 1 = 2 := by rw [pow2_eq]; norm_num
      rw [add_comm, pow2_add, h1]
    rcases abs_eq (by positivity : (0 : ℤ) ≤ 2 ^ 53) |>.1 htop with h | h
    · exact ⟨2 ^ 52, by rw [hre, h, hpe]; push_cast; ring⟩
    · exact ⟨-2 ^ 52, by rw [hre, h, hpe]; push_cast; ring⟩
  · have hlt : |m| < 2 ^ 53 := lt_of_le_of_ne hm53 htop
    have hval : |nearest q| < pow2 (53 + e) := by
      rw [habs, pow2_add]
      rw [pow2_53]
      apply mul_lt_mul_of_pos_right _ hp
      have : ((|m| : ℤ) : ℚ) < ((2 ^ 53 : ℤ) : ℚ) := by exact_mod_cast hlt
      simpa using this
    have hb : binade (nearest q) < 53 + e := binade_lt_of_abs_lt hr hval
    have hu : ulpExp (nearest q) ≤ e := by
      unfold ulpExp
      exact max_le (by omega) he1074
    refine ⟨m * 2 ^ (e - ulpExp (nearest q)).toNat, ?_⟩
    have hpe := pow2_mul_of_le hu
    generalize ulpExp (nearest q) = u at hpe ⊢
    rw [hre, hpe]
    push_cast
    ring

theorem toDouble_nearest (q : ℚ) (hq : q ≠ 0) (h : |nearest q| < pow2 1024) :
    toDouble (nearest q) = .fin (nearest q) := by
  by_cases hr : nearest q = 0
  · rw [hr]; simp [toDouble]
  · obtain ⟨k, hk⟩ := nearest_on_grid q hq hr
    have hs := nearest_eq_self hk
    rw [toDouble_of_lt hr (by rw [hs]; exact h), hs]

theorem isDouble_zero : IsDouble 0 := by
  simp [IsDouble, toDouble]

/-- Every result of binary64 rounding is a valid Number. -/
theorem valid_toDouble (q : ℚ) : (toDouble q).Valid := by
  unfold toDouble
  split_ifs with h0 h1 h2
  · exact isDouble_zero
  · trivial
  · trivial
  · exact toDouble_nearest q h0 (not_le.1 h1)

theorem toDouble_ne_nan (q : ℚ) : toDouble q ≠ .nan := by
  unfold toDouble
  split_ifs <;> simp

/-- A finite result of rounding has magnitude below `2 ^ 1024`. -/
theorem abs_lt_of_toDouble_eq {q r : ℚ} (h : toDouble q = .fin r) : |r| < pow2 1024 := by
  unfold toDouble at h
  split_ifs at h with h0 h1 h2
  · injection h with h; rw [← h, abs_zero]; exact pow2_pos _
  · injection h with h; rw [← h]; exact not_le.1 h1

theorem abs_lt_of_isDouble {r : ℚ} (h : IsDouble r) : |r| < pow2 1024 :=
  abs_lt_of_toDouble_eq h

/-! ### Every parsed time is a valid Number other than NaN -/

theorem abs_nearest_le (q : ℚ) : |nearest q| ≤ 2 * |q| := by
  by_cases hq : q = 0
  · subst hq
    simp [nearest, roundHalfEven]
  have hp := pow2_pos (ulpExp q)
  have herr := abs_nearest_sub_le q
  have htri : |nearest q| ≤ |q| + |nearest q - q| := by
    have := abs_add (nearest q - q) q
    simp only [sub_add_cancel] at this
    linarith
  by_cases hsmall : pow2 (ulpExp q) ≤ 2 * |q|
  · linarith
  · -- below half a unit in the last place everything rounds to 0
    have hlt : |q| < pow2 (ulpExp q) / 2 := by linarith [not_le.1 hsmall]
    have hq2 : |q / pow2 (ulpExp q)| < 1 / 2 := by
      rw [abs_div, abs_of_pos hp, div_lt_iff₀ hp]
      linarith
    have hq2' := abs_lt.1 hq2
    have hm : roundHalfEven (q / pow2 (ulpExp q)) = 0 := by
      have h1 : roundHalfEven (q / pow2 (ulpExp q)) ≤ 0 := by
        by_contra hc
        have h2 : (1 : ℤ) ≤ roundHalfEven (q / pow2 (ulpExp q)) := by omega
        have h3 := abs_roundHalfEven_sub_le (q / pow2 (ulpExp q))
        have h4 : ((1 : ℤ) : ℚ) ≤ (roundHalfEven (q / pow2 (ulpExp q)) : ℚ) := by exact_mod_cast h2
        have h5 := (abs_le.1 h3).2
        push_cast at h4
        linarith [hq2'.2]
      have h1' : 0 ≤ roundHalfEven (q / pow2 (ulpExp q)) := by
        by_contra hc
        have h2 : roundHalfEven (q / pow2 (ulpExp q)) ≤ -1 := by omega
        have h3 := abs_roundHalfEven_sub_le (q / pow2 (ulpExp q))
        have h4 : (roundHalfEven (q / pow2 (ulpExp q)) : ℚ) ≤ ((-1 : ℤ) : ℚ) := by exact_mod_cast h2
        have h5 := (abs_le.1 h3).1
        push_cast at h4
        linarith [hq2'.1]
      omega
    rw [nearest_eq, hm]
    simp

theorem isFinite_iff (x : JSNum) : x.isFinite = true ↔ ∃ a, x = .fin a := by
  cases x <;> simp [JSNum.isFinite]

theorem toDouble_cases (q : ℚ) :
    (∃ r, toDouble q = .fin r) ∨ toDouble q = .posInf ∨ toDouble q = .negInf := by
  unfold toDouble
  split_ifs
  · exact Or.inl ⟨0, rfl⟩
  · exact Or.inr (Or.inr rfl)
  · exact Or.inr (Or.inl rfl)
  · exact Or.inl ⟨_, rfl⟩

theorem valid_add (a b : JSNum) : (a.add b).Valid := by
  cases a <;> cases b <;> simp only [JSNum.add] <;> first | exact valid_toDouble _ | trivial

theorem valid_mul (a b : JSNum) : (a.mul b).Valid := by
  cases a <;> cases b <;> simp only [JSNum.mul, signedInf] <;>
    first | exact valid_toDouble _ | trivial | (split_ifs <;> trivial)

theorem valid_strToNumber (s : Str) : (strToNumber s).Valid := by
  unfold strToNumber
  simp only []
  repeat' split
  all_goals first | exact valid_toDouble _ | exact isDouble_zero | trivial

/-- Adding a finite Number never gives NaN. -/
theorem add_fin_ne_nan (x : JSNum) (b : ℚ) (hx : x ≠ .nan) : x.add (.fin b) ≠ .nan := by
  cases x with
  | fin a => exact toDouble_ne_nan _
  | posInf => simp [JSNum.add]
  | negInf => simp [JSNum.add]
  | nan => exact absurd rfl hx

theorem mul_fin_ne_nan (a b : ℚ) : (JSNum.fin a).mul (.fin b) ≠ .nan := toDouble_ne_nan _

/-- Dividing a binary64 value by 100 gives a finite Number. -/
theorem div_hundred_fin {c : ℚ} (hc : IsDouble c) :
    ∃ y, (JSNum.fin c).div (.fin 100) = .fin y := by
  have hlt := abs_lt_of_isDouble hc
  simp only [JSNum.div, show (100 : ℚ) ≠ 0 by norm_num, if_false]
  by_cases h0 : c / 100 = 0
  · rw [h0]; exact ⟨0, by simp [toDouble]⟩
  · refine ⟨_, toDouble_of_lt h0 ?_⟩
    have h1 := abs_nearest_le (c / 100)
    have h2 : |c / 100| = |c| / 100 := by rw [abs_div]; norm_num
    rw [h2] at h1
    have h3 : 0 ≤ |c| := abs_nonneg c
    linarith

theorem mainValue_ok (g : Str × Str × Str) (x : JSNum) (h : mainValue g = some x) :
    x.Valid ∧ x ≠ .nan := by
  unfold mainValue at h
  simp only [] at h
  split_ifs at h with hfin
  simp only [Bool.and_eq_true] at hfin
  obtain ⟨a, ha⟩ := (isFinite_iff _).1 hfin.1.1
  obtain ⟨b, hb⟩ := (isFinite_iff _).1 hfin.1.2
  obtain ⟨c, hc⟩ := (isFinite_iff _).1 hfin.2
  have hcd : IsDouble c := by
    have := valid_strToNumber g.2.2
    rw [hc] at this
    exact this
  obtain ⟨y, hy⟩ := div_hundred_fin hcd
  injection h with h
  rw [← h, ha, hb, hc, hy]
  exact ⟨valid_add _ _, add_fin_ne_nan _ _ (add_fin_ne_nan _ _ (mul_fin_ne_nan _ _))⟩

theorem pairValue_ok (g : Str × Str) (x : JSNum) (h : pairValue g = some x) :
    x.Valid ∧ x ≠ .nan := by
  unfold pairValue at h
  simp only [] at h
  split_ifs at h with hfin
  simp only [Bool.and_eq_true] at hfin
  obtain ⟨a, ha⟩ := (isFinite_iff _).1 hfin.1
  obtain ⟨b, hb⟩ := (isFinite_iff _).1 hfin.2
  injection h with h
  rw [← h, ha, hb]
  exact ⟨valid_add _ _, add_fin_ne_nan _ _ (mul_fin_ne_nan _ _)⟩

theorem bareValue_ok (s : Str) (x : JSNum) (h : bareValue s = some x) :
    x.Valid ∧ x ≠ .nan := by
  unfold bareValue at h
  simp only [] at h
  split_ifs at h with hfin
  obtain ⟨a, ha⟩ := (isFinite_iff _).1 hfin
  injection h with h
  rw [← h]
  refine ⟨valid_strToNumber _, ?_⟩
  rw [ha]; simp

theorem orElse_some {α : Type} {o : Option α} {f : Unit → Option α} {x : α}
    (h : o.orElse f = some x) : o = some x ∨ f () = some x := by
  cases o with
  | none => exact Or.inr h
  | some y => exact Or.inl h

theorem bind_some {α β : Type} {o : Option α} {f : α → Option β} {x : β}
    (h : o.bind f = some x) : ∃ a, f a = some x := by
  cases o with
  | none => cases h
  | some a => exact ⟨a, h⟩

/-- Whatever text it is given, `parseRecordToSeconds` returns `null` or a valid
Number other than NaN. -/
theorem parseRecordToSeconds_ok (v : Str) (x : JSNum) (h : parseRecordToSeconds v = some x) :
    x.Valid ∧ x ≠ .nan := by
  unfold parseRecordToSeconds at h
  simp only [] at h
  split_ifs at h
  rcases orElse_some h with h1 | h
  · obtain ⟨g, hg⟩ := bind_some h1
    exact mainValue_ok g x hg
  rcases orElse_some h with h1 | h
  · obtain ⟨g, hg⟩ := bind_some h1
    exact pairValue_ok g x hg
  rcases orElse_some h with h1 | h
  · obtain ⟨g, hg⟩ := bind_some h1
    exact pairValue_ok g x hg
  exact bareValue_ok _ x h

/-- Every record `normalizeRows` produces carries a time the comparator and the
deduplicator can order. -/
theorem timeOk_normalizeRows (data : List Row) : ∀ r ∈ normalizeRows data, r.TimeOk := by
  intro r hr
  rw [normalizeRows_eq_map] at hr
  rcases List.mem_map.1 hr with ⟨row, _, rfl⟩
  intro x hx
  exact parseRecordToSeconds_ok _ x hx

theorem seconds_ne_nan_of_timeOk {r : PersonRecord} (h : r.TimeOk) : r.seconds ≠ some .nan := by
  intro hs
  exact (h .nan hs).2 rfl

/-! ### The header resolver -/

theorem headerMatches_nil {pre : Str} (hpre : simplify pre ≠ []) : headerMatches pre [] = false := by
  have h0 : simplify [] = [] := by decide
  unfold headerMatches
  rw [h0]
  cases hs : simplify pre with
  | nil => exact absurd hs hpre
  | cons c t => rfl

theorem firstMatch_cons {a : Str} {t : List Str} {pre : Str} {res : Option Str}
    (ha : headerMatches pre a = false) (h : FirstMatch t pre res) : FirstMatch (a :: t) pre res := by
  cases res with
  | none =>
    intro x hx
    rcases List.mem_cons.1 hx with rfl | hx
    · exact ha
    · exact h x hx
  | some r =>
    obtain ⟨before, after, ht, hr, hb⟩ := h
    refine ⟨a :: before, after, by rw [ht]; rfl, hr, ?_⟩
    intro x hx
    rcases List.mem_cons.1 hx with rfl | hx
    · exact ha
    · exact hb x hx

theorem findByPrefix_firstMatch (headers : List Str) {pre : Str} (hpre : simplify pre ≠ []) :
    FirstMatch headers pre (findByPrefix headers pre) := by
  induction headers with
  | nil => intro x hx; cases hx
  | cons a t ih =>
    by_cases ha : headerMatches pre a = true
    · have hne : a ≠ [] := by
        rintro rfl
        rw [headerMatches_nil hpre] at ha
        cases ha
      have hf : findByPrefix (a :: t) pre = some a := by
        unfold headerMatches at ha
        simp [findByPrefix, List.find?, ha, hne]
      rw [hf]
      exact ⟨[], t, rfl, ha, fun x hx => by cases hx⟩
    · have ha' : headerMatches pre a = false := by simpa using ha
      have hf : findByPrefix (a :: t) pre = findByPrefix t pre := by
        unfold headerMatches at ha'
        simp [findByPrefix, List.find?, ha']
      rw [hf]
      exact firstMatch_cons ha' ih

theorem findByPrefix_ne_nil (headers : List Str) (pre : Str) : findByPrefix headers pre ≠ some [] := by
  unfold findByPrefix
  split
  · split_ifs with h
    · simp
    · intro hh; exact h (Option.some.inj hh)
  · simp

theorem simplify_prefixes : simplify HEADER_PREFIX.name ≠ [] ∧ simplify HEADER_PREFIX.studentId ≠ [] ∧
    simplify HEADER_PREFIX.nick ≠ [] ∧ simplify HEADER_PREFIX.record ≠ [] := by decide

theorem filter_dropWhile_space (l : Str) :
    (l.dropWhile isJsSpace).filter (fun c => !isJsSpace c) = l.filter fun c => !isJsSpace c := by
  induction l with
  | nil => rfl
  | cons a t ih =>
    by_cases ha : isJsSpace a = true
    · simp [List.dropWhile, List.filter, ha, ih]
    · simp [List.dropWhile, ha]

theorem collapsed_trim (s : Str) :
    specWhitespaceCollapsed (trim s) = specWhitespaceCollapsed s := by
  unfold specWhitespaceCollapsed trim
  rw [List.filter_reverse, filter_dropWhile_space, List.filter_reverse, List.reverse_reverse,
    filter_dropWhile_space]

theorem collapsed_bomStripped (s : Str) :
    specWhitespaceCollapsed (specBomStripped s) = specWhitespaceCollapsed s := by
  cases s with
  | nil => rfl
  | cons c t =>
    simp only [specBomStripped]
    split_ifs with h
    · have hc : isJsSpace c = true := by
        unfold isJsSpace
        rw [h]
        decide
      simp [specWhitespaceCollapsed, List.filter, hc]
    · rfl

theorem normalizeHeader_eq (h : Str) : normalizeHeader h = trim (specBomStripped h) := by
  cases h <;> rfl

theorem simplify_eq (s : Str) :
    simplify s = specWhitespaceCollapsed (specBomStripped s) := by
  unfold simplify
  rw [normalizeHeader_eq]
  exact collapsed_trim _

theorem headerMatches_eq_spec (pre : Str) : headerMatches pre = specHeaderMatches pre := by
  funext h
  unfold headerMatches specHeaderMatches
  rw [simplify_eq pre, simplify_eq h, collapsed_bomStripped pre]

theorem firstWith_of_firstMatch {headers : List Str} {pre : Str} {res : Option Str}
    (h : FirstMatch headers pre res) : FirstWith (specHeaderMatches pre) headers res := by
  rw [← headerMatches_eq_spec]
  exact h

theorem headersOf_eq (data : List Row) :
    headersOf data = (data.head?.getD []).map fun kv => trim (specBomStripped kv.1) := by
  cases data with
  | nil => rfl
  | cons first t =>
    simp only [headersOf, List.head?_cons, Option.getD_some]
    apply List.map_congr_left
    intro kv _
    exact normalizeHeader_eq _

/-- **C11** (header resolution). The four prefixes are 이름, 학번, 리더보드에
표시할 닉네임 and 기록. For every data set, the headers `buildHeaderMap` works
on are the keys of the first row, in their order, each without one leading
byte-order mark and trimmed; each of the four logical fields is mapped to the
first of those headers whose BOM-stripped form with all white space removed
starts with the prefix of the field with all white space removed, and to
`null` when no header does. The header row of the published sheet resolves
name, student id, nickname and record to its first, second, third and fourth
header; so does a row whose keys carry a byte-order mark, outer white space
and tabs, doubled spaces or an ideographic space inside; of two matching
headers the first is taken, a header holding the prefix elsewhere than at its
start does not match, and fields without a header are `null`. -/
theorem buildHeaderMap_first_match (data : List Row) :
    (HEADER_PREFIX.name = "이름".toList ∧ HEADER_PREFIX.studentId = "학번".toList ∧
      HEADER_PREFIX.nick = "리더보드에 표시할 닉네임".toList ∧
      HEADER_PREFIX.record = "기록".toList) ∧
    (buildHeaderMap data).1 =
      ((data.head?.getD []).map fun kv => trim (specBomStripped kv.1)) ∧
    FirstWith (specHeaderMatches HEADER_PREFIX.name) (buildHeaderMap data).1
      (buildHeaderMap data).2.name ∧
    FirstWith (specHeaderMatches HEADER_PREFIX.studentId) (buildHeaderMap data).1
      (buildHeaderMap data).2.studentId ∧
    FirstWith (specHeaderMatches HEADER_PREFIX.nick) (buildHeaderMap data).1
      (buildHeaderMap data).2.nick ∧
    FirstWith (specHeaderMatches HEADER_PREFIX.record) (buildHeaderMap data).1
      (buildHeaderMap data).2.record ∧
    buildHeaderMap [sheetRow "" "" "" ""] =
      (sheetHeaders,
        { name := some "이름 (ex.홍길동)".toList
          studentId := some "학번".toList
          nick := some "리더보드에 표시할 닉네임 (선택)".toList
          record := some "기록 (예: 1분 30초 12)".toList }) ∧
    buildHeaderMap [messyRow] =
      (["이 름\t(ex.홍길동)".toList, "학  번".toList,
          "리더보드에표시할".toList ++ Char.ofNat 12288 :: "닉네임 (선택)".toList,
          "기록 (예)".toList],
        { name := some "이 름\t(ex.홍길동)".toList
          studentId := some "학  번".toList
          nick := some ("리더보드에표시할".toList ++ Char.ofNat 12288 :: "닉네임 (선택)".toList)
          record := some "기록 (예)".toList }) ∧
    buildHeaderMap [partialRow] =
      (["성명".toList, "내 이름".toList, "이름A".toList, "이름B".toList, "학번".toList],
        { name := some "이름A".toList, studentId := some "학번".toList, nick := none,
          record := none }) := by
  refine ⟨⟨rfl, rfl, rfl, rfl⟩, headersOf_eq data,
    firstWith_of_firstMatch (findByPrefix_firstMatch _ simplify_prefixes.1),
    firstWith_of_firstMatch (findByPrefix_firstMatch _ simplify_prefixes.2.1),
    firstWith_of_firstMatch (findByPrefix_firstMatch _ simplify_prefixes.2.2.1),
    firstWith_of_firstMatch (findByPrefix_firstMatch _ simplify_prefixes.2.2.2),
    by decide!, by decide!, by decide!⟩

/-! ### The row normaliser -/

theorem getCell_findByPrefix (row : Row) (headers : List Str) (pre : Str) :
    getCell row (findByPrefix headers pre) = cellText row (findByPrefix headers pre) := by
  have hne := findByPrefix_ne_nil headers pre
  cases h : findByPrefix headers pre with
  | none => rfl
  | some k =>
    have hk : k ≠ [] := by
      rintro rfl
      exact hne h
    simp [getCell, cellText, hk]

/-- **C12** (row normalisation). `normalizeRows` is a total function, so a
header that was not resolved (mapped to `null`) never aborts it. Its output is
a sublist, hence in input order, of the records built row by row, and every
output record is built from a row of the input. The record built from a row
has as name, student id, nickname and raw record the trimmed value under the
header mapped for that field, or the empty string when the field is unmapped
or the row has no value there; its seconds are `parseRecordToSeconds` of its
raw record. -/
theorem normalizeRows_fields (data : List Row) :
    (normalizeRows data).Sublist (data.map (toRecord (buildHeaderMap data).2)) ∧
    (∀ r ∈ normalizeRows data, ∃ row ∈ data, r = toRecord (buildHeaderMap data).2 row) ∧
    ∀ row : Row,
      (toRecord (buildHeaderMap data).2 row).name
          = trim (cellText row (buildHeaderMap data).2.name) ∧
      (toRecord (buildHeaderMap data).2 row).studentId
          = trim (cellText row (buildHeaderMap data).2.studentId) ∧
      (toRecord (buildHeaderMap data).2 row).nick
          = trim (cellText row (buildHeaderMap data).2.nick) ∧
      (toRecord (buildHeaderMap data).2 row).recordRaw
          = trim (cellText row (buildHeaderMap data).2.record) ∧
      (toRecord (buildHeaderMap data).2 row).seconds
          = parseRecordToSeconds (toRecord (buildHeaderMap data).2 row).recordRaw ∧
      (cellText row none = [] ∧ trim [] = []) := by
  refine ⟨List.filter_sublist _, ?_, ?_⟩
  · intro r hr
    have h := (List.mem_filter.1 hr).1
    obtain ⟨row, hrow, rfl⟩ := List.mem_map.1 h
    exact ⟨row, hrow, rfl⟩
  · intro row
    refine ⟨?_, ?_, ?_, ?_, rfl, rfl, rfl⟩
    · exact congrArg trim (getCell_findByPrefix row _ _)
    · exact congrArg trim (getCell_findByPrefix row _ _)
    · exact congrArg trim (getCell_findByPrefix row _ _)
    · exact congrArg trim (getCell_findByPrefix row _ _)

/-! ### Running `bestOnly` on rows with distinct keys -/

theorem RecordMap.set_of_not_mem (m : RecordMap) (key : Str) (r : PersonRecord)
    (h : key ∉ m.map Prod.fst) : m.set key r = m ++ [(key, r)] := by
  induction m with
  | nil => rfl
  | cons e t ih =>
    simp only [List.map_cons, List.mem_cons, not_or] at h
    have hk : e.1 ≠ key := fun he => h.1 he.symm
    simp [RecordMap.set, hk, ih h.2]

theorem bestOnlyStep_of_not_mem (m : RecordMap) (r : PersonRecord)
    (h : keyForPerson r ∉ m.map Prod.fst) :
    bestOnlyStep m r = m ++ [(keyForPerson r, r)] := by
  have hg : m.get (keyForPerson r) = none := (RecordMap.get_eq_none_iff m _).2 h
  simp only [bestOnlyStep, hg]
  exact RecordMap.set_of_not_mem m _ r h

theorem foldl_bestOnlyStep_fresh (l : List PersonRecord) :
    ∀ m : RecordMap, (l.map keyForPerson).Nodup →
      (∀ r ∈ l, keyForPerson r ∉ m.map Prod.fst) →
      l.foldl bestOnlyStep m = m ++ l.map fun r => (keyForPerson r, r) := by
  induction l with
  | nil => intro m _ _; simp
  | cons a t ih =>
    intro m hnd hfresh
    simp only [List.map_cons, List.nodup_cons] at hnd
    rw [List.foldl_cons, bestOnlyStep_of_not_mem m a (hfresh a (List.mem_cons_self _ _))]
    rw [ih _ hnd.2]
    · simp
    · intro r hr
      have h1 := hfresh r (List.mem_cons_of_mem _ hr)
      simp only [List.map_append, List.map_cons, List.map_nil, List.mem_append,
        List.mem_singleton, not_or]
      refine ⟨h1, ?_⟩
      intro he
      exact hnd.1 (he ▸ List.mem_map_of_mem keyForPerson hr)

theorem bestOnly_of_nodup (l : List PersonRecord) (hnd : (l.map keyForPerson).Nodup) :
    bestOnly l = l := by
  unfold bestOnly
  rw [foldl_bestOnlyStep_fresh l [] hnd (by simp)]
  simp [List.map_map, Function.comp_def]

/-- **C13** (deduplication is idempotent). For every list of rows,
`bestOnly (bestOnly rows)` is `bestOnly rows`: the same records in the same
order. -/
theorem bestOnly_idempotent (rows : List PersonRecord) :
    bestOnly (bestOnly rows) = bestOnly rows := by
  apply bestOnly_of_nodup
  rw [bestOnly_map_key]
  exact (keysInv_bestOnly rows).nodup

/-! ### The kept record is the earliest best row of its key -/

theorem strictlyBetter_iff_before {a b : PersonRecord} (ha : a.seconds ≠ some .nan)
    (hb : b.seconds ≠ some .nan) : StrictlyBetter a b ↔ Before a b := by
  unfold StrictlyBetter Before
  cases hsa : a.seconds with
  | none => cases hsb : b.seconds with
    | none => simp [timeClass, timeValue]
    | some y => cases y <;> simp_all [timeClass, timeValue]
  | some x =>
    cases hsb : b.seconds with
    | none => cases x <;> simp_all [timeClass, timeValue]
    | some y =>
      have hx : x ≠ .nan := fun h => ha (by rw [hsa, h])
      have hy : y ≠ .nan := fun h => hb (by rw [hsb, h])
      exact lt_iff_class hx hy

theorem bestOnlyStep_replace {m : RecordMap} {r prev : PersonRecord}
    (hg : m.get (keyForPerson r) = some prev) (h : StrictlyBetter r prev) :
    bestOnlyStep m r = m.set (keyForPerson r) r := by
  unfold StrictlyBetter at h
  simp only [bestOnlyStep, hg]
  cases hp : prev.seconds <;> cases hr : r.seconds <;> simp_all

theorem bestOnlyStep_keep {m : RecordMap} {r prev : PersonRecord}
    (hg : m.get (keyForPerson r) = some prev) (h : ¬ StrictlyBetter r prev) :
    bestOnlyStep m r = m := by
  unfold StrictlyBetter at h
  simp only [bestOnlyStep, hg]
  cases hp : prev.seconds <;> cases hr : r.seconds <;> simp_all

theorem earliestBest_snoc {x r : PersonRecord} {done : List PersonRecord}
    (h : EarliestBest x done) (hr : keyForPerson r = keyForPerson x → ¬ StrictlyBetter r x) :
    EarliestBest x (done ++ [r]) := by
  obtain ⟨before, after, hd, hb, ha⟩ := h
  refine ⟨before, after ++ [r], by rw [hd]; simp, hb, ?_⟩
  intro r0 hr0
  rcases List.mem_append.1 hr0 with h0 | h0
  · exact ha r0 h0
  · rw [List.mem_singleton.1 h0]
    exact hr

theorem firstBestInv_nil : FirstBestInv [] [] := by
  intro k x h
  simp [RecordMap.get] at h

theorem firstBestInv_step {m : RecordMap} {done : List PersonRecord} (r : PersonRecord)
    (hk : KeysInv m done) (hi : FirstBestInv m done)
    (hnan : ∀ r0 ∈ done ++ [r], r0.seconds ≠ some .nan) :
    FirstBestInv (bestOnlyStep m r) (done ++ [r]) := by
  have hrn : r.seconds ≠ some .nan := hnan r (by simp)
  have hkey : ∀ k x, m.get k = some x → k = keyForPerson x := fun k x h =>
    hk.key_eq _ (RecordMap.mem_of_get m k x h)
  have hother : ∀ k x, m.get k = some x → k ≠ keyForPerson r → EarliestBest x (done ++ [r]) := by
    intro k x hx hne
    refine earliestBest_snoc (hi k x hx) ?_
    intro he
    exact absurd (he ▸ hkey k x hx) hne
  cases hg : m.get (keyForPerson r) with
  | none =>
    have hfresh : keyForPerson r ∉ m.map Prod.fst := (RecordMap.get_eq_none_iff m _).1 hg
    have hs : bestOnlyStep m r = m.set (keyForPerson r) r := by simp only [bestOnlyStep, hg]
    rw [hs]
    intro k x hx
    by_cases hkr : k = keyForPerson r
    · subst hkr
      rw [RecordMap.get_set_self] at hx
      cases hx
      refine ⟨done, [], rfl, ?_, fun _ h0 => by cases h0⟩
      intro r0 hr0 he
      exact absurd ((hk.keys _).2 (he ▸ List.mem_map_of_mem keyForPerson hr0)) hfresh
    · rw [RecordMap.get_set_of_ne m _ k r hkr] at hx
      exact hother k x hx hkr
  | some prev =>
    have hprev : prev ∈ done := hk.mem _ (RecordMap.mem_of_get m _ prev hg)
    have hpn : prev.seconds ≠ some .nan := hnan prev (List.mem_append_left _ hprev)
    have hpk : keyForPerson prev = keyForPerson r := (hkey _ prev hg).symm
    by_cases hsb : StrictlyBetter r prev
    · rw [bestOnlyStep_replace hg hsb]
      intro k x hx
      by_cases hkr : k = keyForPerson r
      · subst hkr
        rw [RecordMap.get_set_self] at hx
        cases hx
        obtain ⟨before, after, hd, hb, ha⟩ := hi _ prev hg
        refine ⟨done, [], rfl, ?_, fun _ h0 => by cases h0⟩
        intro r0 hr0 he
        have hr0n : r0.seconds ≠ some .nan := hnan r0 (List.mem_append_left _ hr0)
        have hbp : Before r prev := (strictlyBetter_iff_before hrn hpn).1 hsb
        rw [strictlyBetter_iff_before hrn hr0n]
        rw [hd] at hr0
        rcases List.mem_append.1 hr0 with h0 | h0
        · have h1 := hb r0 h0 (he.trans hpk.symm)
          exact before_trans hbp ((strictlyBetter_iff_before hpn hr0n).1 h1)
        · rcases List.mem_cons.1 h0 with h0 | h0
          · rw [h0]; exact hbp
          · have h1 := ha r0 h0 (he.trans hpk.symm)
            rw [strictlyBetter_iff_before hr0n hpn] at h1
            by_contra hc
            exact not_before_trans h1 hc hbp
      · rw [RecordMap.get_set_of_ne m _ k r hkr] at hx
        exact hother k x hx hkr
    · rw [bestOnlyStep_keep hg hsb]
      intro k x hx
      by_cases hkr : k = keyForPerson r
      · subst hkr
        rw [hg] at hx
        cases hx
        exact earliestBest_snoc (hi _ _ hg) fun _ => hsb
      · exact hother k x hx hkr

theorem firstBestInv_foldl (l : List PersonRecord) :
    ∀ (m : RecordMap) (done : List PersonRecord), KeysInv m done → FirstBestInv m done →
      (∀ r ∈ done ++ l, r.seconds ≠ some .nan) →
      FirstBestInv (l.foldl bestOnlyStep m) (done ++ l) := by
  induction l with
  | nil => intro m done _ h _; simpa using h
  | cons r t ih =>
    intro m done hk hi hnan
    have hnan1 : ∀ r0 ∈ done ++ [r], r0.seconds ≠ some .nan := by
      intro r0 h0
      apply hnan
      rcases List.mem_append.1 h0 with h | h
      · exact List.mem_append_left _ h
      · exact List.mem_append_right _ (List.mem_cons.2 (Or.inl (List.mem_singleton.1 h)))
    have h1 := firstBestInv_step r hk hi hnan1
    have hk1 := keysInv_foldl [r] m done hk
    have := ih (bestOnlyStep m r) (done ++ [r]) (by simpa using hk1) h1
      (by simpa using hnan)
    simpa using this

/-- **C16** (best record, first seen on ties). For rows whose times are never
NaN (as for every output of `parseRecordToSeconds`), every row finds among the
records `bestOnly` keeps one with its identity key, and that record is the
earliest row of the key attaining the best time of the key: every earlier row
of the key is strictly worse (it has no time while the kept one has, or a
larger time), and no later row of the key is strictly better, so an equal
time, or no time on both sides, keeps the row seen first. -/
theorem bestOnly_earliest_best (rows : List PersonRecord)
    (hnan : ∀ r ∈ rows, r.seconds ≠ some .nan) :
    ∀ r ∈ rows, ∃ x ∈ bestOnly rows,
      keyForPerson x = keyForPerson r ∧ EarliestBest x rows := by
  intro r hr
  have hk := keysInv_bestOnly rows
  have hi : FirstBestInv (rows.foldl bestOnlyStep []) rows := by
    simpa using firstBestInv_foldl rows [] [] keysInv_nil firstBestInv_nil (by simpa using hnan)
  have hmem : keyForPerson r ∈ (rows.foldl bestOnlyStep []).map Prod.fst :=
    (hk.keys _).2 (List.mem_map_of_mem keyForPerson hr)
  obtain ⟨e, he, hek⟩ := List.mem_map.1 hmem
  have hget : (rows.foldl bestOnlyStep []).get e.1 = some e.2 :=
    RecordMap.get_of_mem _ e.1 e.2 hk.nodup he
  refine ⟨e.2, List.mem_map_of_mem Prod.snd he, ?_, hi _ _ hget⟩
  rw [← hk.key_eq e he, hek]

/-- Witness of `bestOnly_earliest_best` on the scenario of the spec: the rows
A "1분 0초 00", A "0분 59초 50", B "" give two records, A with 59.5 s and B
without a time, and the first row finds the record of A. -/
theorem bestOnly_earliest_best_witness :
    (∀ r ∈ normalizeRows scenarioData, r.seconds ≠ some .nan) ∧
    bestOnly (normalizeRows scenarioData) = [recordA2, recordB] ∧
    recordA1 ∈ normalizeRows scenarioData ∧
    ∃ x ∈ bestOnly (normalizeRows scenarioData),
      keyForPerson x = keyForPerson recordA1 ∧ EarliestBest x (normalizeRows scenarioData) :=
  ⟨fun r hr => seconds_ne_nan_of_timeOk (timeOk_normalizeRows scenarioData r hr),
    by rw [normalizeRows_scenario]; decide!,
    by rw [normalizeRows_scenario]; exact List.mem_cons_self _ _,
    bestOnly_earliest_best (normalizeRows scenarioData)
      (fun r hr => seconds_ne_nan_of_timeOk (timeOk_normalizeRows scenarioData r hr))
      recordA1 (by rw [normalizeRows_scenario]; exact List.mem_cons_self _ _)⟩

/-! ### Markup escaping -/

theorem replaceAll_append (c : Char) (r a b : Str) :
    replaceAll c r (a ++ b) = replaceAll c r a ++ replaceAll c r b := by
  induction a with
  | nil => rfl
  | cons d t ih => simp [replaceAll, ih]

theorem escapeHtml_cons (c : Char) (t : Str) :
    escapeHtml (c :: t) = escapeChar c ++ escapeHtml t := by
  unfold escapeHtml escapeChar
  by_cases h1 : c = '&'
  · subst h1
    simp only [replaceAll, if_true, replaceAll_append]
    rfl
  by_cases h2 : c = '<'
  · subst h2
    simp only [replaceAll, replaceAll_append]
    rfl
  by_cases h3 : c = '>'
  · subst h3
    simp only [replaceAll, replaceAll_append]
    rfl
  simp [replaceAll, h1, h2, h3]

theorem unescapeHtml_escapeChar (c : Char) (t : Str) :
    unescapeHtml (escapeChar c ++ t) = c :: unescapeHtml t := by
  unfold escapeChar
  by_cases h1 : c = '&'
  · subst h1; simp [unescapeHtml]
  by_cases h2 : c = '<'
  · subst h2; simp [unescapeHtml]
  by_cases h3 : c = '>'
  · subst h3; simp [unescapeHtml]
  simp only [h1, h2, h3, if_false, List.singleton_append]
  rw [unescapeHtml]
  all_goals
    intro t' h
    exact absurd h h1

theorem escapeHtml_nil : escapeHtml [] = [] := rfl

theorem not_mem_escapeChar (c : Char) : '<' ∉ escapeChar c ∧ '>' ∉ escapeChar c := by
  unfold escapeChar
  by_cases h1 : c = '&'
  · subst h1; decide
  by_cases h2 : c = '<'
  · subst h2; decide
  by_cases h3 : c = '>'
  · subst h3; decide
  simp only [h1, h2, h3, if_false, List.mem_singleton]
  exact ⟨fun h => h2 h.symm, fun h => h3 h.symm⟩

theorem escapeChar_amp (c : Char) :
    escapeChar c = '&' :: "amp;".toList ∨ escapeChar c = '&' :: "lt;".toList ∨
      escapeChar c = '&' :: "gt;".toList ∨ (escapeChar c = [c] ∧ c ≠ '&') := by
  unfold escapeChar
  by_cases h1 : c = '&'
  · left; simp [h1]
  by_cases h2 : c = '<'
  · right; left; subst h2; rfl
  by_cases h3 : c = '>'
  · right; right; left; subst h3; rfl
  right; right; right
  simp [h1, h2, h3]

theorem split_after (w : Str) (hw : '&' ∉ w) (e pre post : Str)
    (h : w ++ e = pre ++ '&' :: post) : ∃ pre2, pre = w ++ pre2 ∧ e = pre2 ++ '&' :: post := by
  induction w generalizing pre with
  | nil => exact ⟨pre, rfl, h⟩
  | cons a t ih =>
    simp only [List.mem_cons, not_or] at hw
    cases pre with
    | nil =>
      simp only [List.cons_append, List.nil_append, List.cons.injEq] at h
      exact absurd h.1.symm hw.1
    | cons b pre1 =>
      simp only [List.cons_append, List.cons.injEq] at h
      obtain ⟨pre2, hp, he⟩ := ih hw.2 pre1 h.2
      exact ⟨pre2, by rw [h.1, hp]; rfl, he⟩

theorem amp_starts_entity (s : Str) : ∀ pre post : Str, escapeHtml s = pre ++ '&' :: post →
    "amp;".toList <+: post ∨ "lt;".toList <+: post ∨ "gt;".toList <+: post := by
  induction s with
  | nil =>
    intro pre post h
    rw [escapeHtml_nil] at h
    cases pre <;> cases h
  | cons c t ih =>
    intro pre post h
    rw [escapeHtml_cons] at h
    have key : ∀ w : Str, '&' ∉ w → escapeChar c = '&' :: w →
        (w <+: post) ∨ ∃ pre2, escapeHtml t = pre2 ++ '&' :: post := by
      intro w hw hc
      rw [hc] at h
      cases pre with
      | nil =>
        simp only [List.cons_append, List.nil_append, List.cons.injEq, true_and] at h
        exact Or.inl ⟨escapeHtml t, h⟩
      | cons b pre1 =>
        simp only [List.cons_append, List.cons.injEq] at h
        obtain ⟨pre2, _, he⟩ := split_after w hw _ pre1 post h.2
        exact Or.inr ⟨pre2, he⟩
    rcases escapeChar_amp c with hc | hc | hc | ⟨hc, hne⟩
    · rcases key _ (by decide) hc with h1 | ⟨pre2, h2⟩
      · exact Or.inl h1
      · exact ih pre2 post h2
    · rcases key _ (by decide) hc with h1 | ⟨pre2, h2⟩
      · exact Or.inr (Or.inl h1)
      · exact ih pre2 post h2
    · rcases key _ (by decide) hc with h1 | ⟨pre2, h2⟩
      · exact Or.inr (Or.inr h1)
      · exact ih pre2 post h2
    · rw [hc] at h
      obtain ⟨pre2, _, he⟩ := split_after [c] (by simpa using fun h0 => hne h0.symm) _ pre post h
      exact ih pre2 post he

/-- **C20** (markup escaping). For every string `s`, `escapeHtml s` contains
neither `<` nor `>`, every `&` in it is followed by `amp;`, `lt;` or `gt;`
(it starts one of the three entities), and replacing the entities back gives
`s` again. -/
theorem escapeHtml_safe_and_reversible (s : Str) :
    '<' ∉ escapeHtml s ∧ '>' ∉ escapeHtml s ∧
    (∀ pre post : Str, escapeHtml s = pre ++ '&' :: post →
      "amp;".toList <+: post ∨ "lt;".toList <+: post ∨ "gt;".toList <+: post) ∧
    unescapeHtml (escapeHtml s) = s := by
  refine ⟨?_, ?_, amp_starts_entity s, ?_⟩
  · induction s with
    | nil => simp [escapeHtml_nil]
    | cons c t ih =>
      rw [escapeHtml_cons, List.mem_append, not_or]
      exact ⟨(not_mem_escapeChar c).1, ih⟩
  · induction s with
    | nil => simp [escapeHtml_nil]
    | cons c t ih =>
      rw [escapeHtml_cons, List.mem_append, not_or]
      exact ⟨(not_mem_escapeChar c).2, ih⟩
  · induction s with
    | nil => rfl
    | cons c t ih => rw [escapeHtml_cons, unescapeHtml_escapeChar, ih]

/-! ### The identity key -/

theorem bar_split_unique (na : Str) : ∀ (nb sa sb : Str), '|' ∉ na → '|' ∉ nb →
    na ++ '|' :: sa = nb ++ '|' :: sb → na = nb ∧ sa = sb := by
  induction na with
  | nil =>
    intro nb sa sb _ hb h
    cases nb with
    | nil => simpa using h
    | cons c t =>
      simp only [List.nil_append, List.cons_append, List.cons.injEq] at h
      simp only [List.mem_cons, not_or] at hb
      exact absurd h.1 hb.1
  | cons a t ih =>
    intro nb sa sb ha hb h
    simp only [List.mem_cons, not_or] at ha
    cases nb with
    | nil =>
      simp only [List.nil_append, List.cons_append, List.cons.injEq] at h
      exact absurd h.1.symm ha.1
    | cons c u =>
      simp only [List.cons_append, List.cons.injEq] at h
      simp only [List.mem_cons, not_or] at hb
      obtain ⟨h1, h2⟩ := ih u sa sb ha.2 hb.2 h.2
      exact ⟨by rw [h.1, h1], h2⟩

/-- Equal nicknames, or no nicknames and equal names and student ids, give
equal keys. -/
theorem keyForPerson_eq_of_same (a b : PersonRecord)
    (h : (trim a.nick ≠ [] ∧ trim a.nick = trim b.nick) ∨
      (trim a.nick = [] ∧ trim b.nick = [] ∧ trim a.name = trim b.name ∧
        trim a.studentId = trim b.studentId)) :
    keyForPerson a = keyForPerson b := by
  unfold keyForPerson
  rcases h with ⟨h1, h2⟩ | ⟨h1, h2, h3, h4⟩
  · rw [if_pos h1, if_pos (h2 ▸ h1), h2]
  · rw [if_neg (not_not.2 h1), if_neg (not_not.2 h2), h3, h4]

/-- When no name contains the separator `|`, equal keys force equal nicknames,
or no nicknames and equal names and student ids. -/
theorem keyForPerson_inj_of_no_bar (a b : PersonRecord)
    (ha : '|' ∉ trim a.name) (hb : '|' ∉ trim b.name)
    (h : keyForPerson a = keyForPerson b) :
    (trim a.nick ≠ [] ∧ trim a.nick = trim b.nick) ∨
      (trim a.nick = [] ∧ trim b.nick = [] ∧ trim a.name = trim b.name ∧
        trim a.studentId = trim b.studentId) := by
  unfold keyForPerson at h
  by_cases h1 : trim a.nick = [] <;> by_cases h2 : trim b.nick = []
  · rw [if_neg (not_not.2 h1), if_neg (not_not.2 h2)] at h
    have h3 : trim a.name ++ '|' :: trim a.studentId = trim b.name ++ '|' :: trim b.studentId := by
      simpa using h
    exact Or.inr ⟨h1, h2, bar_split_unique _ _ _ _ ha hb h3⟩
  · rw [if_neg (not_not.2 h1), if_pos h2] at h
    have := congrArg List.head? h
    simp at this
  · rw [if_pos h1, if_neg (not_not.2 h2)] at h
    have := congrArg List.head? h
    simp at this
  · rw [if_pos h1, if_pos h2] at h
    exact Or.inl ⟨h1, by simpa using h⟩

/-- C18 (failing input). Two rows without nicknames whose names differ
(`a|b` and `a`) and whose student ids differ (`c` and `b|c`) get the same
identity key `S:a|b|c`, although all their fields are trimmed; `bestOnly`
merges the two persons into one record, and the first person disappears. -/
theorem keyForPerson_collision :
    normalizeRows barData = [barRecord1, barRecord2] ∧
    (trim barRecord1.name = barRecord1.name ∧ trim barRecord1.studentId = barRecord1.studentId ∧
      trim barRecord1.nick = barRecord1.nick) ∧
    (trim barRecord2.name = barRecord2.name ∧ trim barRecord2.studentId = barRecord2.studentId ∧
      trim barRecord2.nick = barRecord2.nick) ∧
    barRecord1.nick = [] ∧ barRecord2.nick = [] ∧
    barRecord1.name ≠ barRecord2.name ∧ barRecord1.studentId ≠ barRecord2.studentId ∧
    keyForPerson barRecord1 = "S:a|b|c".toList ∧
    keyForPerson barRecord2 = "S:a|b|c".toList ∧
    bestOnly (normalizeRows barData) = [barRecord2] := by
  decide!

/-! ### A negative time -/

/-- C19 (failing input). The cell text `-5` matches none of the three
patterns and reaches the bare-number fallback, which returns the negative
Number -5; the row then ranks ahead of the real time 59.5 s and heads the
honor roll. -/
theorem parse_negative :
    parseRecordToSeconds "-5".toList = some (.fin (-5)) ∧
    (JSNum.fin (-5)).lt (.fin 0) = true ∧
    ((render lengthCollation id [] (normalizeRows negativeData)).1.map fun r =>
        (r.nick, r.seconds)) =
      [("B".toList, some (.fin (-5))), ("A".toList, some (.fin (119 / 2)))] ∧
    ((render lengthCollation id [] (normalizeRows negativeData)).2.map fun r => r.nick) =
      ["B".toList, "A".toList] := by
  decide!

/-! ### The decomposition for totals of either sign -/

/-- The floor of a rounded value is the floor of the exact value when the exact
value stays far enough below the next integer; the value may be negative. -/
theorem floor_toDouble_abs {x : ℚ} {k b : ℤ} (hx0 : x ≠ 0) (hk : (k : ℚ) ≤ x)
    (hb : |x| < pow2 b) (hb0 : 0 ≤ b) (hb53 : b ≤ 53) (hgap : x + pow2 (b - 54) < (k : ℚ) + 1) :
    toDouble x = .fin (nearest x) ∧ ⌊nearest x⌋ = k := by
  have hbin : binade x < b := binade_lt_of_abs_lt hx0 hb
  have hu : ulpExp x ≤ b - 53 := by
    unfold ulpExp; exact max_le (by omega) (by omega)
  obtain ⟨k2, hk2⟩ := int_eq_mul_pow2 k (show ulpExp x ≤ 0 by omega)
  have hlow : (k : ℚ) ≤ nearest x := by
    rw [hk2]; apply le_nearest; rw [← hk2]; exact hk
  have hup : nearest x < (k : ℚ) + 1 := by
    have h1 := abs_nearest_sub_le x
    have h2 : pow2 (ulpExp x) / 2 ≤ pow2 (b - 54) := by
      have h3 : pow2 (b - 53) = 2 * pow2 (b - 54) := by
        have : b - 53 = 1 + (b - 54) := by ring
        rw [this, pow2_add]
        have : pow2 1 = 2 := by rw [pow2_eq]; norm_num
        rw [this]
      have := pow2_le_pow2 hu
      linarith
    have h4 := (abs_le.1 h1).2
    linarith
  refine ⟨toDouble_of_lt hx0 ?_, ?_⟩
  · have h5 : pow2 b ≤ pow2 53 := pow2_le_pow2 hb53
    have h6 : 2 * pow2 53 < pow2 1024 := by
      simp only [pow2_eq]; norm_num
    have h7 := abs_nearest_le x
    linarith
  · rw [Int.floor_eq_iff]
    exact ⟨hlow, hup⟩

/-- Dividing an integer by a small positive constant and taking the floor gives
the floor quotient, also after binary64 rounding of the quotient. -/
theorem floor_div_toDouble_int (T : ℤ) (d : ℕ) (b : ℤ) (hd : 0 < d)
    (hlt : |(T : ℚ) / (d : ℚ)| < pow2 b)
    (hb0 : 0 ≤ b) (hb53 : b ≤ 53) (hgap : pow2 (b - 54) < 1 / (d : ℚ)) :
    mathFloor (toDouble ((T : ℚ) / (d : ℚ))) = .fin ((T / (d : ℤ) : ℤ) : ℚ) := by
  have hdq : (0 : ℚ) < (d : ℚ) := by exact_mod_cast hd
  have hdz : (0 : ℤ) < (d : ℤ) := by exact_mod_cast hd
  have hdne : (d : ℚ) ≠ 0 := ne_of_gt hdq
  by_cases hT0 : T = 0
  · subst hT0
    simp [toDouble, mathFloor]
  · have hx0 : (T : ℚ) / (d : ℚ) ≠ 0 := by
      apply div_ne_zero _ hdne
      exact_mod_cast hT0
    have hlow : ((T / (d : ℤ) : ℤ) : ℚ) ≤ (T : ℚ) / (d : ℚ) := by
      rw [le_div_iff₀ hdq]
      have : T / (d : ℤ) * (d : ℤ) ≤ T := Int.ediv_mul_le T (ne_of_gt hdz)
      exact_mod_cast this
    have hup : (T : ℚ) / (d : ℚ) ≤ ((T / (d : ℤ) : ℤ) : ℚ) + 1 - 1 / (d : ℚ) := by
      rw [div_le_iff₀ hdq]
      have h1 : (((T / (d : ℤ) : ℤ) : ℚ) + 1 - 1 / (d : ℚ)) * (d : ℚ) =
          ((T / (d : ℤ) : ℤ) : ℚ) * d + d - 1 := by
        rw [sub_mul, add_mul, one_mul, one_div, inv_mul_cancel₀ hdne]
      rw [h1]
      have h2 : T + 1 ≤ T / (d : ℤ) * (d : ℤ) + (d : ℤ) := by
        have := Int.lt_ediv_add_one_mul_self T hdz
        linarith
      have h3 : ((T + 1 : ℤ) : ℚ) ≤ ((T / (d : ℤ) * (d : ℤ) + (d : ℤ) : ℤ) : ℚ) := by
        exact_mod_cast h2
      push_cast at h3
      linarith
    have := floor_toDouble_abs (x := (T : ℚ) / (d : ℚ)) (k := T / (d : ℤ)) (b := b) hx0 hlow hlt
      hb0 hb53 (by linarith)
    rw [this.1]
    simp [mathFloor, this.2]

theorem toDouble_int_of_lt (n : ℤ) (h1 : -2 ^ 53 < n) (h2 : n < 2 ^ 53) :
    toDouble (n : ℚ) = .fin (n : ℚ) := by
  apply toDouble_intCast
  rw [pow2_eq, abs_lt]
  constructor
  · have : ((-2 ^ 53 : ℤ) : ℚ) < (n : ℚ) := by exact_mod_cast h1
    push_cast at this
    norm_num at this ⊢
    linarith
  · have : (n : ℚ) < ((2 ^ 53 : ℤ) : ℚ) := by exact_mod_cast h2
    push_cast at this
    norm_num at this ⊢
    linarith

theorem toDouble_intCast_mul (a b : ℤ) (h1 : -2 ^ 53 < a * b) (h2 : a * b < 2 ^ 53) :
    toDouble ((a : ℚ) * (b : ℚ)) = .fin ((a * b : ℤ) : ℚ) := by
  have := toDouble_int_of_lt (a * b) h1 h2
  push_cast at this ⊢
  exact this

theorem toDouble_intCast_sub (a b : ℤ) (h1 : -2 ^ 53 < a - b) (h2 : a - b < 2 ^ 53) :
    toDouble ((a : ℚ) - (b : ℚ)) = .fin ((a - b : ℤ) : ℚ) := by
  have := toDouble_int_of_lt (a - b) h1 h2
  push_cast at this ⊢
  exact this

theorem formatParts_eq_carry (v : JSNum) :
    formatParts v =
      ((if (carryTaken v).2 then (formatDecompose v).1.add (.fin 1) else (formatDecompose v).1),
        (if (carryTaken v).2 then .fin 0
          else if (carryTaken v).1 then (formatDecompose v).2.1.add (.fin 1)
          else (formatDecompose v).2.1),
        (if (carryTaken v).1 then .fin 0 else (formatDecompose v).2.2)) := rfl

/-- Multiples of 16 of magnitude below `2 ^ 57` are binary64 values. -/
theorem toDouble_int_mul16 (n : ℤ) (h1 : -2 ^ 57 < 16 * n) (h2 : 16 * n < 2 ^ 57) :
    toDouble ((16 * n : ℤ) : ℚ) = .fin ((16 * n : ℤ) : ℚ) := by
  by_cases hn : ((16 * n : ℤ) : ℚ) = 0
  · rw [hn]; rfl
  · have habs : |((16 * n : ℤ) : ℚ)| < pow2 57 := by
      rw [pow2_eq, abs_lt]
      constructor
      · have : ((-2 ^ 57 : ℤ) : ℚ) < ((16 * n : ℤ) : ℚ) := by exact_mod_cast h1
        push_cast at this ⊢
        norm_num at this ⊢
        linarith
      · have : ((16 * n : ℤ) : ℚ) < ((2 ^ 57 : ℤ) : ℚ) := by exact_mod_cast h2
        push_cast at this ⊢
        norm_num at this ⊢
        linarith
    have hbin := binade_lt_of_abs_lt hn habs
    have hu : ulpExp ((16 * n : ℤ) : ℚ) ≤ 4 := by
      unfold ulpExp; exact max_le (by omega) (by norm_num)
    have key : ∀ e : ℤ, e ≤ 4 → ∃ k : ℤ, ((16 * n : ℤ) : ℚ) = (k : ℚ) * pow2 e := by
      intro e he
      obtain ⟨k, hk⟩ := int_eq_mul_pow2 n (show e - 4 ≤ 0 by omega)
      have hp : pow2 e = 16 * pow2 (e - 4) := by
        have e1 : e = 4 + (e - 4) := by ring
        have h4 : pow2 4 = 16 := by rw [pow2_eq]; norm_num
        conv_lhs => rw [e1, pow2_add, h4]
      refine ⟨k, ?_⟩
      rw [hp]
      push_cast
      rw [hk]
      ring
    obtain ⟨k, hk2⟩ := key _ hu
    have hs := nearest_eq_self hk2
    rw [toDouble_of_lt hn, hs]
    rw [hs]
    exact lt_trans habs (pow2_lt_pow2 (by norm_num))

theorem formatDecompose_of_round (v : JSNum) (T : ℤ)
    (hT : mathRound (v.mul (.fin 100)) = .fin (T : ℚ)) (h1 : -2 ^ 53 < T) (h2 : T < 2 ^ 53) :
    formatDecompose v =
      (.fin ((T / 6000 : ℤ) : ℚ), .fin ((T % 6000 / 100 : ℤ) : ℚ), .fin ((T % 100 : ℤ) : ℚ)) := by
  have hTq : |(T : ℚ)| < 2 ^ 53 := by
    rw [abs_lt]
    constructor
    · have : ((-2 ^ 53 : ℤ) : ℚ) < (T : ℚ) := by exact_mod_cast h1
      push_cast at this
      linarith
    · have : (T : ℚ) < ((2 ^ 53 : ℤ) : ℚ) := by exact_mod_cast h2
      push_cast at this
      linarith
  have hM : mathFloor ((JSNum.fin (T : ℚ)).div (.fin 6000)) = .fin ((T / 6000 : ℤ) : ℚ) := by
    have h := floor_div_toDouble_int T 6000 41 (by norm_num)
      (by
        rw [pow2_eq, abs_div, div_lt_iff₀ (by norm_num)]
        norm_num at hTq ⊢
        linarith)
      (by norm_num) (by norm_num) (by rw [pow2_eq]; norm_num)
    simpa [JSNum.div] using h
  have hM60 : (JSNum.fin ((T / 6000 : ℤ) : ℚ)).mul (.fin 60) = .fin ((T / 6000 * 60 : ℤ) : ℚ) := by
    have := toDouble_intCast_mul (T / 6000) 60 (by omega) (by omega)
    simpa [JSNum.mul] using this
  have hM6000 : (JSNum.fin ((T / 6000 * 60 : ℤ) : ℚ)).mul (.fin 100) =
      .fin ((T / 6000 * 60 * 100 : ℤ) : ℚ) := by
    have h16 := toDouble_int_mul16 (T / 6000 * 375) (by omega) (by omega)
    have e : (16 * (T / 6000 * 375) : ℤ) = T / 6000 * 60 * 100 := by ring
    rw [e] at h16
    have e2 : ((T / 6000 * 60 : ℤ) : ℚ) * 100 = ((T / 6000 * 60 * 100 : ℤ) : ℚ) := by push_cast; ring
    simp only [JSNum.mul, e2]
    exact h16
  have hR : (JSNum.fin (T : ℚ)).sub (.fin ((T / 6000 * 60 * 100 : ℤ) : ℚ)) =
      .fin ((T % 6000 : ℤ) : ℚ) := by
    have := toDouble_intCast_sub T (T / 6000 * 60 * 100) (by omega) (by omega)
    have e : T - T / 6000 * 60 * 100 = T % 6000 := by omega
    rw [e] at this
    simpa [JSNum.sub] using this
  have hS : mathFloor ((JSNum.fin ((T % 6000 : ℤ) : ℚ)).div (.fin 100)) =
      .fin ((T % 6000 / 100 : ℤ) : ℚ) := by
    have hr1 : (0 : ℤ) ≤ T % 6000 := by omega
    have hr2 : T % 6000 < 6000 := by omega
    have hq1 : (0 : ℚ) ≤ ((T % 6000 : ℤ) : ℚ) := by exact_mod_cast hr1
    have hq2 : ((T % 6000 : ℤ) : ℚ) < 6000 := by exact_mod_cast hr2
    have h := floor_div_toDouble_int (T % 6000) 100 13 (by norm_num)
      (by
        rw [pow2_eq, abs_div, div_lt_iff₀ (by norm_num), abs_of_nonneg hq1]
        norm_num
        linarith)
      (by norm_num) (by norm_num) (by rw [pow2_eq]; norm_num)
    simpa [JSNum.div] using h
  have hS100 : (JSNum.fin ((T % 6000 / 100 : ℤ) : ℚ)).mul (.fin 100) =
      .fin ((T % 6000 / 100 * 100 : ℤ) : ℚ) := by
    have := toDouble_intCast_mul (T % 6000 / 100) 100 (by omega) (by omega)
    simpa [JSNum.mul] using this
  have hC : (JSNum.fin ((T % 6000 : ℤ) : ℚ)).sub (.fin ((T % 6000 / 100 * 100 : ℤ) : ℚ)) =
      .fin ((T % 100 : ℤ) : ℚ) := by
    have := toDouble_intCast_sub (T % 6000) (T % 6000 / 100 * 100) (by omega) (by omega)
    have e : T % 6000 - T % 6000 / 100 * 100 = T % 100 := by omega
    rw [e] at this
    simpa [JSNum.sub] using this
  unfold formatDecompose
  simp only [hT, hM, hM60, hM6000, hR, hS, hS100, hC]

/-- **C17** (amended). The carry correction is unreachable while the rounded
total of centiseconds `T = Math.round(seconds * 100)` is an integer of
magnitude below `2 ^ 53`, negative totals included: the decomposition gives
`minutes = floor(T / 6000)`, `seconds = (T mod 6000) div 100` between 0 and 59
and `cs = T mod 100` between 0 and 99, neither carry test succeeds, and the
numbers printed are the decomposed ones. -/
theorem carry_unreachable (v : JSNum) (T : ℤ)
    (hT : mathRound (v.mul (.fin 100)) = .fin (T : ℚ)) (h1 : -2 ^ 53 < T) (h2 : T < 2 ^ 53) :
    formatDecompose v =
      (.fin ((T / 6000 : ℤ) : ℚ), .fin ((T % 6000 / 100 : ℤ) : ℚ), .fin ((T % 100 : ℤ) : ℚ)) ∧
    (0 ≤ T % 6000 / 100 ∧ T % 6000 / 100 ≤ 59) ∧ (0 ≤ T % 100 ∧ T % 100 ≤ 99) ∧
    carryTaken v = (false, false) ∧ formatParts v = formatDecompose v := by
  have hd := formatDecompose_of_round v T hT h1 h2
  have hc : carryTaken v = (false, false) := by
    unfold carryTaken
    rw [hd]
    have hc1 : (JSNum.fin ((T % 100 : ℤ) : ℚ)).ge (.fin 100) = false := by
      have : T % 100 < 100 := by omega
      have : ((T % 100 : ℤ) : ℚ) < 100 := by exact_mod_cast this
      simpa [JSNum.ge] using this
    have hc2 : (JSNum.fin ((T % 6000 / 100 : ℤ) : ℚ)).ge (.fin 60) = false := by
      have : T % 6000 / 100 < 60 := by omega
      have : ((T % 6000 / 100 : ℤ) : ℚ) < 60 := by exact_mod_cast this
      simpa [JSNum.ge] using this
    simp only [hc1, hc2, Bool.false_eq_true, if_false]
  refine ⟨hd, ⟨by omega, by omega⟩, ⟨by omega, by omega⟩, hc, ?_⟩
  rw [formatParts_eq_carry, hc]
  simp

/-- Witness of `carry_unreachable` at the negative value `v = -90.126`, where
`T = -9013`: minutes -2, seconds 29, centiseconds 87. -/
theorem carry_unreachable_witness :
    (mathRound ((toDouble (-90126 / 1000)).mul (.fin 100)) = .fin ((-9013 : ℤ) : ℚ) ∧
      (-2 ^ 53 < (-9013 : ℤ)) ∧ (-9013 : ℤ) < 2 ^ 53) ∧
    (formatDecompose (toDouble (-90126 / 1000)) =
        (.fin (((-9013) / 6000 : ℤ) : ℚ), .fin (((-9013) % 6000 / 100 : ℤ) : ℚ),
          .fin (((-9013) % 100 : ℤ) : ℚ)) ∧
      (0 ≤ (-9013 : ℤ) % 6000 / 100 ∧ (-9013 : ℤ) % 6000 / 100 ≤ 59) ∧
      (0 ≤ (-9013 : ℤ) % 100 ∧ (-9013 : ℤ) % 100 ≤ 99) ∧
      carryTaken (toDouble (-90126 / 1000)) = (false, false) ∧
      formatParts (toDouble (-90126 / 1000)) = formatDecompose (toDouble (-90126 / 1000))) :=
  ⟨⟨by decide!, by norm_num, by norm_num⟩,
    carry_unreachable (toDouble (-90126 / 1000)) (-9013) (by decide!) (by norm_num) (by norm_num)⟩

/-- C17 (counterexample). At the finite binary64 value `v = 8310701707276620`
the decomposition leaves `seconds = 60`, outside 0..59, and the second carry
test succeeds: the printed numbers differ from the decomposed ones. At the
finite binary64 value `v = 2219486192984459.75` it leaves `seconds = -1`. -/
theorem carry_reached :
    IsDouble 8310701707276620 ∧
    formatDecompose (.fin 8310701707276620) = (.fin 138511695121276, .fin 60, .fin 16) ∧
    carryTaken (.fin 8310701707276620) = (false, true) ∧
    formatParts (.fin 8310701707276620) = (.fin 138511695121277, .fin 0, .fin 16) ∧
    IsDouble (8877944771937839 / 4) ∧
    formatDecompose (.fin (8877944771937839 / 4)) = (.fin 36991436549741, .fin (-1), .fin 68) := by
  unfold IsDouble
  decide!

/-! ### The range of a value of the primary grammar -/

/-- The quotient `c / 100` in binary64 for `c ≤ 99`: a finite value in
`[0, 1 - 1/128)`. -/
theorem centis_div_range (c : ℕ) (hc : c ≤ 99) :
    ∃ y : ℚ, (JSNum.fin (c : ℚ)).div (.fin 100) = .fin y ∧ 0 ≤ y ∧ y < 1 - 1 / 128 := by
  have h100 : (100 : ℚ) ≠ 0 := by norm_num
  simp only [JSNum.div, h100, if_false]
  by_cases h0 : c = 0
  · subst h0
    refine ⟨0, by simp [toDouble], le_refl _, by norm_num⟩
  · have hc1 : (1 : ℚ) ≤ (c : ℚ) := by exact_mod_cast Nat.pos_of_ne_zero h0
    have hc2 : (c : ℚ) ≤ 99 := by exact_mod_cast hc
    have hpos : (0 : ℚ) < (c : ℚ) / 100 := by positivity
    have habs : |(c : ℚ) / 100| = (c : ℚ) / 100 := abs_of_pos hpos
    have hrel := toDouble_rel (q := (c : ℚ) / 100)
      (by
        rw [habs]
        have := pow2_neg1022_le
        have : (1 : ℚ) / 128 ≤ (c : ℚ) / 100 := by
          rw [div_le_div_iff₀ (by norm_num) (by norm_num)]
          linarith
        linarith)
      (by
        rw [habs, pow2_eq]
        have : (1 : ℚ) ≤ 2 ^ (1023 : ℤ) := one_le_zpow₀ (by norm_num) (by norm_num)
        have : (c : ℚ) / 100 < 1 := by
          rw [div_lt_one (by norm_num)]
          linarith
        linarith)
    rw [habs, pow2_neg53] at hrel
    have hb := abs_le.1 hrel.2
    refine ⟨nearest ((c : ℚ) / 100), hrel.1, ?_, ?_⟩
    · have : (1 : ℚ) / 9007199254740992 * ((c : ℚ) / 100) ≤ (c : ℚ) / 100 := by
        have : (1 : ℚ) / 9007199254740992 ≤ 1 := by norm_num
        nlinarith
      linarith [hb.1]
    · have h1 : (c : ℚ) / 100 ≤ 99 / 100 := by
        rw [div_le_div_iff₀ (by norm_num) (by norm_num)]
        linarith
      have h2 : (1 : ℚ) / 9007199254740992 * ((c : ℚ) / 100) ≤ 1 / 9007199254740992 := by
        have : (c : ℚ) / 100 ≤ 1 := by linarith
        have h3 : (0 : ℚ) ≤ 1 / 9007199254740992 := by norm_num
        nlinarith
      have := hb.2
      norm_num at h2 ⊢
      linarith

/-- **C15** (amended). The primary grammar puts no bound on the centiseconds
numeral. For text `<m>분 <s>초 <c>` (any white space around the markers) with
`c ≤ 99` and `m * 60 + s < 2 ^ 46`, `parseRecordToSeconds` returns a finite
value `v` with `m * 60 + s ≤ v < m * 60 + s + 1`. -/
theorem main_grammar_range {dm w1 w2 ds w3 w4 dc : Str} (hdm : IsDigits dm) (hds : IsDigits ds)
    (hdc : IsDigits dc) (hw1 : IsSpaces w1) (hw2 : IsSpaces w2) (hw3 : IsSpaces w3)
    (hw4 : IsSpaces w4) (hK : natOfDigits dm * 60 + natOfDigits ds < 2 ^ 46)
    (hc : natOfDigits dc ≤ 99) :
    ∃ v : ℚ, parseRecordToSeconds (mainText dm w1 w2 ds w3 w4 dc) = some (.fin v) ∧
      ((natOfDigits dm * 60 + natOfDigits ds : ℕ) : ℚ) ≤ v ∧
      v < ((natOfDigits dm * 60 + natOfDigits ds : ℕ) : ℚ) + 1 := by
  rw [parse_mainText hdm hds hdc hw1 hw2 hw3 hw4]
  generalize natOfDigits dm = m at hK ⊢
  generalize natOfDigits ds = s at hK ⊢
  generalize natOfDigits dc = c at hc ⊢
  have hm : toDouble (m : ℚ) = .fin (m : ℚ) := toDouble_natCast m (by omega)
  have hs : toDouble (s : ℚ) = .fin (s : ℚ) := toDouble_natCast s (by omega)
  have hcc : toDouble (c : ℚ) = .fin (c : ℚ) := toDouble_natCast c (by omega)
  rw [hm, hs, hcc]
  simp only [JSNum.isFinite, and_self, if_true]
  obtain ⟨y, hy, hy0, hy1⟩ := centis_div_range c hc
  have hm60 : (JSNum.fin (m : ℚ)).mul (.fin 60) = .fin ((m * 60 : ℕ) : ℚ) := by
    have := toDouble_natCast_mul m 60 (by omega)
    simpa [JSNum.mul] using this
  have hK2 : (JSNum.fin ((m * 60 : ℕ) : ℚ)).add (.fin (s : ℚ)) = .fin ((m * 60 + s : ℕ) : ℚ) := by
    have := toDouble_natCast (m * 60 + s) (by omega)
    simpa [JSNum.add] using this
  unfold mainFormula
  rw [hm60, hK2, hy]
  simp only [JSNum.add]
  have hKq : ((m * 60 + s : ℕ) : ℚ) < 2 ^ 46 := by exact_mod_cast hK
  have hK0 : (0 : ℚ) ≤ ((m * 60 + s : ℕ) : ℚ) := Nat.cast_nonneg _
  by_cases hx : ((m * 60 + s : ℕ) : ℚ) + y = 0
  · have e1 : ((m * 60 + s : ℕ) : ℚ) = 0 := by linarith
    refine ⟨0, by rw [hx]; simp [toDouble], by rw [e1], by rw [e1]; norm_num⟩
  · have hfl := floor_toDouble_abs (x := ((m * 60 + s : ℕ) : ℚ) + y) (k := ((m * 60 + s : ℕ) : ℤ))
      (b := 47) hx (by push_cast; linarith)
      (by
        rw [abs_of_nonneg (by linarith), pow2_eq]
        norm_num at hKq hy1 ⊢
        linarith)
      (by norm_num) (by norm_num)
      (by
        have : pow2 (47 - 54) = 1 / 128 := by rw [pow2_eq]; norm_num
        rw [this]
        push_cast
        linarith)
    have h2 := Int.floor_eq_iff.1 hfl.2
    refine ⟨nearest (((m * 60 + s : ℕ) : ℚ) + y), congrArg some hfl.1, ?_, ?_⟩
    · have := h2.1
      push_cast at this ⊢
      exact this
    · have := h2.2
      push_cast at this ⊢
      exact this

/-- Witness of `main_grammar_range` on the text "1분 30초 12": the value lies in
`[90, 91)`. -/
theorem main_grammar_range_witness :
    (IsDigits "1".toList ∧ IsDigits "30".toList ∧ IsDigits "12".toList ∧ IsSpaces [] ∧
      IsSpaces " ".toList ∧ natOfDigits "1".toList * 60 + natOfDigits "30".toList < 2 ^ 46 ∧
      natOfDigits "12".toList ≤ 99) ∧
    ∃ v : ℚ, parseRecordToSeconds
        (mainText "1".toList [] " ".toList "30".toList [] " ".toList "12".toList) = some (.fin v) ∧
      ((natOfDigits "1".toList * 60 + natOfDigits "30".toList : ℕ) : ℚ) ≤ v ∧
      v < ((natOfDigits "1".toList * 60 + natOfDigits "30".toList : ℕ) : ℚ) + 1 :=
  ⟨⟨isDigits_of_all (by decide) (by decide), isDigits_of_all (by decide) (by decide),
      isDigits_of_all (by decide) (by decide), isSpaces_of_all (by decide),
      isSpaces_of_all (by decide), by decide, by decide⟩,
    main_grammar_range (isDigits_of_all (by decide) (by decide))
      (isDigits_of_all (by decide) (by decide)) (isDigits_of_all (by decide) (by decide))
      (isSpaces_of_all (by decide)) (isSpaces_of_all (by decide)) (isSpaces_of_all (by decide))
      (isSpaces_of_all (by decide)) (by decide) (by decide)⟩

/-- C15 (counterexample). The text "1분 30초 500" has the shape of the primary
grammar and parses to 95, although its centiseconds numeral 500 exceeds 99 and
the value is not below `1 * 60 + 30 + 1`. The text "75059993789508분 16초 99"
has centiseconds 99, yet its value is the integer `2 ^ 52 + 1`, one more than
`m * 60 + s`. -/
theorem main_grammar_unbounded :
    "1분 30초 500".toList = mainText "1".toList [] " ".toList "30".toList [] " ".toList
      "500".toList ∧
    parseRecordToSeconds "1분 30초 500".toList = some (.fin 95) ∧
    ¬ natOfDigits "500".toList ≤ 99 ∧
    ¬ (95 : ℚ) < ((natOfDigits "1".toList * 60 + natOfDigits "30".toList : ℕ) : ℚ) + 1 ∧
    parseRecordToSeconds "75059993789508분 16초 99".toList = some (.fin 4503599627370497) ∧
    ¬ (4503599627370497 : ℚ) <
      ((natOfDigits "75059993789508".toList * 60 + natOfDigits "16".toList : ℕ) : ℚ) + 1 := by
  decide!

/-! ### Parsing the text of a formatted value -/

/-- A value whose hundredfold rounds to the natural number `T < 2 ^ 49` is
within `9/1600` of `T / 100`. -/
theorem abs_sub_of_round (v : ℚ) (T : ℕ)
    (hT : mathRound ((JSNum.fin v).mul (.fin 100)) = .fin (T : ℚ)) (hlt : T < 2 ^ 49) :
    |(T : ℚ) / 100 - v| ≤ 9 / 1600 := by
  have hTq : (T : ℚ) + 1 ≤ 2 ^ 49 := by exact_mod_cast hlt
  have hT0 : (0 : ℚ) ≤ (T : ℚ) := Nat.cast_nonneg _
  simp only [JSNum.mul] at hT
  by_cases hq : v * 100 = 0
  · rw [hq] at hT
    have hv : v = 0 := by
      rcases mul_eq_zero.1 hq with h | h
      · exact h
      · norm_num at h
    simp only [toDouble, if_true, mathRound, JSNum.fin.injEq] at hT
    have h0 : (T : ℚ) = 0 := by
      rw [← hT]
      norm_num
    rw [h0, hv]
    norm_num
  · have hfin : toDouble (v * 100) = .fin (nearest (v * 100)) := by
      unfold toDouble at hT ⊢
      rw [if_neg hq] at hT ⊢
      split_ifs at hT ⊢ with h1 h2
      · simp [mathRound] at hT
      · simp [mathRound] at hT
      · rfl
    rw [hfin] at hT
    simp only [mathRound, JSNum.fin.injEq] at hT
    have hfl : ⌊nearest (v * 100) + 1 / 2⌋ = (T : ℤ) := by exact_mod_cast hT
    obtain ⟨hw1, hw2⟩ := Int.floor_eq_iff.1 hfl
    push_cast at hw1 hw2
    have hwabs : |nearest (v * 100)| < 2 ^ 49 := by
      rw [abs_lt]
      constructor <;> linarith
    have herr := abs_nearest_sub_le (v * 100)
    have hlt50 : |v * 100| < pow2 50 := by
      by_contra hge
      have hge : pow2 50 ≤ |v * 100| := not_lt.1 hge
      have h1074 : pow2 (-1074) ≤ |v * 100| :=
        le_trans (pow2_le_pow2 (by norm_num)) hge
      have hu := pow2_ulpExp_le_abs hq h1074
      have h3 : |v * 100| - |nearest (v * 100)| ≤ |nearest (v * 100) - v * 100| := by
        have := abs_sub_abs_le_abs_sub (v * 100) (nearest (v * 100))
        rwa [abs_sub_comm (v * 100)] at this
      rw [pow2_eq] at hge
      norm_num at hge hwabs
      linarith
    have hbin := binade_lt_of_abs_lt hq hlt50
    have hu : ulpExp (v * 100) ≤ -3 := by
      unfold ulpExp; exact max_le (by omega) (by norm_num)
    have hp : pow2 (ulpExp (v * 100)) ≤ 1 / 8 := by
      have := pow2_le_pow2 hu
      have e : pow2 (-3) = 1 / 8 := by rw [pow2_eq]; norm_num
      rwa [e] at this
    obtain ⟨he1, he2⟩ := abs_le.1 herr
    rw [abs_le]
    constructor <;> linarith

/-- **C14** (amended). Parse-format closeness in the exact range: for every
value `v` whose rounded total of centiseconds `T = Math.round(v * 100)` is a
natural number below `2 ^ 49` (in particular for every parsed time up to
about 5.6 * 10 ^ 12 seconds, whatever grammar produced it and however fine its
fraction), `parseRecordToSeconds(formatSecondsToMinSecCs(v))` is a finite
Number that differs from `v` by at most 1/100 second. -/
theorem parse_format_close (v : ℚ) (T : ℕ)
    (hT : mathRound ((JSNum.fin v).mul (.fin 100)) = .fin (T : ℚ)) (hlt : T < 2 ^ 49) :
    ∃ r : ℚ, (formatSecondsToMinSecCs (.fin v)).bind parseRecordToSeconds = some (.fin r) ∧
      |r - v| ≤ 1 / 100 := by
  obtain ⟨r, hr, hb, _⟩ := parse_text_of_centis T (by omega)
  have hf := format_of_round (.fin v) T hT (by omega)
  refine ⟨r, by rw [hf, Option.some_bind, hr], ?_⟩
  have h1 := abs_sub_of_round v T hT hlt
  have hTq : (T : ℚ) + 1 ≤ 2 ^ 49 := by exact_mod_cast hlt
  have hT0 : (0 : ℚ) ≤ (T : ℚ) := Nat.cast_nonneg _
  rw [pow2_neg51] at hb
  have h2 : (1 : ℚ) / 2251799813685248 * ((T : ℚ) / 100) ≤ 1 / 400 := by
    norm_num at hTq ⊢
    linarith
  obtain ⟨ha1, ha2⟩ := abs_le.1 (le_trans hb h2)
  obtain ⟨hb1, hb2⟩ := abs_le.1 h1
  rw [abs_le]
  constructor <;> linarith

/-- Witness of `parse_format_close` at the value parsed from "1분 30초 12",
where `T = 9012`. -/
theorem parse_format_close_witness :
    (parseRecordToSeconds "1분 30초 12".toList =
        some (.fin (792703903161385 / 8796093022208)) ∧
      mathRound ((JSNum.fin (792703903161385 / 8796093022208)).mul (.fin 100)) =
        .fin ((9012 : ℕ) : ℚ) ∧ 9012 < 2 ^ 49) ∧
    ∃ r : ℚ, (formatSecondsToMinSecCs (.fin (792703903161385 / 8796093022208))).bind
        parseRecordToSeconds = some (.fin r) ∧
      |r - 792703903161385 / 8796093022208| ≤ 1 / 100 :=
  ⟨⟨by decide!, by decide!, by norm_num⟩,
    parse_format_close (792703903161385 / 8796093022208) 9012 (by decide!) (by norm_num)⟩

/-- C14 (counterexample). The text "2000000000000000" parses to the
non-negative value `v = 2 * 10 ^ 15`; formatting `v` and parsing the text
again gives 1999999999999999.75, a quarter of a second away. A numeral of 308
nines in the minutes position parses to `Infinity`, which is `>= 0`; its
formatted text is "Infinity분 NaN초 NaN" and parses to `null`. -/
theorem parse_format_far :
    parseRecordToSeconds "2000000000000000".toList = some (.fin 2000000000000000) ∧
    (JSNum.fin 2000000000000000).ge (.fin 0) = true ∧
    (formatSecondsToMinSecCs (.fin 2000000000000000)).bind parseRecordToSeconds =
      some (.fin (7999999999999999 / 4)) ∧
    (1 : ℚ) / 100 < |7999999999999999 / 4 - 2000000000000000| ∧
    parseRecordToSeconds (List.replicate 308 '9' ++ "분 1초 1".toList) = some .posInf ∧
    JSNum.posInf.ge (.fin 0) = true ∧
    (formatSecondsToMinSecCs .posInf).bind parseRecordToSeconds = none := by
  decide!

end Leaderboard
